import Mathlib

/-!
# NetKet samplers: a shallow embedding

Embedding of the Metropolis samplers of NetKet
(`Sampler/metropolis_exchange.hh`, `Sampler/metropolis_local_pt.hh`) and of the
parts of `Hilbert/custom_hilbert.hh` they call.

Conventions of the embedding.

* `double` is an arbitrary linearly ordered field `D` (the reals are the intended
  instance, the rationals an executable one); `std::complex<double>` is a type `C`.
  The `<cmath>`/`<complex>` functions the samplers call are collected in `Numerics`.
* `Eigen::VectorXd` and `std::vector` are lists; `v(i)` is `List.getD v i 0`.
* The move counters `accept_`, `moves_` hold non-negative whole numbers and are lists
  of natural numbers.
* The random generator `rgen_` has an abstract state `G`; the distributions of
  `<random>` are the functions of an `Engine`.
* The wave function `psi_` (template parameter `WfType`) is a record of functions.
* A failing `assert` makes an operation return `none`.
-/

namespace netket

/-! ## Move candidates of the exchange sampler -/

/-- Entry `dist[i][j]` of a distance table. -/
def distAt (dist : List (List Int)) (i j : Nat) : Int :=
  (dist.getD i []).getD j 0

/-- Inner loop `for(int j=0;j<nv_;j++)` of `GenerateClusters`, row `i`. -/
def GenerateClustersRow (nv : Nat) (dist : List (List Int)) (dmax : Int) (i : Nat)
    (clusters : List (List Nat)) : List (List Nat) :=
  (List.range nv).foldl
    (fun cl j => if distAt dist i j ≤ dmax ∧ i ≠ j then cl ++ [[i, j]] else cl) clusters

/-- `MetropolisExchange::GenerateClusters`: appends to `clusters_` every `{i,j}` with
`dist[i][j]<=dmax && i!=j`; `assert(dist.size()==nv_)`. -/
def GenerateClusters (nv : Nat) (dist : List (List Int)) (dmax : Int)
    (clusters : List (List Nat)) : Option (List (List Nat)) :=
  if dist.length = nv then
    some ((List.range nv).foldl (fun cl i => GenerateClustersRow nv dist dmax i cl) clusters)
  else none

/-- Closed form of one row of `GenerateClusters`: the `{i,j}` with `j` ascending. -/
def clustersOfRow (nv : Nat) (dist : List (List Int)) (dmax : Int) (i : Nat) :
    List (List Nat) :=
  ((List.range nv).filter (fun j => decide (distAt dist i j ≤ dmax ∧ i ≠ j))).map
    (fun j => [i, j])

/-- Row-major order on clusters `{i,j}`. -/
def rowMajorLt (a b : List Nat) : Prop :=
  a.getD 0 0 < b.getD 0 0 ∨ (a.getD 0 0 = b.getD 0 0 ∧ a.getD 1 0 < b.getD 1 0)

/-- Distance table of the 4-site ring: 1 between ring neighbours, 2 between opposite sites. -/
def ring4 : List (List Int) :=
  [[0, 1, 2, 1], [1, 0, 1, 2], [2, 1, 0, 1], [1, 2, 1, 0]]

/-- A cluster `{i,j}` as an unordered pair, written smaller site first. -/
def unorderedPair (c : List Nat) : Nat × Nat :=
  (min (c.getD 0 0) (c.getD 1 0), max (c.getD 0 0) (c.getD 1 0))

/-! ## Numeric library, random generator, wave function -/

/-- The `<cmath>`/`<complex>` functions the samplers call, for `double` = `D` and
`std::complex<double>` = `C`. -/
structure Numerics (D C : Type) where
  /-- `std::exp` on `std::complex<double>`. -/
  cexp : C → C
  /-- `std::norm`: the squared magnitude of a complex number. -/
  norm : C → D
  /-- Product `double * std::complex<double>`. -/
  scale : D → C → C
  /-- `std::real`. -/
  real : C → D
  /-- `std::exp` on `double`. -/
  exp : D → D
  /-- Difference of two complex numbers. -/
  sub : C → C → C
  /-- The expression `std::abs(std::exp(z)-1.)` of the debug-build checks. -/
  absExpSubOne : C → D

/-- The generator `netket::default_random_engine` with the distributions of `<random>`:
`seed`, `std::uniform_int_distribution<int>(a,b)` and
`std::uniform_real_distribution<double>` (on `[0,1)`), each returning the new generator
state. -/
structure Engine (G D : Type) where
  seed : Int → G
  uniformInt : Int → Int → G → Int × G
  uniformReal : G → D × G

/-- Contract of the distributions: an integer draw from a non-empty range `a..b` lies in
it, a real draw lies in `[0,1)`. -/
def Engine.WellFormed {G D : Type} [LinearOrderedField D] (E : Engine G D) : Prop :=
  (∀ a b g, a ≤ b → a ≤ (E.uniformInt a b g).1 ∧ (E.uniformInt a b g).1 ≤ b) ∧
  (∀ g, 0 ≤ (E.uniformReal g).1 ∧ (E.uniformReal g).1 < 1)

/-- The amplitude oracle `WfType` as the samplers use it; `LT` is `WfType::LookupType`. -/
structure WfType (D C LT : Type) where
  /-- `LogVal(v)`. -/
  LogVal : List D → C
  /-- `LogVal(v,lt)`. -/
  LogValLt : List D → LT → C
  /-- `LogValDiff(v,tochange,newconf,lt)`. -/
  LogValDiff : List D → List Nat → List D → LT → C
  /-- `InitLookup(v,lt)`: the look-up table of `v`. -/
  InitLookup : List D → LT
  /-- `UpdateLookup(v,tochange,newconf,lt)`: the table after the update. -/
  UpdateLookup : List D → List Nat → List D → LT → LT

/-- The acceptance value `std::norm(std::exp(z))`, that is `|exp(z)|²`. -/
def normExp {D C : Type} (M : Numerics D C) (z : C) : D := M.norm (M.cexp z)

/-- `std::numeric_limits<double>::epsilon()`. -/
def epsilon {D : Type} [LinearOrderedField D] : D := 1 / 2 ^ 52

/-- Tolerance `1.0e-8` of the debug-build checks. -/
def tolerance {D : Type} [LinearOrderedField D] : D := 1 / 10 ^ 8

/-- Value of an `int` holding `x` (two's complement, 32 bits). -/
@[irreducible]
def toInt32 (x : Int) : Int := (x + 2147483648) % 4294967296 - 2147483648

/-- `Seed(baseseed)`: node 0 fills `seeds[i]=rd()+baseseed`, `SendToAll` hands the list to
every node, and the generator is seeded with `seeds[mynode_]`. `rd i` is the `i`-th value
of the `std::random_device` of node 0. -/
def Seed {G D : Type} (E : Engine G D) (rd : Nat → Nat) (totalnodes mynode : Nat)
    (baseseed : Int) : G :=
  E.seed (((List.range totalnodes).map (fun i => toInt32 ((rd i : Int) + baseseed))).getD mynode 0)

/-- `c(k)+=1` on a counter vector. -/
def incr (c : List Nat) (k : Nat) : List Nat := c.set k (c.getD k 0 + 1)

/-- The counters `accept_`, `moves_` have one size and `accept_(k) ≤ moves_(k)` for all `k`. -/
def CountersOk (a m : List Nat) : Prop :=
  a.length = m.length ∧ ∀ k, a.getD k 0 ≤ m.getD k 0

/-- Result of the `double` division of two counters (IEEE 754: `x/0` is infinite for
`x>0` and `0/0` is not a number). -/
inductive Rate where
  | val (q : ℚ)
  | inf
  | nan
  deriving DecidableEq

/-- `a/m` on two counters held as `double`. -/
def fdiv (a m : Nat) : Rate :=
  if m = 0 then (if a = 0 then Rate.nan else Rate.inf) else Rate.val ((a : ℚ) / (m : ℚ))

/-- Runs `f` `n` times, stopping at the first failure. -/
def iterateM {α : Type} (n : Nat) (f : α → Option α) (a : α) : Option α :=
  match n with
  | 0 => some a
  | n + 1 => (f a).bind (iterateM n f)

/-! ## Hilbert space -/

/-- `CustomHilbert`: local quantum numbers, their number, number of sites. -/
structure CustomHilbert (D : Type) where
  local_ : List D
  nstates_ : Int
  size_ : Int

section Hilbert
variable {D G : Type} [LinearOrderedField D]

/-- `CustomHilbert::LocalSize`. -/
def CustomHilbert.LocalSize (h : CustomHilbert D) : Int := h.nstates_

/-- `CustomHilbert::Size`. -/
def CustomHilbert.Size (h : CustomHilbert D) : Int := h.size_

/-- `CustomHilbert::LocalStates`. -/
def CustomHilbert.LocalStates (h : CustomHilbert D) : List D := h.local_

/-- `CustomHilbert::RandomVals`: `assert(state.size()==size_)`, then every entry is
`local_[distribution(rgen)]`. -/
def CustomHilbert.RandomVals (h : CustomHilbert D) (E : Engine G D) (state : List D)
    (rgen : G) : Option (List D × G) :=
  if (state.length : Int) = h.size_ then
    some ((List.range state.length).foldl
      (fun sg i =>
        let d := E.uniformInt 0 (h.nstates_ - 1) sg.2
        (sg.1.set i (h.local_.getD d.1.toNat 0), d.2))
      (state, rgen))
  else none

/-- Loop `for(auto sf: tochange){ v(sf)=newconf[i]; i++; }` of `UpdateConf`. -/
def UpdateConfLoop (newconf : List D) : List Nat → Nat → List D → List D
  | [], _, v => v
  | sf :: rest, i, v => UpdateConfLoop newconf rest (i + 1) (v.set sf (newconf.getD i 0))

/-- `CustomHilbert::UpdateConf`: `assert(v.size()==size_)`, then the loop. -/
def CustomHilbert.UpdateConf (h : CustomHilbert D) (v : List D) (tochange : List Nat)
    (newconf : List D) : Option (List D) :=
  if (v.length : Int) = h.size_ then some (UpdateConfLoop newconf tochange 0 v) else none

end Hilbert

/-! ## Exchange sampler -/

/-- Data members of `MetropolisExchange` (the references `psi_` and `hilbert_` are
arguments of the operations). -/
structure MetropolisExchange (D LT G : Type) where
  nv_ : Nat
  rgen_ : G
  v_ : List D
  accept_ : List Nat
  moves_ : List Nat
  mynode_ : Nat
  totalnodes_ : Nat
  clusters_ : List (List Nat)
  lt_ : LT

namespace MetropolisExchange
variable {D C LT G : Type} [LinearOrderedField D]

/-- `MetropolisExchange::Reset`. -/
def Reset (E : Engine G D) (psi : WfType D C LT) (hilbert : CustomHilbert D)
    (s : MetropolisExchange D LT G) (initrandom : Bool) : Option (MetropolisExchange D LT G) :=
  (if initrandom then hilbert.RandomVals E s.v_ s.rgen_ else some (s.v_, s.rgen_)).bind
    (fun vg => some { s with
      v_ := vg.1, rgen_ := vg.2, lt_ := psi.InitLookup vg.1, accept_ := [0], moves_ := [0] })

/-- `MetropolisExchange::Init`, run by both constructors (`nv_` is `hilbert_.Size()`):
resizes `v_`, `accept_`, `moves_`, reads the MPI size and rank, then
`GenerateClusters`, `Seed()`, `Reset(true)`. -/
def Init [Inhabited LT] (E : Engine G D) (psi : WfType D C LT) (hilbert : CustomHilbert D)
    (totalnodes mynode : Nat) (rd : Nat → Nat) (dist : List (List Int)) (dmax : Int) :
    Option (MetropolisExchange D LT G) :=
  (GenerateClusters hilbert.Size.toNat dist dmax []).bind (fun clusters =>
    Reset E psi hilbert
      { nv_ := hilbert.Size.toNat
        rgen_ := Seed E rd totalnodes mynode 0
        v_ := List.replicate hilbert.Size.toNat 0
        accept_ := [0]
        moves_ := [0]
        mynode_ := mynode
        totalnodes_ := totalnodes
        clusters_ := clusters
        lt_ := default }
      true)

/-- One pass of the loop body of `MetropolisExchange::Sweep`. -/
def SweepStep (M : Numerics D C) (E : Engine G D) (psi : WfType D C LT)
    (hilbert : CustomHilbert D) (s : MetropolisExchange D LT G) :
    Option (MetropolisExchange D LT G) :=
  let d := E.uniformInt 0 ((s.clusters_.length : Int) - 1) s.rgen_
  let rcl := d.1
  -- assert(rcl<clusters_.size()): an unsigned comparison
  if 0 ≤ rcl ∧ rcl < (s.clusters_.length : Int) then
    let si := (s.clusters_.getD rcl.toNat []).getD 0 0
    let sj := (s.clusters_.getD rcl.toNat []).getD 1 0
    -- assert(si<nv_ && sj<nv_)
    if si < s.nv_ ∧ sj < s.nv_ then
      if |s.v_.getD si 0 - s.v_.getD sj 0| > epsilon then
        let tochange := s.clusters_.getD rcl.toNat []
        let newconf := [s.v_.getD sj 0, s.v_.getD si 0]
        let acc := normExp M (psi.LogValDiff s.v_ tochange newconf s.lt_)
        let u := E.uniformReal d.2
        if acc > u.1 then
          (hilbert.UpdateConf s.v_ tochange newconf).bind (fun v => some { s with
            rgen_ := u.2
            accept_ := incr s.accept_ 0
            lt_ := psi.UpdateLookup s.v_ tochange newconf s.lt_
            v_ := v
            moves_ := incr s.moves_ 0 })
        else some { s with rgen_ := u.2, moves_ := incr s.moves_ 0 }
      else some { s with rgen_ := d.2, moves_ := incr s.moves_ 0 }
    else none
  else none

/-- `MetropolisExchange::Sweep`: the loop body `nv_` times. -/
def Sweep (M : Numerics D C) (E : Engine G D) (psi : WfType D C LT)
    (hilbert : CustomHilbert D) (s : MetropolisExchange D LT G) :
    Option (MetropolisExchange D LT G) :=
  iterateM s.nv_ (SweepStep M E psi hilbert) s

/-- `MetropolisExchange::Visible`. -/
def Visible (s : MetropolisExchange D LT G) : List D := s.v_

/-- `MetropolisExchange::SetVisible`. -/
def SetVisible (s : MetropolisExchange D LT G) (v : List D) : MetropolisExchange D LT G :=
  { s with v_ := v }

/-- `MetropolisExchange::Acceptance`: `acc(i)/=moves_(i)` for `i<1`. -/
def Acceptance (s : MetropolisExchange D LT G) : List Rate :=
  (List.range 1).map (fun i => fdiv (s.accept_.getD i 0) (s.moves_.getD i 0))

/-- States of the sampler reachable from construction by calls of `Sweep`, `Reset` and
`SetVisible`. -/
inductive Reachable [Inhabited LT] (M : Numerics D C) (E : Engine G D) (psi : WfType D C LT)
    (hilbert : CustomHilbert D) : MetropolisExchange D LT G → Prop where
  | init (totalnodes mynode : Nat) (rd : Nat → Nat) (dist : List (List Int)) (dmax : Int)
      (s : MetropolisExchange D LT G)
      (h : Init E psi hilbert totalnodes mynode rd dist dmax = some s) :
      Reachable M E psi hilbert s
  | sweep (s t : MetropolisExchange D LT G) (hs : Reachable M E psi hilbert s)
      (h : Sweep M E psi hilbert s = some t) : Reachable M E psi hilbert t
  | reset (s t : MetropolisExchange D LT G) (initrandom : Bool)
      (hs : Reachable M E psi hilbert s)
      (h : Reset E psi hilbert s initrandom = some t) : Reachable M E psi hilbert t
  | setVisible (s : MetropolisExchange D LT G) (v : List D)
      (hs : Reachable M E psi hilbert s) : Reachable M E psi hilbert (SetVisible s v)

end MetropolisExchange

/-! ## Local sampler with parallel tempering -/

/-- `std::vector::resize(n)`: keeps the first `n` entries and pads with `d`. -/
def resizeVec {α : Type} (l : List α) (n : Nat) (d : α) : List α :=
  l.take n ++ List.replicate (n - l.length) d

/-- `Eigen::VectorXd::resize(n)`: a vector of another size is reallocated. -/
def resizeEigen {D : Type} [Zero D] (v : List D) (n : Nat) : List D :=
  if v.length = n then v else List.replicate n 0

/-- `std::swap(l[i],l[j])`. -/
def swapAt {α : Type} (l : List α) (i j : Nat) : List α :=
  match l[i]?, l[j]? with
  | some a, some b => (l.set i b).set j a
  | _, _ => l

/-- Values of `r` in a loop `for(int r=..;r<nrep_;r+=2)` from the current `r` on; the
first argument bounds the number of passes. -/
def passLoop (nrep : Nat) : Nat → Nat → List Nat
  | 0, _ => []
  | bound + 1, r => if r < nrep then r :: passLoop nrep bound (r + 2) else []

/-- Values of `r` in the loop `for(int r=start;r<nrep_;r+=2)`, which makes fewer than
`nrep_` passes. -/
def passIndices (nrep : Nat) (start : Nat) : List Nat :=
  passLoop nrep nrep start

/-- Data members of `MetropolisLocalPt` (the references `psi_` and `hilbert_` are
arguments of the operations; `clusters_` is never used). -/
structure MetropolisLocalPt (D LT G : Type) where
  nv_ : Nat
  rgen_ : G
  v_ : List (List D)
  accept_ : List Nat
  moves_ : List Nat
  mynode_ : Nat
  totalnodes_ : Nat
  lt_ : List LT
  nrep_ : Nat
  beta_ : List D
  nstates_ : Int
  localstates_ : List D

namespace MetropolisLocalPt
variable {D C LT G : Type} [LinearOrderedField D]

/-- First loop of `Reset(true)`: `hilbert_.RandomVals(v_[i],rgen_)` for `i<nrep_`. -/
def ResetRandom (E : Engine G D) (hilbert : CustomHilbert D) (nrep : Nat)
    (v : List (List D)) (rgen : G) : Option (List (List D) × G) :=
  (List.range nrep).foldlM
    (fun vg i => (hilbert.RandomVals E (vg.1.getD i []) vg.2).bind
      (fun r => some (vg.1.set i r.1, r.2)))
    (v, rgen)

/-- `MetropolisLocalPt::Reset`. -/
def Reset (E : Engine G D) (psi : WfType D C LT) (hilbert : CustomHilbert D)
    (s : MetropolisLocalPt D LT G) (initrandom : Bool) : Option (MetropolisLocalPt D LT G) :=
  (if initrandom then ResetRandom E hilbert s.nrep_ s.v_ s.rgen_ else some (s.v_, s.rgen_)).bind
    (fun vg => some { s with
      v_ := vg.1
      rgen_ := vg.2
      lt_ := (List.range s.nrep_).foldl
        (fun lt i => lt.set i (psi.InitLookup (vg.1.getD i []))) s.lt_
      accept_ := List.replicate (2 * s.nrep_) 0
      moves_ := List.replicate (2 * s.nrep_) 0 })

/-- `MetropolisLocalPt::SetNreplicas`; `rd` are the values of the `std::random_device`
of `Seed()`. -/
def SetNreplicas [Inhabited LT] (E : Engine G D) (psi : WfType D C LT)
    (hilbert : CustomHilbert D) (rd : Nat → Nat) (s : MetropolisLocalPt D LT G) (nrep : Nat) :
    Option (MetropolisLocalPt D LT G) :=
  Reset E psi hilbert
    { s with
      nrep_ := nrep
      v_ := (List.range nrep).foldl
        (fun v i => v.set i (resizeEigen (v.getD i []) s.nv_)) (resizeVec s.v_ nrep [])
      beta_ := (List.range nrep).foldl
        (fun b (i : Nat) => b ++ [1 - (i : D) / (nrep : D)]) s.beta_
      lt_ := resizeVec s.lt_ nrep default
      accept_ := resizeEigen s.accept_ (2 * nrep)
      moves_ := resizeEigen s.moves_ (2 * nrep)
      rgen_ := Seed E rd s.totalnodes_ s.mynode_ 0 }
    true

/-- The constructors of `MetropolisLocalPt` followed by `Init`: `nv_` is
`hilbert_.Size()`, `nrep_` the given number of replicas; `Init` reads the MPI size and
rank, `LocalSize()`, `LocalStates()` and calls `SetNreplicas(nrep_)`. -/
def Init [Inhabited LT] (E : Engine G D) (psi : WfType D C LT) (hilbert : CustomHilbert D)
    (totalnodes mynode : Nat) (rd : Nat → Nat) (nrep : Nat) :
    Option (MetropolisLocalPt D LT G) :=
  SetNreplicas E psi hilbert rd
    { nv_ := hilbert.Size.toNat
      rgen_ := E.seed 0
      v_ := []
      accept_ := []
      moves_ := []
      mynode_ := mynode
      totalnodes_ := totalnodes
      lt_ := []
      nrep_ := nrep
      beta_ := []
      nstates_ := hilbert.LocalSize
      localstates_ := hilbert.LocalStates }
    nrep

/-- The loop `while(std::abs(newconf[0]-v_[rep](si))<epsilon)` of `LocalSweep`, which
draws a new state until it differs from the current value `cur`; `fuel` bounds the
number of redraws. -/
def redraw (E : Engine G D) (localstates : List D) (nstates : Int) (cur : D) :
    Nat → D → G → Option (D × G)
  | fuel, newconf0, g =>
    if |newconf0 - cur| < epsilon then
      match fuel with
      | 0 => none
      | fuel + 1 =>
        redraw E localstates nstates cur fuel
          (localstates.getD (E.uniformInt 0 (nstates - 1) g).1.toNat 0)
          (E.uniformInt 0 (nstates - 1) g).2
    else some (newconf0, g)

/-- One pass of the loop body of `MetropolisLocalPt::LocalSweep(rep)`, debug checks
included. -/
def LocalMove (M : Numerics D C) (E : Engine G D) (psi : WfType D C LT)
    (hilbert : CustomHilbert D) (fuel : Nat) (rep : Nat) (s : MetropolisLocalPt D LT G) :
    Option (MetropolisLocalPt D LT G) :=
  let d := E.uniformInt 0 ((s.nv_ : Int) - 1) s.rgen_
  let si := d.1
  -- assert(si<nv_)
  if si < (s.nv_ : Int) then
    let tochange := [si.toNat]
    let n := E.uniformInt 0 (s.nstates_ - 1) d.2
    let vrep := s.v_.getD rep []
    (redraw E s.localstates_ s.nstates_ (vrep.getD si.toNat 0) fuel
        (s.localstates_.getD n.1.toNat 0) n.2).bind (fun xg =>
      let newconf := [xg.1]
      match s.lt_[rep]? with
      | none => none
      | some ltrep =>
        let lvd := psi.LogValDiff vrep tochange newconf ltrep
        let acc := normExp M (M.scale (s.beta_.getD rep 0) lvd)
        let psival1 := psi.LogVal vrep
        if M.absExpSubOne (M.sub (psi.LogVal vrep) (psi.LogValLt vrep ltrep)) > tolerance then
          none
        else
          let u := E.uniformReal xg.2
          if acc > u.1 then
            (hilbert.UpdateConf vrep tochange newconf).bind (fun v =>
              let psival2 := psi.LogVal v
              if M.absExpSubOne (M.sub (M.sub psival2 psival1) lvd) > tolerance then none
              else some { s with
                rgen_ := u.2
                accept_ := incr s.accept_ rep
                lt_ := s.lt_.set rep (psi.UpdateLookup vrep tochange newconf ltrep)
                v_ := s.v_.set rep v
                moves_ := incr s.moves_ rep })
          else some { s with rgen_ := u.2, moves_ := incr s.moves_ rep })
  else none

/-- `MetropolisLocalPt::LocalSweep(rep)`: the loop body `nv_` times. -/
def LocalSweep (M : Numerics D C) (E : Engine G D) (psi : WfType D C LT)
    (hilbert : CustomHilbert D) (fuel : Nat) (rep : Nat) (s : MetropolisLocalPt D LT G) :
    Option (MetropolisLocalPt D LT G) :=
  iterateM s.nv_ (LocalMove M E psi hilbert fuel rep) s

/-- `MetropolisLocalPt::ExchangeProb(r1,r2)`. -/
def ExchangeProb (M : Numerics D C) (psi : WfType D C LT) (s : MetropolisLocalPt D LT G)
    (r1 r2 : Nat) : Option D :=
  match s.lt_[r1]?, s.lt_[r2]? with
  | some lt1, some lt2 =>
    let lf1 := 2 * M.real (psi.LogValLt (s.v_.getD r1 []) lt1)
    let lf2 := 2 * M.real (psi.LogValLt (s.v_.getD r2 []) lt2)
    some (M.exp ((s.beta_.getD r1 0 - s.beta_.getD r2 0) * (lf2 - lf1)))
  | _, _ => none

/-- `MetropolisLocalPt::Exchange(r1,r2)`. -/
def Exchange (s : MetropolisLocalPt D LT G) (r1 r2 : Nat) : MetropolisLocalPt D LT G :=
  { s with v_ := swapAt s.v_ r1 r2, lt_ := swapAt s.lt_ r1 r2 }

/-- Body of the two exchange loops of `Sweep` for the pair `(r,r-1)`. -/
def ExchangeAttempt (M : Numerics D C) (E : Engine G D) (psi : WfType D C LT) (r : Nat)
    (s : MetropolisLocalPt D LT G) : Option (MetropolisLocalPt D LT G) :=
  (ExchangeProb M psi s r (r - 1)).bind (fun p =>
    let u := E.uniformReal s.rgen_
    if p > u.1 then
      some { Exchange s r (r - 1) with
        rgen_ := u.2
        accept_ := incr (incr s.accept_ (s.nrep_ + r)) (s.nrep_ + r - 1)
        moves_ := incr (incr s.moves_ (s.nrep_ + r)) (s.nrep_ + r - 1) }
    else
      some { s with
        rgen_ := u.2
        moves_ := incr (incr s.moves_ (s.nrep_ + r)) (s.nrep_ + r - 1) })

/-- Runs `f r` for the `r` of a list in turn, stopping at the first failure. -/
def forEachM {α : Type} (rs : List Nat) (f : Nat → α → Option α) (a : α) : Option α :=
  rs.foldlM (fun x r => f r x) a

/-- `MetropolisLocalPt::Sweep`: the local sweeps of all replicas, then the exchange
attempts for `r=1,3,..` and for `r=2,4,..`. -/
def Sweep (M : Numerics D C) (E : Engine G D) (psi : WfType D C LT)
    (hilbert : CustomHilbert D) (fuel : Nat) (s : MetropolisLocalPt D LT G) :
    Option (MetropolisLocalPt D LT G) :=
  (forEachM (List.range s.nrep_) (LocalSweep M E psi hilbert fuel) s).bind (fun s1 =>
    (forEachM (passIndices s1.nrep_ 1) (ExchangeAttempt M E psi) s1).bind (fun s2 =>
      forEachM (passIndices s2.nrep_ 2) (ExchangeAttempt M E psi) s2))

/-- `MetropolisLocalPt::Visible`. -/
def Visible (s : MetropolisLocalPt D LT G) : List D := s.v_.getD 0 []

/-- `MetropolisLocalPt::SetVisible`. -/
def SetVisible (s : MetropolisLocalPt D LT G) (v : List D) : MetropolisLocalPt D LT G :=
  { s with v_ := s.v_.set 0 v }

/-- `MetropolisLocalPt::Acceptance`: `acc(i)/=moves_(i)` for `i<acc.size()`. -/
def Acceptance (s : MetropolisLocalPt D LT G) : List Rate :=
  (List.range s.accept_.length).map (fun i => fdiv (s.accept_.getD i 0) (s.moves_.getD i 0))

/-- States of the sampler reachable from construction by calls of `Sweep`, `Reset` and
`SetVisible`. -/
inductive Reachable [Inhabited LT] (M : Numerics D C) (E : Engine G D) (psi : WfType D C LT)
    (hilbert : CustomHilbert D) : MetropolisLocalPt D LT G → Prop where
  | init (totalnodes mynode : Nat) (rd : Nat → Nat) (nrep : Nat)
      (s : MetropolisLocalPt D LT G)
      (h : Init E psi hilbert totalnodes mynode rd nrep = some s) :
      Reachable M E psi hilbert s
  | sweep (fuel : Nat) (s t : MetropolisLocalPt D LT G) (hs : Reachable M E psi hilbert s)
      (h : Sweep M E psi hilbert fuel s = some t) : Reachable M E psi hilbert t
  | reset (s t : MetropolisLocalPt D LT G) (initrandom : Bool)
      (hs : Reachable M E psi hilbert s)
      (h : Reset E psi hilbert s initrandom = some t) : Reachable M E psi hilbert t
  | setVisible (s : MetropolisLocalPt D LT G) (v : List D)
      (hs : Reachable M E psi hilbert s) : Reachable M E psi hilbert (SetVisible s v)

end MetropolisLocalPt

/-- The configuration `w` arises from `v` by exchanging, one after the other, the values
of the two sites of candidate pairs. -/
inductive ExchangePath {D : Type} [Zero D] (clusters : List (List Nat)) :
    List D → List D → Prop where
  | refl (v : List D) : ExchangePath clusters v v
  | step (v w : List D) (si sj : Nat) (h : ExchangePath clusters v w)
      (hc : [si, sj] ∈ clusters) (hsi : si < w.length) (hsj : sj < w.length) :
      ExchangePath clusters v ((w.set si (w.getD sj 0)).set sj (w.getD si 0))

/-- Every site of every replica holds one of the local states. -/
def MetropolisLocalPt.Legal {D LT G : Type} (s : MetropolisLocalPt D LT G) : Prop :=
  ∀ c ∈ s.v_, ∀ x ∈ c, x ∈ s.localstates_

/-! ## Transverse-field Ising model -/

/-- Data members of `Ising` that `FindConn` reads. -/
structure Ising (D : Type) where
  nspins_ : Nat
  h_ : D
  J_ : D
  bonds_ : List (List Nat)

/-- `Ising::GenerateBonds` for the adjacency list `adj`: `bonds_[i]` collects the
neighbours `s>i` of `i`. -/
def Ising.GenerateBonds (nspins : Nat) (adj : List (List Nat)) : List (List Nat) :=
  (List.range nspins).foldl
    (fun bonds i =>
      (adj.getD i []).foldl
        (fun bonds s => if s > i then bonds.set i (bonds.getD i [] ++ [s]) else bonds) bonds)
    (List.replicate nspins [])

/-- The constructors of `Ising` with `Init`, as far as `FindConn` is concerned. -/
def Ising.Init {D : Type} (nspins : Nat) (adj : List (List Nat)) (h J : D) : Ising D :=
  { nspins_ := nspins, h_ := h, J_ := J, bonds_ := Ising.GenerateBonds nspins adj }

/-- The three output vectors of `FindConn`; the matrix elements are real and held as
`double`. -/
structure Conn (D : Type) where
  mel : List D
  connectors : List (List Nat)
  newconfs : List (List D)

/-- Body of the loop over the spins `i` in `FindConn`. -/
def Ising.FindConnStep {D : Type} [LinearOrderedField D] (H : Ising D) (v : List D)
    (c : Conn D) (i : Nat) : Conn D :=
  (H.bonds_.getD i []).foldl
    (fun c bond =>
      { c with mel := c.mel.set 0 (c.mel.getD 0 0 - H.J_ * v.getD i 0 * v.getD bond 0) })
    { mel := c.mel.set (i + 1) (-H.h_)
      connectors := c.connectors.set (i + 1) (c.connectors.getD (i + 1) [] ++ [i])
      newconfs := c.newconfs.set (i + 1) (c.newconfs.getD (i + 1) [] ++ [-(v.getD i 0)]) }

/-- `Ising::FindConn(v,mel,connectors,newconfs)`; `mel` is the vector the caller passes. -/
def Ising.FindConn {D : Type} [LinearOrderedField D] (H : Ising D) (v : List D)
    (mel : List D) : Conn D :=
  (List.range H.nspins_).foldl (Ising.FindConnStep H v)
    { mel := (resizeVec mel (H.nspins_ + 1) 0).set 0 0
      connectors := List.replicate (H.nspins_ + 1) []
      newconfs := List.replicate (H.nspins_ + 1) [] }

/-- The bonds of the model as pairs `(i,s)`. -/
def Ising.bondPairs {D : Type} (H : Ising D) : List (Nat × Nat) :=
  (List.range H.nspins_).flatMap (fun i => (H.bonds_.getD i []).map (fun s => (i, s)))

/-- The connected state `v'(k)`: `v` with `newconfs(k,j)` at the sites `connectors(k,j)`. -/
def Conn.state {D : Type} [LinearOrderedField D] (c : Conn D) (v : List D) (k : Nat) :
    List D :=
  UpdateConfLoop (c.newconfs.getD k []) (c.connectors.getD k []) 0 v

/-! ## Construction of the Hilbert space from parameters -/

/-- The fields of `pars["Hilbert"]` that the constructor of `CustomHilbert` reads; `none`
is an absent field. -/
structure HilbertPars (D : Type) where
  QuantumNumbers : Option (List D)
  Size : Option Int

/-- What a constructor does: the lines written to `cerr`, and the object it builds unless
`std::abort()` is called. -/
structure Construction (α : Type) where
  cerr : List String
  result : Option α

/-- `CustomHilbert::CustomHilbert(const json & pars)`; `garbage` is the value an
`int size_` that is never assigned happens to hold. -/
def CustomHilbert.fromJson {D : Type} (pars : HilbertPars D) (garbage : Int) :
    Construction (CustomHilbert D) :=
  let q : List String × List D :=
    match pars.QuantumNumbers with
    | some l => ([], l)
    | none => (["QuantumNumbers are not defined"], [])
  match pars.Size with
  | some n =>
    if n ≤ 0 then
      { cerr := q.1 ++ ["Hilbert Size parameter must be positive"], result := none }
    else
      { cerr := q.1, result := some { local_ := q.2, nstates_ := q.2.length, size_ := n } }
  | none =>
    { cerr := q.1 ++ ["Hilbert space extent is not defined"]
      result := some { local_ := q.2, nstates_ := q.2.length, size_ := garbage } }

/-! ## Matrices from json -/

/-- An `Eigen::Matrix<T,Dynamic,Dynamic>`: its sizes and its rows. -/
structure DynMatrix (T : Type) where
  rows : Nat
  cols : Nat
  coeff : List (List T)
  deriving DecidableEq

/-- The coefficient `v(i,j)`. -/
def DynMatrix.at {T : Type} (v : DynMatrix T) (i j : Nat) (d : T) : T :=
  (v.coeff.getD i []).getD j d

/-- `to_json` for `Matrix<T,Dynamic,Dynamic>`: the list of rows. -/
def to_json {T : Type} (v : DynMatrix T) (d : T) : List (List T) :=
  (List.range v.rows).map (fun i => (List.range v.cols).map (fun j => v.at i j d))

/-- `from_json` for `Matrix<T,Dynamic,Dynamic>`; `none` is `std::abort()` after the
message "Error while loading Eigen Matrix from Json", `uninit` is what an entry of `v`
holds after `resize` until it is assigned. -/
def from_json {T : Type} (temp : List (List T)) (uninit : T) : Option (DynMatrix T) :=
  if (temp.getD 0 []).length = 0 then none
  else
    ((List.range temp.length).foldlM
      (fun c i =>
        (List.range (temp.getD i []).length).foldlM
          (fun c j =>
            if (temp.getD i []).length ≠ (temp.getD 0 []).length then none
            else some (c.set i ((c.getD i []).set j ((temp.getD i []).getD j uninit))))
          c)
      (List.replicate temp.length (List.replicate (temp.getD 0 []).length uninit))).map
      (fun c => { rows := temp.length, cols := (temp.getD 0 []).length, coeff := c })

/-! ## A small executable instance -/

/-- Rational stand-in for the numeric library: `exp` is replaced by `1+z`, which agrees
with it at `0`. -/
def demoNumerics : Numerics ℚ ℚ where
  cexp := fun z => 1 + z
  norm := fun z => z * z
  scale := fun b z => b * z
  real := fun z => z
  exp := fun x => 1 + x
  sub := fun a b => a - b
  absExpSubOne := fun z => |z|

/-- A counter as generator: integer draws run through the requested range, real draws
are `1/2`. -/
def demoEngine : Engine Nat ℚ where
  seed := fun x => x.toNat
  uniformInt := fun a b g => (a + (g : Int) % (b - a + 1), g + 1)
  uniformReal := fun g => (1 / 2, g + 1)

/-- The wave function with constant amplitude 1 (log-amplitude 0) and a trivial look-up
table. -/
def demoPsi : WfType ℚ ℚ Unit where
  LogVal := fun _ => 0
  LogValLt := fun _ _ => 0
  LogValDiff := fun _ _ _ _ => 0
  InitLookup := fun _ => ()
  UpdateLookup := fun _ _ _ _ => ()

/-- A wave function with constant amplitude 1 whose look-up table is a copy of the
configuration; `UpdateLookup` returns the table of the updated configuration. -/
def demoPsiCache : WfType ℚ ℚ (List ℚ) where
  LogVal := fun _ => 0
  LogValLt := fun _ _ => 0
  LogValDiff := fun _ _ _ _ => 0
  InitLookup := fun v => v
  UpdateLookup := fun v tochange newconf _ => UpdateConfLoop newconf tochange 0 v

/-- Spin-1/2 Hilbert space on 4 sites. -/
def demoHilbert : CustomHilbert ℚ where
  local_ := [-1, 1]
  nstates_ := 2
  size_ := 4

/-- The exchange sampler that `Init` returns on the 4-site ring with `dmax=1`. -/
def demoExchangeState : MetropolisExchange ℚ Unit Nat where
  nv_ := 4
  rgen_ := 4
  v_ := [-1, 1, -1, 1]
  accept_ := [0]
  moves_ := [0]
  mynode_ := 0
  totalnodes_ := 1
  clusters_ := [[0, 1], [0, 3], [1, 0], [1, 2], [2, 1], [2, 3], [3, 0], [3, 2]]
  lt_ := ()

/-- The tempering sampler that `Init` returns for 3 replicas. -/
def demoPtState : MetropolisLocalPt ℚ Unit Nat where
  nv_ := 4
  rgen_ := 12
  v_ := [[-1, 1, -1, 1], [-1, 1, -1, 1], [-1, 1, -1, 1]]
  accept_ := [0, 0, 0, 0, 0, 0]
  moves_ := [0, 0, 0, 0, 0, 0]
  mynode_ := 0
  totalnodes_ := 1
  lt_ := [(), (), ()]
  nrep_ := 3
  beta_ := [1, 2 / 3, 1 / 3]
  nstates_ := 2
  localstates_ := [-1, 1]

/-- The tempering sampler that `Init` returns for 1 replica. -/
def demoPtState1 : MetropolisLocalPt ℚ Unit Nat where
  nv_ := 4
  rgen_ := 4
  v_ := [[-1, 1, -1, 1]]
  accept_ := [0, 0]
  moves_ := [0, 0]
  mynode_ := 0
  totalnodes_ := 1
  lt_ := [()]
  nrep_ := 1
  beta_ := [1]
  nstates_ := 2
  localstates_ := [-1, 1]

/-- The tempering sampler that `Init` returns for 5 replicas. -/
def demoPtState5 : MetropolisLocalPt ℚ Unit Nat where
  nv_ := 4
  rgen_ := 20
  v_ := [[-1, 1, -1, 1], [-1, 1, -1, 1], [-1, 1, -1, 1], [-1, 1, -1, 1], [-1, 1, -1, 1]]
  accept_ := [0, 0, 0, 0, 0, 0, 0, 0, 0, 0]
  moves_ := [0, 0, 0, 0, 0, 0, 0, 0, 0, 0]
  mynode_ := 0
  totalnodes_ := 1
  lt_ := [(), (), (), (), ()]
  nrep_ := 5
  beta_ := [1, 4 / 5, 3 / 5, 2 / 5, 1 / 5]
  nstates_ := 2
  localstates_ := [-1, 1]

/-- The sampler `demoPtState5` after the local sweeps of the replicas `0..n-1`. -/
def demoPtLocal5 (n : Nat) : MetropolisLocalPt ℚ Unit Nat :=
  { demoPtState5 with
    v_ := List.replicate n [1, -1, 1, -1] ++ List.replicate (5 - n) [-1, 1, -1, 1]
    rgen_ := 20 + 12 * n
    accept_ := List.replicate n 4 ++ List.replicate (10 - n) 0
    moves_ := List.replicate n 4 ++ List.replicate (10 - n) 0 }

/-! ## Theorems -/

/-! ### Move candidates -/

theorem foldl_push_filter {α β : Type} (p : α → Prop) [DecidablePred p] (f : α → β)
    (l : List α) (init : List β) :
    l.foldl (fun cl j => if p j then cl ++ [f j] else cl) init
      = init ++ (l.filter (fun j => decide (p j))).map f := by
  induction l generalizing init with
  | nil => simp
  | cons a l ih =>
    simp only [List.foldl_cons, ih]
    by_cases h : p a <;> simp [h, List.filter_cons]

theorem foldl_append_flatMap {α β : Type} (g : α → List β) (l : List α) (init : List β) :
    l.foldl (fun cl i => cl ++ g i) init = init ++ l.flatMap g := by
  induction l generalizing init with
  | nil => simp
  | cons a l ih => simp [List.foldl_cons, ih, List.flatMap_cons]

theorem GenerateClustersRow_eq (nv : Nat) (dist : List (List Int)) (dmax : Int) (i : Nat)
    (clusters : List (List Nat)) :
    GenerateClustersRow nv dist dmax i clusters = clusters ++ clustersOfRow nv dist dmax i := by
  unfold GenerateClustersRow clustersOfRow
  exact foldl_push_filter (fun j => distAt dist i j ≤ dmax ∧ i ≠ j) (fun j => [i, j]) _ _

theorem GenerateClusters_eq (nv : Nat) (dist : List (List Int)) (dmax : Int)
    (clusters : List (List Nat)) (hlen : dist.length = nv) :
    GenerateClusters nv dist dmax clusters
      = some (clusters ++ (List.range nv).flatMap (clustersOfRow nv dist dmax)) := by
  unfold GenerateClusters
  rw [if_pos hlen]
  simp only [GenerateClustersRow_eq]
  rw [foldl_append_flatMap]

theorem mem_clustersOfRow (nv : Nat) (dist : List (List Int)) (dmax : Int) (i : Nat) (c : List Nat) :
    c ∈ clustersOfRow nv dist dmax i ↔ ∃ j, c = [i, j] ∧ j < nv ∧ i ≠ j ∧ distAt dist i j ≤ dmax := by
  unfold clustersOfRow
  simp only [List.mem_map, List.mem_filter, List.mem_range, decide_eq_true_eq]
  constructor
  · rintro ⟨j, ⟨hj, hd, hne⟩, rfl⟩; exact ⟨j, rfl, hj, hne, hd⟩
  · rintro ⟨j, rfl, hj, hne, hd⟩; exact ⟨j, ⟨hj, hd, hne⟩, rfl⟩

theorem nodup_clustersOfRow (nv : Nat) (dist : List (List Int)) (dmax : Int) (i : Nat) :
    (clustersOfRow nv dist dmax i).Pairwise rowMajorLt := by
  unfold clustersOfRow
  rw [List.pairwise_map]
  apply List.Pairwise.filter
  apply (List.pairwise_lt_range nv).imp
  intro a b hab
  right
  simp [hab]

theorem count_eq_one_of_nodup {α : Type} [BEq α] [LawfulBEq α] (a : α) (l : List α)
    (hnd : l.Nodup) (ha : a ∈ l) : l.count a = 1 := by
  induction l with
  | nil => simp at ha
  | cons b l ih =>
    rw [List.nodup_cons] at hnd
    rw [List.count_cons]
    rcases List.mem_cons.1 ha with rfl | h
    · simp [List.count_eq_zero_of_not_mem hnd.1]
    · have hne : (b == a) = false := by
        apply beq_false_of_ne
        rintro rfl
        exact hnd.1 h
      simp [ih hnd.2 h, hne]

/-- C1: on an `N×N` distance table `GenerateClusters`, started from the empty list,
returns a list that holds `{i,j}` exactly when `i,j<N`, `i≠j` and `dist[i][j]≤dmax`, holds
each such pair once, and is in row-major order. -/
theorem GenerateClusters_spec (nv : Nat) (dist : List (List Int)) (dmax : Int)
    (hlen : dist.length = nv) (_hrows : ∀ row ∈ dist, row.length = nv) :
    ∃ cl, GenerateClusters nv dist dmax [] = some cl ∧
      (∀ c, c ∈ cl ↔ ∃ i j, c = [i, j] ∧ i < nv ∧ j < nv ∧ i ≠ j ∧ distAt dist i j ≤ dmax) ∧
      (∀ i j, i < nv → j < nv → i ≠ j → distAt dist i j ≤ dmax → cl.count [i, j] = 1) ∧
      cl.Pairwise rowMajorLt := by
  have hmem : ∀ c, c ∈ (List.range nv).flatMap (clustersOfRow nv dist dmax) ↔
      ∃ i j, c = [i, j] ∧ i < nv ∧ j < nv ∧ i ≠ j ∧ distAt dist i j ≤ dmax := by
    intro c
    simp only [List.mem_flatMap, List.mem_range, mem_clustersOfRow]
    constructor
    · rintro ⟨i, hi, j, rfl, hj, hne, hd⟩; exact ⟨i, j, rfl, hi, hj, hne, hd⟩
    · rintro ⟨i, j, rfl, hi, hj, hne, hd⟩; exact ⟨i, hi, j, rfl, hj, hne, hd⟩
  have hpw : ((List.range nv).flatMap (clustersOfRow nv dist dmax)).Pairwise rowMajorLt := by
    rw [List.pairwise_flatMap]
    refine ⟨fun i _ => nodup_clustersOfRow nv dist dmax i, ?_⟩
    apply (List.pairwise_lt_range nv).imp
    intro a b hab x hx y hy
    rw [mem_clustersOfRow] at hx hy
    obtain ⟨j, rfl, -⟩ := hx
    obtain ⟨k, rfl, -⟩ := hy
    left
    simpa using hab
  have hnd : ((List.range nv).flatMap (clustersOfRow nv dist dmax)).Nodup := by
    apply hpw.imp
    intro a b hab heq
    subst heq
    rcases hab with h | ⟨_, h⟩ <;> exact lt_irrefl _ h
  refine ⟨_, by simpa using GenerateClusters_eq nv dist dmax [] hlen, hmem, ?_, hpw⟩
  intro i j hi hj hne hd
  exact count_eq_one_of_nodup _ _ hnd ((hmem _).2 ⟨i, j, rfl, hi, hj, hne, hd⟩)

theorem GenerateClusters_spec_witness :
    ∃ cl, GenerateClusters 4 ring4 1 [] = some cl ∧
      (∀ c, c ∈ cl ↔ ∃ i j, c = [i, j] ∧ i < 4 ∧ j < 4 ∧ i ≠ j ∧ distAt ring4 i j ≤ 1) ∧
      (∀ i j, i < 4 → j < 4 → i ≠ j → distAt ring4 i j ≤ 1 → cl.count [i, j] = 1) ∧
      cl.Pairwise rowMajorLt :=
  GenerateClusters_spec 4 ring4 1 (by decide) (by decide)

/-- C2: on the 4-site ring with `dmax=1` the candidate list holds `{i,j}` exactly for the
ring neighbours; as unordered pairs these are the 4 nearest-neighbour pairs (each is
listed in both orientations, 8 entries) and no diagonal pair occurs. -/
theorem GenerateClusters_ring4 :
    ∃ cl, GenerateClusters 4 ring4 1 [] = some cl ∧
      (∀ i j, [i, j] ∈ cl ↔ i < 4 ∧ j < 4 ∧ ((i + 1) % 4 = j ∨ (j + 1) % 4 = i)) ∧
      (cl.map unorderedPair).toFinset = {(0, 1), (1, 2), (2, 3), (0, 3)} ∧
      ((cl.map unorderedPair).toFinset).card = 4 ∧
      [0, 2] ∉ cl ∧ [2, 0] ∉ cl ∧ [1, 3] ∉ cl ∧ [3, 1] ∉ cl ∧
      (∀ c ∈ cl, distAt ring4 (c.getD 0 0) (c.getD 1 0) = 1) ∧
      cl = [[0, 1], [0, 3], [1, 0], [1, 2], [2, 1], [2, 3], [3, 0], [3, 2]] := by
  refine ⟨[[0, 1], [0, 3], [1, 0], [1, 2], [2, 1], [2, 3], [3, 0], [3, 2]], by decide, ?_,
    by decide, by decide, by decide, by decide, by decide, by decide, by decide, rfl⟩
  intro i j
  simp only [List.mem_cons, List.cons.injEq, and_true, List.mem_singleton, List.not_mem_nil,
    or_false]
  omega

/-! ### Generic facts on loops and lists -/

theorem iterateM_none {α : Type} (n : Nat) (f : α → Option α) (a : α) (hn : 0 < n)
    (h : f a = none) : iterateM n f a = none := by
  cases n with
  | zero => omega
  | succ n => simp [iterateM, h]

theorem getD_set_self {α : Type} (l : List α) (i : Nat) (a d : α) (h : i < l.length) :
    (l.set i a).getD i d = a := by
  simp [List.getD_eq_getElem?_getD, List.getElem?_set, h]

theorem getD_set_of_ne {α : Type} (l : List α) (i j : Nat) (a d : α) (h : i ≠ j) :
    (l.set i a).getD j d = l.getD j d := by
  simp [List.getD_eq_getElem?_getD, List.getElem?_set, h]

/-! ### Exchange sampler -/

theorem MetropolisExchange.SweepStep_of_no_clusters {D C LT G : Type} [LinearOrderedField D]
    (M : Numerics D C) (E : Engine G D) (psi : WfType D C LT) (hilbert : CustomHilbert D)
    (s : MetropolisExchange D LT G) (h : s.clusters_ = []) :
    MetropolisExchange.SweepStep M E psi hilbert s = none := by
  unfold MetropolisExchange.SweepStep
  simp only [h, List.length_nil, Nat.cast_zero]
  rw [if_neg]
  intro hc
  omega

/-- C3: on the 4-site ring with `dmax=0` no pair qualifies, and the construction of the
exchange sampler nevertheless returns a sampler; its candidate list is empty and every
`Sweep` on it stops at `assert(rcl<clusters_.size())`. -/
theorem MetropolisExchange.Init_with_no_candidates :
    ∃ s : MetropolisExchange ℚ Unit Nat,
      MetropolisExchange.Init demoEngine demoPsi demoHilbert 1 0 (fun _ => 0) ring4 0 = some s ∧
      s.clusters_ = [] ∧
      ∀ (M : Numerics ℚ ℚ) (E : Engine Nat ℚ) (psi : WfType ℚ ℚ Unit),
        MetropolisExchange.Sweep M E psi demoHilbert s = none := by
  refine ⟨_, rfl, rfl, ?_⟩
  intro M E psi
  exact iterateM_none _ _ _ (by decide)
    (MetropolisExchange.SweepStep_of_no_clusters M E psi demoHilbert _ rfl)

/-! ### Exchange schedule of the tempering sampler -/

theorem mem_passLoop (nrep : Nat) :
    ∀ (n start r : Nat), nrep - start ≤ n →
      (r ∈ passLoop nrep n start ↔ start ≤ r ∧ r < nrep ∧ (r - start) % 2 = 0) := by
  intro n
  induction n with
  | zero =>
    intro start r h
    simp only [passLoop, List.not_mem_nil, false_iff]
    omega
  | succ n ih =>
    intro start r h
    by_cases hlt : start < nrep
    · simp only [passLoop, if_pos hlt, List.mem_cons, ih (start + 2) r (by omega)]
      omega
    · simp only [passLoop, if_neg hlt, List.not_mem_nil, false_iff]
      omega

theorem passLoop_sorted (nrep : Nat) :
    ∀ (n start : Nat), nrep - start ≤ n →
      (passLoop nrep n start).Pairwise (fun a b => a < b) := by
  intro n
  induction n with
  | zero =>
    intro start _
    exact List.Pairwise.nil
  | succ n ih =>
    intro start h
    by_cases hlt : start < nrep
    · simp only [passLoop, if_pos hlt, List.pairwise_cons]
      refine ⟨?_, ih (start + 2) (by omega)⟩
      intro b hb
      rw [mem_passLoop nrep n (start + 2) b (by omega)] at hb
      omega
    · simp only [passLoop, if_neg hlt]
      exact List.Pairwise.nil

theorem mem_passIndices (nrep start r : Nat) :
    r ∈ passIndices nrep start ↔ start ≤ r ∧ r < nrep ∧ (r - start) % 2 = 0 :=
  mem_passLoop nrep nrep start r (by omega)

theorem passIndices_sorted (nrep start : Nat) :
    (passIndices nrep start).Pairwise (fun a b => a < b) :=
  passLoop_sorted nrep nrep start (by omega)

/-! ### Detailed balance of the acceptance rule -/

theorem exp_mul_min_exp_sub (a b : ℝ) :
    Real.exp a * min 1 (Real.exp (b - a)) = Real.exp b * min 1 (Real.exp (a - b)) := by
  rcases le_total a b with h | h
  · rw [min_eq_left (Real.one_le_exp (by linarith)),
      min_eq_right (Real.exp_le_one_iff.2 (by linarith)), mul_one, ← Real.exp_add]
    congr 1
    ring
  · rw [min_eq_right (Real.exp_le_one_iff.2 (by linarith)),
      min_eq_left (Real.one_le_exp (by linarith)), mul_one, ← Real.exp_add]
    congr 1
    ring

/-- C6: over the reals, with `|exp(z)|²` computed as in the samplers, the acceptance
probability `min(1,|exp(βΔ)|²)` satisfies detailed balance for the weight `|ψ|^(2β)`:
for log-amplitudes `lv` of `v` and `lv'` of `v'` and `Δ = lv' - lv`,
`|ψ(v)|^(2β)·min(1,|exp(βΔ)|²) = |ψ(v')|^(2β)·min(1,|exp(-βΔ)|²)`; for `β = 1`, in the form
used by the exchange sampler, `|ψ(v)|²·min(1,|exp(Δ)|²) = |ψ(v')|²·min(1,|exp(-Δ)|²)`. -/
theorem detailed_balance :
    let M : Numerics ℝ ℂ :=
      Numerics.mk Complex.exp Complex.normSq (fun b z => (b : ℂ) * z) Complex.re Real.exp
        (fun x y => x - y) (fun z => Complex.abs (Complex.exp z - 1))
    (∀ (β : ℝ) (lv lv' : ℂ),
      Complex.abs (Complex.exp lv) ^ (2 * β) * min 1 (normExp M (M.scale β (lv' - lv)))
        = Complex.abs (Complex.exp lv') ^ (2 * β)
            * min 1 (normExp M (M.scale β (-(lv' - lv))))) ∧
    (∀ (lv lv' : ℂ),
      Complex.normSq (Complex.exp lv) * min 1 (normExp M (lv' - lv))
        = Complex.normSq (Complex.exp lv') * min 1 (normExp M (-(lv' - lv)))) := by
  intro M
  have key : ∀ (β : ℝ) (z : ℂ),
      normExp M (M.scale β z) = Real.exp (2 * β * z.re) := by
    intro β z
    simp only [M, normExp, Complex.normSq_eq_abs, Complex.abs_exp]
    rw [← Real.exp_nat_mul]
    congr 1
    simp
    ring
  have key1 : ∀ z : ℂ, normExp M z = Real.exp (2 * z.re) := by
    intro z
    simp only [M, normExp, Complex.normSq_eq_abs, Complex.abs_exp]
    rw [← Real.exp_nat_mul]
    congr 1
  constructor
  · intro β lv lv'
    rw [key, key, Complex.abs_exp, Complex.abs_exp, ← Real.exp_mul, ← Real.exp_mul]
    have e1 : 2 * β * (lv' - lv).re = lv'.re * (2 * β) - lv.re * (2 * β) := by
      simp
      ring
    have e2 : 2 * β * (-(lv' - lv)).re = lv.re * (2 * β) - lv'.re * (2 * β) := by
      simp
      ring
    rw [e1, e2]
    exact exp_mul_min_exp_sub _ _
  · intro lv lv'
    rw [key1, key1, Complex.normSq_eq_abs, Complex.normSq_eq_abs, Complex.abs_exp,
      Complex.abs_exp, ← Real.exp_nat_mul, ← Real.exp_nat_mul]
    have e1 : 2 * (lv' - lv).re = ((2 : ℕ) : ℝ) * lv'.re - ((2 : ℕ) : ℝ) * lv.re := by
      simp
      ring
    have e2 : 2 * (-(lv' - lv)).re = ((2 : ℕ) : ℝ) * lv.re - ((2 : ℕ) : ℝ) * lv'.re := by
      simp
      ring
    rw [e1, e2]
    exact exp_mul_min_exp_sub _ _

theorem lt_min_one_iff {D : Type} [LinearOrderedField D] (u a : D) (hu : u < 1) :
    u < min 1 a ↔ a > u := by
  rw [lt_min_iff]
  exact ⟨fun h => h.2, fun h => ⟨hu, h⟩⟩

/-- C8: one pass of the loop body of `MetropolisExchange::Sweep` that draws a cluster
`{si,sj}` whose two values differ and then the uniform variate `u<1`. With
`Δ = LogValDiff(v,{si,sj},{v(sj),v(si)},lt)` on the unchanged `v`, `lt`: if
`u < min(1,|exp Δ|²)` the values at `si` and `sj` are swapped, every other site is
unchanged, the table is updated and `accept_[0]` grows by 1; otherwise configuration,
table and `accept_` are unchanged; `moves_[0]` grows by 1 in both cases. -/
theorem MetropolisExchange.SweepStep_spec {D C LT G : Type} [LinearOrderedField D]
    (M : Numerics D C) (E : Engine G D) (psi : WfType D C LT) (hilbert : CustomHilbert D)
    (s : MetropolisExchange D LT G) (rcl : Int) (g1 g2 : G) (si sj : Nat) (u : D)
    (hsize : (s.v_.length : Int) = hilbert.size_) (hnv : s.v_.length = s.nv_)
    (hacc : s.accept_.length = 1) (hmov : s.moves_.length = 1)
    (hdraw : E.uniformInt 0 ((s.clusters_.length : Int) - 1) s.rgen_ = (rcl, g1))
    (hrcl : 0 ≤ rcl ∧ rcl < (s.clusters_.length : Int))
    (hcl : s.clusters_.getD rcl.toNat [] = [si, sj])
    (hsi : si < s.nv_) (hsj : sj < s.nv_)
    (hdiff : |s.v_.getD si 0 - s.v_.getD sj 0| > epsilon)
    (hreal : E.uniformReal g1 = (u, g2)) (hu : u < 1) :
    (u < min 1 (normExp M (psi.LogValDiff s.v_ [si, sj] [s.v_.getD sj 0, s.v_.getD si 0] s.lt_)) →
      ∃ t, MetropolisExchange.SweepStep M E psi hilbert s = some t ∧
        t.v_.length = s.v_.length ∧
        (∀ k, t.v_.getD k 0 =
          if k = si then s.v_.getD sj 0 else if k = sj then s.v_.getD si 0 else s.v_.getD k 0) ∧
        t.lt_ = psi.UpdateLookup s.v_ [si, sj] [s.v_.getD sj 0, s.v_.getD si 0] s.lt_ ∧
        t.accept_.getD 0 0 = s.accept_.getD 0 0 + 1 ∧
        t.moves_.getD 0 0 = s.moves_.getD 0 0 + 1 ∧
        t.rgen_ = g2 ∧ t.clusters_ = s.clusters_ ∧ t.nv_ = s.nv_) ∧
    (¬ u < min 1 (normExp M (psi.LogValDiff s.v_ [si, sj] [s.v_.getD sj 0, s.v_.getD si 0] s.lt_)) →
      ∃ t, MetropolisExchange.SweepStep M E psi hilbert s = some t ∧
        t.v_ = s.v_ ∧ t.lt_ = s.lt_ ∧ t.accept_ = s.accept_ ∧
        t.moves_.getD 0 0 = s.moves_.getD 0 0 + 1 ∧
        t.rgen_ = g2 ∧ t.clusters_ = s.clusters_ ∧ t.nv_ = s.nv_) := by
  have hne : si ≠ sj := by
    rintro rfl
    have hpos : (0 : D) < epsilon := by unfold epsilon; positivity
    simp only [sub_self, abs_zero, gt_iff_lt] at hdiff
    exact absurd hdiff (not_lt.2 hpos.le)
  have hincr : ∀ c : List Nat, c.length = 1 → (incr c 0).getD 0 0 = c.getD 0 0 + 1 := by
    intro c hc
    exact getD_set_self c 0 _ 0 (by omega)
  rw [lt_min_one_iff _ _ hu]
  constructor
  · intro hacc'
    refine ⟨{ s with
      rgen_ := g2
      accept_ := incr s.accept_ 0
      lt_ := psi.UpdateLookup s.v_ [si, sj] [s.v_.getD sj 0, s.v_.getD si 0] s.lt_
      v_ := (s.v_.set si (s.v_.getD sj 0)).set sj (s.v_.getD si 0)
      moves_ := incr s.moves_ 0 }, ?_, ?_, ?_, rfl, hincr _ hacc, hincr _ hmov, rfl, rfl, rfl⟩
    · simp only [MetropolisExchange.SweepStep, hdraw, hrcl, hcl, List.getD_cons_zero,
        List.getD_cons_succ, hsi, hsj, and_self, if_true, hdiff, hreal, hacc',
        CustomHilbert.UpdateConf, hsize, Option.bind_eq_bind, Option.some_bind, UpdateConfLoop]
    · simp
    · intro k
      by_cases h1 : k = sj
      · subst h1
        rw [if_neg (Ne.symm hne), if_pos rfl]
        exact getD_set_self _ _ _ _ (by simpa [hnv] using hsj)
      · rw [getD_set_of_ne _ _ _ _ _ (Ne.symm h1), if_neg h1]
        by_cases h2 : k = si
        · subst h2
          rw [if_pos rfl]
          exact getD_set_self _ _ _ _ (by simpa [hnv] using hsi)
        · rw [getD_set_of_ne _ _ _ _ _ (Ne.symm h2), if_neg h2]
  · intro hrej
    refine ⟨{ s with rgen_ := g2, moves_ := incr s.moves_ 0 }, ?_, rfl, rfl, rfl,
      hincr _ hmov, rfl, rfl, rfl⟩
    simp only [MetropolisExchange.SweepStep, hdraw, hrcl, hcl, List.getD_cons_zero,
      List.getD_cons_succ, hsi, hsj, and_self, if_true, hdiff, hreal, hrej, if_false]

theorem MetropolisExchange.SweepStep_spec_witness :
    ∃ t, MetropolisExchange.SweepStep demoNumerics demoEngine demoPsi demoHilbert
        demoExchangeState = some t ∧
      t.v_.getD 2 0 = 1 ∧ t.v_.getD 1 0 = -1 ∧
      t.accept_.getD 0 0 = 1 ∧ t.moves_.getD 0 0 = 1 := by
  obtain ⟨t, ht, -, hv, -, ha, hm, -⟩ :=
    (MetropolisExchange.SweepStep_spec demoNumerics demoEngine demoPsi demoHilbert
      demoExchangeState 4 5 6 2 1 (1 / 2) (by decide) (by decide) (by decide) (by decide)
      (by decide) (by decide) (by decide) (by decide) (by decide)
      (by norm_num [epsilon, demoExchangeState]) (by rfl) (by norm_num)).1
      (by norm_num [normExp, demoNumerics, demoPsi])
  refine ⟨t, ht, ?_, ?_, ha, hm⟩
  · rw [hv]; rfl
  · rw [hv]; rfl

/-! ### Local moves of the tempering sampler -/

theorem getD_incr_self (c : List Nat) (k : Nat) (h : k < c.length) :
    (incr c k).getD k 0 = c.getD k 0 + 1 :=
  getD_set_self c k _ 0 h

theorem getD_incr_of_ne (c : List Nat) (k j : Nat) (h : k ≠ j) :
    (incr c k).getD j 0 = c.getD j 0 :=
  getD_set_of_ne c k j _ 0 h

theorem length_incr (c : List Nat) (k : Nat) : (incr c k).length = c.length := by
  simp [incr]

/-- C7: one pass of the loop body of `LocalSweep(rep)` that proposes the site `si` and,
after the redraw loop, the value `x`, and then draws the uniform variate `u<1`. With
`Δ = LogValDiff(v_[rep],{si},{x},lt_[rep])` on the unchanged configuration and table:
the test `ratio>u` of the code is `u < min(1,|exp(β(rep)·Δ)|²)`; if it holds, `v_[rep]`
becomes the old configuration with site `si` set to `x`, `lt_[rep]` is updated and
`accept_(rep)` grows by 1; if not, all configurations, tables and `accept_` are
unchanged; `moves_(rep)` grows by 1 in both cases, and nothing of another replica and
no other counter changes. -/
theorem MetropolisLocalPt.LocalMove_spec {D C LT G : Type} [LinearOrderedField D]
    (M : Numerics D C) (E : Engine G D) (psi : WfType D C LT) (hilbert : CustomHilbert D)
    (fuel rep : Nat) (s : MetropolisLocalPt D LT G)
    (si n : Int) (g1 g2 g3 g4 : G) (x u : D) (ltrep : LT)
    (hv : rep < s.v_.length) (hlt : s.lt_[rep]? = some ltrep)
    (hacc : rep < s.accept_.length) (hmov : rep < s.moves_.length)
    (hsize : (((s.v_.getD rep []).length : Nat) : Int) = hilbert.size_)
    (hnv : (s.v_.getD rep []).length = s.nv_)
    (hsite : E.uniformInt 0 ((s.nv_ : Int) - 1) s.rgen_ = (si, g1))
    (hsi : 0 ≤ si ∧ si < (s.nv_ : Int))
    (hstate : E.uniformInt 0 (s.nstates_ - 1) g1 = (n, g2))
    (hredraw : MetropolisLocalPt.redraw E s.localstates_ s.nstates_
      ((s.v_.getD rep []).getD si.toNat 0) fuel (s.localstates_.getD n.toNat 0) g2
        = some (x, g3))
    (hcheck : ¬ M.absExpSubOne (M.sub (psi.LogVal (s.v_.getD rep []))
      (psi.LogValLt (s.v_.getD rep []) ltrep)) > tolerance)
    (hreal : E.uniformReal g3 = (u, g4)) (hu : u < 1) :
    (normExp M (M.scale (s.beta_.getD rep 0)
        (psi.LogValDiff (s.v_.getD rep []) [si.toNat] [x] ltrep)) > u ↔
      u < min 1 (normExp M (M.scale (s.beta_.getD rep 0)
        (psi.LogValDiff (s.v_.getD rep []) [si.toNat] [x] ltrep)))) ∧
    (u < min 1 (normExp M (M.scale (s.beta_.getD rep 0)
        (psi.LogValDiff (s.v_.getD rep []) [si.toNat] [x] ltrep))) →
      ¬ M.absExpSubOne (M.sub (M.sub (psi.LogVal ((s.v_.getD rep []).set si.toNat x))
          (psi.LogVal (s.v_.getD rep [])))
          (psi.LogValDiff (s.v_.getD rep []) [si.toNat] [x] ltrep)) > tolerance →
      ∃ t, MetropolisLocalPt.LocalMove M E psi hilbert fuel rep s = some t ∧
        t.v_.getD rep [] = (s.v_.getD rep []).set si.toNat x ∧
        (∀ k, (t.v_.getD rep []).getD k 0 =
          if k = si.toNat then x else (s.v_.getD rep []).getD k 0) ∧
        t.lt_[rep]? = some (psi.UpdateLookup (s.v_.getD rep []) [si.toNat] [x] ltrep) ∧
        t.accept_.getD rep 0 = s.accept_.getD rep 0 + 1 ∧
        t.moves_.getD rep 0 = s.moves_.getD rep 0 + 1 ∧
        (∀ r, r ≠ rep → t.v_.getD r [] = s.v_.getD r [] ∧ t.lt_[r]? = s.lt_[r]? ∧
          t.accept_.getD r 0 = s.accept_.getD r 0 ∧ t.moves_.getD r 0 = s.moves_.getD r 0) ∧
        t.v_.length = s.v_.length ∧ t.lt_.length = s.lt_.length ∧
        t.accept_.length = s.accept_.length ∧ t.moves_.length = s.moves_.length ∧
        t.beta_ = s.beta_ ∧ t.nrep_ = s.nrep_ ∧ t.rgen_ = g4) ∧
    (¬ u < min 1 (normExp M (M.scale (s.beta_.getD rep 0)
        (psi.LogValDiff (s.v_.getD rep []) [si.toNat] [x] ltrep))) →
      ∃ t, MetropolisLocalPt.LocalMove M E psi hilbert fuel rep s = some t ∧
        t.v_ = s.v_ ∧ t.lt_ = s.lt_ ∧ t.accept_ = s.accept_ ∧
        t.moves_.getD rep 0 = s.moves_.getD rep 0 + 1 ∧
        (∀ r, r ≠ rep → t.moves_.getD r 0 = s.moves_.getD r 0) ∧
        t.moves_.length = s.moves_.length ∧
        t.beta_ = s.beta_ ∧ t.nrep_ = s.nrep_ ∧ t.rgen_ = g4) := by
  have hsit : si.toNat < (s.v_.getD rep []).length := by
    rw [hnv]
    omega
  have hltlen : rep < s.lt_.length := by
    rcases Nat.lt_or_ge rep s.lt_.length with h | h
    · exact h
    · rw [List.getElem?_eq_none h] at hlt
      exact absurd hlt (by simp)
  refine ⟨(lt_min_one_iff _ _ hu).symm, ?_, ?_⟩
  · rw [lt_min_one_iff _ _ hu]
    intro haccept hcheck2
    refine ⟨{ s with
      rgen_ := g4
      accept_ := incr s.accept_ rep
      lt_ := s.lt_.set rep (psi.UpdateLookup (s.v_.getD rep []) [si.toNat] [x] ltrep)
      v_ := s.v_.set rep ((s.v_.getD rep []).set si.toNat x)
      moves_ := incr s.moves_ rep }, ?_, ?_, ?_, ?_, getD_incr_self _ _ hacc,
      getD_incr_self _ _ hmov, ?_, ?_, ?_, length_incr _ _, length_incr _ _, rfl, rfl, rfl⟩
    · simp only [MetropolisLocalPt.LocalMove, hsite, hsi, if_true, hstate, hredraw, hlt,
        Option.bind_eq_bind, Option.some_bind, hcheck, if_false, hreal, haccept,
        CustomHilbert.UpdateConf, hsize, UpdateConfLoop, List.getD_cons_zero, hcheck2]
    · exact getD_set_self _ _ _ _ hv
    · intro k
      show ((s.v_.set rep ((s.v_.getD rep []).set si.toNat x)).getD rep []).getD k 0 = _
      rw [getD_set_self _ _ _ _ hv]
      by_cases hk : k = si.toNat
      · subst hk
        rw [if_pos rfl]
        exact getD_set_self _ _ _ _ hsit
      · rw [if_neg hk]
        exact getD_set_of_ne _ _ _ _ _ (Ne.symm hk)
    · simp [List.getElem?_set, hltlen]
    · intro r hr
      refine ⟨getD_set_of_ne _ _ _ _ _ (Ne.symm hr), ?_, getD_incr_of_ne _ _ _ (Ne.symm hr),
        getD_incr_of_ne _ _ _ (Ne.symm hr)⟩
      simp [List.getElem?_set, Ne.symm hr]
    · simp
    · simp
  · rw [lt_min_one_iff _ _ hu]
    intro hrej
    refine ⟨{ s with rgen_ := g4, moves_ := incr s.moves_ rep }, ?_, rfl, rfl, rfl,
      getD_incr_self _ _ hmov, fun r hr => getD_incr_of_ne _ _ _ (Ne.symm hr),
      length_incr _ _, rfl, rfl, rfl⟩
    simp only [MetropolisLocalPt.LocalMove, hsite, hsi, if_true, hstate, hredraw, hlt,
      Option.bind_eq_bind, Option.some_bind, hcheck, if_false, hreal, hrej]

theorem MetropolisLocalPt.LocalMove_spec_witness :
    ∃ t, MetropolisLocalPt.LocalMove demoNumerics demoEngine demoPsi demoHilbert 0 0
        demoPtState = some t ∧
      t.v_.getD 0 [] = [1, 1, -1, 1] ∧
      t.accept_.getD 0 0 = 1 ∧ t.moves_.getD 0 0 = 1 := by
  obtain ⟨t, ht, hv, -, -, ha, hm, -⟩ :=
    (MetropolisLocalPt.LocalMove_spec demoNumerics demoEngine demoPsi demoHilbert 0 0
      demoPtState 0 1 13 14 14 15 1 (1 / 2) () (by decide) (by rfl) (by decide) (by decide)
      (by decide) (by decide) (by rfl) (by decide) (by rfl)
      (by norm_num [MetropolisLocalPt.redraw, demoPtState, epsilon])
      (by norm_num [demoNumerics, demoPsi, tolerance])
      (by rfl) (by norm_num)).2.1
      (by norm_num [normExp, demoNumerics, demoPsi])
      (by norm_num [demoNumerics, demoPsi, tolerance])
  exact ⟨t, ht, by rw [hv]; rfl, ha, hm⟩

/-! ### Counter invariant -/

theorem incr_of_length_le (c : List Nat) (k : Nat) (h : c.length ≤ k) : incr c k = c := by
  unfold incr
  exact List.set_eq_of_length_le h

theorem CountersOk.replicate_zero (n : Nat) :
    CountersOk (List.replicate n 0) (List.replicate n 0) :=
  ⟨rfl, fun _ => le_rfl⟩

theorem CountersOk.incr_both {a m : List Nat} (h : CountersOk a m) (k : Nat) :
    CountersOk (incr a k) (incr m k) := by
  refine ⟨by rw [length_incr, length_incr, h.1], fun j => ?_⟩
  rcases Nat.lt_or_ge k a.length with hk | hk
  · by_cases hj : k = j
    · subst hj
      rw [getD_incr_self _ _ hk, getD_incr_self _ _ (h.1 ▸ hk)]
      exact Nat.succ_le_succ (h.2 k)
    · rw [getD_incr_of_ne _ _ _ hj, getD_incr_of_ne _ _ _ hj]
      exact h.2 j
  · rw [incr_of_length_le _ _ hk, incr_of_length_le _ _ (h.1 ▸ hk)]
    exact h.2 j

theorem CountersOk.incr_moves {a m : List Nat} (h : CountersOk a m) (k : Nat) :
    CountersOk a (incr m k) := by
  refine ⟨by rw [length_incr, h.1], fun j => ?_⟩
  rcases Nat.lt_or_ge k m.length with hk | hk
  · by_cases hj : k = j
    · subst hj
      rw [getD_incr_self _ _ hk]
      exact Nat.le_succ_of_le (h.2 k)
    · rw [getD_incr_of_ne _ _ _ hj]
      exact h.2 j
  · rw [incr_of_length_le _ _ hk]
    exact h.2 j

theorem iterateM_invariant {α : Type} (P : α → Prop) (f : α → Option α)
    (hf : ∀ x y, P x → f x = some y → P y) :
    ∀ (n : Nat) (a b : α), P a → iterateM n f a = some b → P b := by
  intro n
  induction n with
  | zero =>
    intro a b ha h
    simp only [iterateM, Option.some.injEq] at h
    exact h ▸ ha
  | succ n ih =>
    intro a b ha h
    simp only [iterateM, Option.bind_eq_some] at h
    obtain ⟨c, hc, hcb⟩ := h
    exact ih c b (hf a c ha hc) hcb

theorem forEachM_invariant {α : Type} (P : α → Prop) (f : Nat → α → Option α) :
    ∀ (rs : List Nat) (a b : α), (∀ r ∈ rs, ∀ x y, P x → f r x = some y → P y) → P a →
      MetropolisLocalPt.forEachM rs f a = some b → P b := by
  intro rs
  induction rs with
  | nil =>
    intro a b _ ha h
    simp only [MetropolisLocalPt.forEachM, List.foldlM_nil, pure, Option.some.injEq] at h
    exact h ▸ ha
  | cons r rs ih =>
    intro a b hf ha h
    simp only [MetropolisLocalPt.forEachM, List.foldlM_cons, bind, Option.bind_eq_some] at h
    obtain ⟨c, hc, hcb⟩ := h
    exact ih c b (fun q hq => hf q (List.mem_cons_of_mem _ hq))
      (hf r (List.mem_cons_self _ _) a c ha hc) hcb

theorem MetropolisExchange.SweepStep_counters {D C LT G : Type} [LinearOrderedField D]
    (M : Numerics D C) (E : Engine G D) (psi : WfType D C LT) (hilbert : CustomHilbert D)
    (s t : MetropolisExchange D LT G) (hs : CountersOk s.accept_ s.moves_)
    (h : MetropolisExchange.SweepStep M E psi hilbert s = some t) :
    CountersOk t.accept_ t.moves_ := by
  unfold MetropolisExchange.SweepStep at h
  simp only at h
  split_ifs at h
  · simp only [Option.bind_eq_some, Option.some.injEq] at h
    obtain ⟨v, -, rfl⟩ := h
    exact hs.incr_both 0
  · simp only [Option.some.injEq] at h
    subst h
    exact hs.incr_moves 0
  · simp only [Option.some.injEq] at h
    subst h
    exact hs.incr_moves 0

theorem MetropolisExchange.Reset_counters {D C LT G : Type} [LinearOrderedField D]
    (E : Engine G D) (psi : WfType D C LT) (hilbert : CustomHilbert D)
    (s t : MetropolisExchange D LT G) (b : Bool)
    (h : MetropolisExchange.Reset E psi hilbert s b = some t) :
    t.accept_ = [0] ∧ t.moves_ = [0] := by
  unfold MetropolisExchange.Reset at h
  simp only [Option.bind_eq_some, Option.some.injEq] at h
  obtain ⟨vg, -, rfl⟩ := h
  exact ⟨rfl, rfl⟩

theorem MetropolisExchange.Init_counters {D C LT G : Type} [LinearOrderedField D]
    [Inhabited LT] (E : Engine G D) (psi : WfType D C LT) (hilbert : CustomHilbert D)
    (totalnodes mynode : Nat) (rd : Nat → Nat) (dist : List (List Int)) (dmax : Int)
    (t : MetropolisExchange D LT G)
    (h : MetropolisExchange.Init E psi hilbert totalnodes mynode rd dist dmax = some t) :
    t.accept_ = [0] ∧ t.moves_ = [0] := by
  unfold MetropolisExchange.Init at h
  simp only [Option.bind_eq_some] at h
  obtain ⟨cl, -, h⟩ := h
  exact MetropolisExchange.Reset_counters E psi hilbert _ t true h

theorem MetropolisExchange.Reachable_counters {D C LT G : Type} [LinearOrderedField D]
    [Inhabited LT] (M : Numerics D C) (E : Engine G D) (psi : WfType D C LT)
    (hilbert : CustomHilbert D) (s : MetropolisExchange D LT G)
    (hs : MetropolisExchange.Reachable M E psi hilbert s) :
    CountersOk s.accept_ s.moves_ := by
  induction hs with
  | init totalnodes mynode rd dist dmax s h =>
    obtain ⟨ha, hm⟩ := MetropolisExchange.Init_counters E psi hilbert _ _ _ _ _ s h
    rw [ha, hm]
    exact CountersOk.replicate_zero 1
  | sweep s t _ h ih =>
    exact iterateM_invariant (fun x => CountersOk x.accept_ x.moves_) _
      (fun x y hx hxy => MetropolisExchange.SweepStep_counters M E psi hilbert x y hx hxy)
      _ s t ih h
  | reset s t b _ h _ =>
    obtain ⟨ha, hm⟩ := MetropolisExchange.Reset_counters E psi hilbert s t b h
    rw [ha, hm]
    exact CountersOk.replicate_zero 1
  | setVisible s v _ ih => exact ih

theorem MetropolisLocalPt.LocalMove_counters {D C LT G : Type} [LinearOrderedField D]
    (M : Numerics D C) (E : Engine G D) (psi : WfType D C LT) (hilbert : CustomHilbert D)
    (fuel rep : Nat) (s t : MetropolisLocalPt D LT G) (hs : CountersOk s.accept_ s.moves_)
    (h : MetropolisLocalPt.LocalMove M E psi hilbert fuel rep s = some t) :
    CountersOk t.accept_ t.moves_ := by
  unfold MetropolisLocalPt.LocalMove at h
  simp only at h
  split_ifs at h
  simp only [Option.bind_eq_some] at h
  obtain ⟨xg, -, h⟩ := h
  split at h
  · exact absurd h (by simp)
  · split_ifs at h
    · simp only [Option.bind_eq_some] at h
      obtain ⟨v, -, h⟩ := h
      split_ifs at h
      simp only [Option.some.injEq] at h
      subst h
      exact hs.incr_both rep
    · simp only [Option.some.injEq] at h
      subst h
      exact hs.incr_moves rep

theorem MetropolisLocalPt.ExchangeAttempt_counters {D C LT G : Type} [LinearOrderedField D]
    (M : Numerics D C) (E : Engine G D) (psi : WfType D C LT)
    (r : Nat) (s t : MetropolisLocalPt D LT G) (hs : CountersOk s.accept_ s.moves_)
    (h : MetropolisLocalPt.ExchangeAttempt M E psi r s = some t) :
    CountersOk t.accept_ t.moves_ := by
  unfold MetropolisLocalPt.ExchangeAttempt at h
  simp only [Option.bind_eq_some] at h
  obtain ⟨p, -, h⟩ := h
  split_ifs at h
  · simp only [Option.some.injEq] at h
    subst h
    exact (hs.incr_both _).incr_both _
  · simp only [Option.some.injEq] at h
    subst h
    exact (hs.incr_moves _).incr_moves _

theorem MetropolisLocalPt.Sweep_counters {D C LT G : Type} [LinearOrderedField D]
    (M : Numerics D C) (E : Engine G D) (psi : WfType D C LT) (hilbert : CustomHilbert D)
    (fuel : Nat) (s t : MetropolisLocalPt D LT G) (hs : CountersOk s.accept_ s.moves_)
    (h : MetropolisLocalPt.Sweep M E psi hilbert fuel s = some t) :
    CountersOk t.accept_ t.moves_ := by
  unfold MetropolisLocalPt.Sweep at h
  simp only [Option.bind_eq_some] at h
  obtain ⟨s1, h1, s2, h2, h3⟩ := h
  have hex : ∀ (rs : List Nat) (a b : MetropolisLocalPt D LT G),
      CountersOk a.accept_ a.moves_ →
      MetropolisLocalPt.forEachM rs (MetropolisLocalPt.ExchangeAttempt M E psi) a = some b →
      CountersOk b.accept_ b.moves_ := fun rs a b ha hab =>
    forEachM_invariant (fun x => CountersOk x.accept_ x.moves_) _ rs a b
      (fun r _ x y hx hxy => MetropolisLocalPt.ExchangeAttempt_counters M E psi r x y hx hxy)
      ha hab
  refine hex _ s2 t (hex _ s1 s2 ?_ h2) h3
  refine forEachM_invariant (fun x => CountersOk x.accept_ x.moves_) _ _ s s1 ?_ hs h1
  intro r _ x y hx hxy
  exact iterateM_invariant (fun x => CountersOk x.accept_ x.moves_) _
    (fun a b ha hab => MetropolisLocalPt.LocalMove_counters M E psi hilbert fuel r a b ha hab)
    _ x y hx hxy

theorem MetropolisLocalPt.Reset_zeroes {D C LT G : Type} [LinearOrderedField D]
    (E : Engine G D) (psi : WfType D C LT) (hilbert : CustomHilbert D)
    (s t : MetropolisLocalPt D LT G) (b : Bool)
    (h : MetropolisLocalPt.Reset E psi hilbert s b = some t) :
    t.accept_ = List.replicate (2 * s.nrep_) 0 ∧ t.moves_ = List.replicate (2 * s.nrep_) 0 ∧
      t.nrep_ = s.nrep_ ∧ t.beta_ = s.beta_ := by
  unfold MetropolisLocalPt.Reset at h
  simp only [Option.bind_eq_some, Option.some.injEq] at h
  obtain ⟨vg, -, rfl⟩ := h
  exact ⟨rfl, rfl, rfl, rfl⟩

theorem MetropolisLocalPt.Reachable_countersOk {D C LT G : Type} [LinearOrderedField D]
    [Inhabited LT] (M : Numerics D C) (E : Engine G D) (psi : WfType D C LT)
    (hilbert : CustomHilbert D) (s : MetropolisLocalPt D LT G)
    (hs : MetropolisLocalPt.Reachable M E psi hilbert s) :
    CountersOk s.accept_ s.moves_ := by
  induction hs with
  | init totalnodes mynode rd nrep s h =>
    unfold MetropolisLocalPt.Init MetropolisLocalPt.SetNreplicas at h
    obtain ⟨ha, hm, -⟩ := MetropolisLocalPt.Reset_zeroes E psi hilbert _ s true h
    rw [ha, hm]
    exact CountersOk.replicate_zero _
  | sweep fuel s t _ h ih => exact MetropolisLocalPt.Sweep_counters M E psi hilbert fuel s t ih h
  | reset s t b _ h _ =>
    obtain ⟨ha, hm, -⟩ := MetropolisLocalPt.Reset_zeroes E psi hilbert s t b h
    rw [ha, hm]
    exact CountersOk.replicate_zero _
  | setVisible s v _ ih => exact ih

/-- C9: in every state of the exchange sampler and of the tempering sampler that is
reachable from construction by `Sweep`, `Reset` and `SetVisible`, for every generator
and wave function, `accept_(k) ≤ moves_(k)` for every counter index `k` (the counters are
natural numbers, so `0 ≤ accept_(k)` as well). -/
theorem counters_invariant {D C LT G : Type} [LinearOrderedField D] [Inhabited LT]
    (M : Numerics D C) (E : Engine G D) (psi : WfType D C LT) (hilbert : CustomHilbert D) :
    (∀ s : MetropolisExchange D LT G, MetropolisExchange.Reachable M E psi hilbert s →
      ∀ k, 0 ≤ s.accept_.getD k 0 ∧ s.accept_.getD k 0 ≤ s.moves_.getD k 0) ∧
    (∀ s : MetropolisLocalPt D LT G, MetropolisLocalPt.Reachable M E psi hilbert s →
      ∀ k, 0 ≤ s.accept_.getD k 0 ∧ s.accept_.getD k 0 ≤ s.moves_.getD k 0) :=
  ⟨fun s hs k => ⟨Nat.zero_le _,
      (MetropolisExchange.Reachable_counters M E psi hilbert s hs).2 k⟩,
    fun s hs k => ⟨Nat.zero_le _,
      (MetropolisLocalPt.Reachable_countersOk M E psi hilbert s hs).2 k⟩⟩


theorem counters_invariant_witness :
    (∃ t, MetropolisExchange.Reachable demoNumerics demoEngine demoPsi demoHilbert t ∧
      t.moves_ = [4] ∧
      ∀ k, 0 ≤ t.accept_.getD k 0 ∧ t.accept_.getD k 0 ≤ t.moves_.getD k 0) ∧
    (MetropolisLocalPt.Reachable demoNumerics demoEngine demoPsi demoHilbert demoPtState ∧
      ∀ k, 0 ≤ demoPtState.accept_.getD k 0 ∧
        demoPtState.accept_.getD k 0 ≤ demoPtState.moves_.getD k 0) := by
  have h1 : MetropolisExchange.Reachable demoNumerics demoEngine demoPsi demoHilbert
      { demoExchangeState with
        v_ := [1, -1, 1, -1], rgen_ := 12, accept_ := [4], moves_ := [4] } :=
    MetropolisExchange.Reachable.sweep demoExchangeState _
      (MetropolisExchange.Reachable.init 1 0 (fun _ => 0) ring4 1 demoExchangeState
        (by with_unfolding_all rfl))
      (by with_unfolding_all rfl)
  have h2 : MetropolisLocalPt.Reachable demoNumerics demoEngine demoPsi demoHilbert
      demoPtState :=
    MetropolisLocalPt.Reachable.init 1 0 (fun _ => 0) 3 demoPtState (by with_unfolding_all rfl)
  exact ⟨⟨_, h1, rfl,
      (counters_invariant demoNumerics demoEngine demoPsi demoHilbert).1 _ h1⟩,
    h2, (counters_invariant demoNumerics demoEngine demoPsi demoHilbert).2 _ h2⟩

/-! ### Construction of the tempering sampler -/

theorem foldl_push {α β : Type} (f : α → β) (l : List α) (init : List β) :
    l.foldl (fun b i => b ++ [f i]) init = init ++ l.map f := by
  induction l generalizing init with
  | nil => simp
  | cons a l ih => simp [List.foldl_cons, ih]

theorem length_resizeVec {α : Type} (l : List α) (n : Nat) (d : α) :
    (resizeVec l n d).length = n := by
  simp only [resizeVec, List.length_append, List.length_take, List.length_replicate]
  omega

theorem length_resizeEigen {D : Type} [Zero D] (v : List D) (n : Nat) :
    (resizeEigen v n).length = n := by
  unfold resizeEigen
  split_ifs with h
  · exact h
  · simp

theorem foldl_set_range {α : Type} (f : Nat → α → α) (d : α) (l : List α) :
    ∀ k, k ≤ l.length →
      ((List.range k).foldl (fun v i => v.set i (f i (v.getD i d))) l).length = l.length ∧
      ∀ j, ((List.range k).foldl (fun v i => v.set i (f i (v.getD i d))) l).getD j d
        = if j < k then f j (l.getD j d) else l.getD j d := by
  intro k
  induction k with
  | zero => intro _; simp
  | succ k ih =>
    intro hk
    obtain ⟨hlen, hget⟩ := ih (by omega)
    rw [List.range_succ, List.foldl_append]
    simp only [List.foldl_cons, List.foldl_nil, List.length_set]
    refine ⟨hlen, fun j => ?_⟩
    by_cases hj : j = k
    · subst hj
      rw [getD_set_self _ _ _ _ (by omega), hget, if_neg (lt_irrefl _), if_pos (by omega)]
    · rw [getD_set_of_ne _ _ _ _ _ (Ne.symm hj), hget]
      by_cases hlt : j < k
      · rw [if_pos hlt, if_pos (by omega)]
      · rw [if_neg hlt, if_neg (by omega)]

theorem CustomHilbert.length_RandomVals_loop {D G : Type} [LinearOrderedField D]
    (h : CustomHilbert D) (E : Engine G D) (l : List Nat) (state : List D) (rgen : G) :
    (l.foldl
      (fun sg i =>
        let d := E.uniformInt 0 (h.nstates_ - 1) sg.2
        (sg.1.set i (h.local_.getD d.1.toNat 0), d.2))
      (state, rgen)).1.length = state.length := by
  induction l generalizing state rgen with
  | nil => rfl
  | cons a l ih =>
    rw [List.foldl_cons, ih]
    simp

theorem CustomHilbert.RandomVals_some {D G : Type} [LinearOrderedField D]
    (h : CustomHilbert D) (E : Engine G D) (state : List D) (rgen : G)
    (hlen : (state.length : Int) = h.size_) :
    ∃ r, h.RandomVals E state rgen = some r ∧ r.1.length = state.length := by
  unfold CustomHilbert.RandomVals
  rw [if_pos hlen]
  exact ⟨_, rfl, CustomHilbert.length_RandomVals_loop h E _ state rgen⟩

theorem CustomHilbert.length_of_RandomVals {D G : Type} [LinearOrderedField D]
    (h : CustomHilbert D) (E : Engine G D) (state : List D) (rgen : G) (r : List D × G)
    (hr : h.RandomVals E state rgen = some r) :
    r.1.length = state.length ∧ (state.length : Int) = h.size_ := by
  unfold CustomHilbert.RandomVals at hr
  split_ifs at hr with hlen
  simp only [Option.some.injEq] at hr
  subst hr
  exact ⟨CustomHilbert.length_RandomVals_loop h E _ state rgen, hlen⟩

theorem foldlM_some_of_invariant {α β : Type} (Q : α → Prop) (f : α → β → Option α) :
    ∀ (l : List β) (a : α), Q a → (∀ x, ∀ i ∈ l, Q x → ∃ y, f x i = some y ∧ Q y) →
      ∃ b, l.foldlM f a = some b ∧ Q b := by
  intro l
  induction l with
  | nil => intro a ha _; exact ⟨a, rfl, ha⟩
  | cons i l ih =>
    intro a ha hf
    obtain ⟨y, hy, hQy⟩ := hf a i (List.mem_cons_self _ _) ha
    obtain ⟨b, hb, hQb⟩ := ih y hQy (fun x j hj hx => hf x j (List.mem_cons_of_mem _ hj) hx)
    refine ⟨b, ?_, hQb⟩
    simp only [List.foldlM_cons, bind, Option.bind, hy]
    exact hb

theorem MetropolisLocalPt.ResetRandom_some {D G : Type} [LinearOrderedField D]
    (E : Engine G D) (hilbert : CustomHilbert D) (nrep : Nat) (v : List (List D)) (rgen : G)
    (hv : ∀ i, i < nrep → ((v.getD i []).length : Int) = hilbert.size_) :
    ∃ r, MetropolisLocalPt.ResetRandom E hilbert nrep v rgen = some r ∧
      r.1.length = v.length ∧
      ∀ i, i < nrep → ((r.1.getD i []).length : Int) = hilbert.size_ := by
  unfold MetropolisLocalPt.ResetRandom
  obtain ⟨b, hb, hQ⟩ := foldlM_some_of_invariant
    (fun vg : List (List D) × G => vg.1.length = v.length ∧
      ∀ i, i < nrep → ((vg.1.getD i []).length : Int) = hilbert.size_)
    (fun vg i => (hilbert.RandomVals E (vg.1.getD i []) vg.2).bind
      (fun r => some (vg.1.set i r.1, r.2)))
    (List.range nrep) (v, rgen) ⟨rfl, hv⟩ (by
      intro x i hi hx
      rw [List.mem_range] at hi
      obtain ⟨r, hr, hrlen⟩ := CustomHilbert.RandomVals_some hilbert E (x.1.getD i []) x.2
        (hx.2 i hi)
      refine ⟨(x.1.set i r.1, r.2), by simp only [hr]; rfl, by simpa using hx.1, fun j hj => ?_⟩
      by_cases hij : i = j
      · subst hij
        rcases Nat.lt_or_ge i x.1.length with hlt | hge
        · show (((x.1.set i r.1).getD i []).length : Int) = _
          rw [getD_set_self _ _ _ _ hlt, hrlen]
          exact hx.2 i hi
        · show (((x.1.set i r.1).getD i []).length : Int) = _
          rw [List.set_eq_of_length_le hge]
          exact hx.2 i hi
      · show (((x.1.set i r.1).getD j []).length : Int) = _
        rw [getD_set_of_ne _ _ _ _ _ hij]
        exact hx.2 j hj)
  exact ⟨b, hb, hQ.1, hQ.2⟩

theorem MetropolisLocalPt.SetNreplicas_some {D C LT G : Type} [LinearOrderedField D]
    [Inhabited LT] (E : Engine G D) (psi : WfType D C LT) (hilbert : CustomHilbert D)
    (rd : Nat → Nat) (s : MetropolisLocalPt D LT G) (nrep : Nat)
    (hsize : (s.nv_ : Int) = hilbert.size_) :
    ∃ t, MetropolisLocalPt.SetNreplicas E psi hilbert rd s nrep = some t ∧
      t.nrep_ = nrep ∧
      t.beta_ = s.beta_ ++ (List.range nrep).map (fun (i : Nat) => 1 - (i : D) / (nrep : D)) ∧
      t.v_.length = nrep ∧ t.lt_.length = nrep ∧
      (∀ i, i < nrep → (t.v_.getD i []).length = s.nv_) ∧
      (∀ i, i < nrep → t.lt_[i]? = some (psi.InitLookup (t.v_.getD i []))) ∧
      t.accept_ = List.replicate (2 * nrep) 0 ∧ t.moves_ = List.replicate (2 * nrep) 0 ∧
      t.nv_ = s.nv_ ∧ t.nstates_ = s.nstates_ ∧ t.localstates_ = s.localstates_ := by
  obtain ⟨hl1, hg1⟩ := foldl_set_range (fun _ x => resizeEigen x s.nv_) []
    (resizeVec s.v_ nrep []) nrep (by rw [length_resizeVec])
  obtain ⟨r, hr, hrlen, hrsize⟩ := MetropolisLocalPt.ResetRandom_some E hilbert nrep
    ((List.range nrep).foldl (fun v i => v.set i (resizeEigen (v.getD i []) s.nv_))
      (resizeVec s.v_ nrep []))
    (Seed E rd s.totalnodes_ s.mynode_ 0)
    (by
      intro i hi
      rw [hg1 i, if_pos hi, length_resizeEigen]
      exact hsize)
  obtain ⟨hl2, hg2⟩ := foldl_set_range (fun i _ => psi.InitLookup (r.1.getD i [])) default
    (resizeVec s.lt_ nrep default) nrep (by rw [length_resizeVec])
  refine ⟨{ s with
      nrep_ := nrep
      v_ := r.1
      rgen_ := r.2
      beta_ := (List.range nrep).foldl
        (fun b (i : Nat) => b ++ [1 - (i : D) / (nrep : D)]) s.beta_
      lt_ := (List.range nrep).foldl (fun lt i => lt.set i (psi.InitLookup (r.1.getD i [])))
        (resizeVec s.lt_ nrep default)
      accept_ := List.replicate (2 * nrep) 0
      moves_ := List.replicate (2 * nrep) 0 },
    ?_, rfl, foldl_push _ _ _, ?_, ?_, ?_, ?_, rfl, rfl, rfl, rfl, rfl⟩
  · unfold MetropolisLocalPt.SetNreplicas MetropolisLocalPt.Reset
    simp only [if_true, hr]
    rfl
  · show r.1.length = nrep
    rw [hrlen, hl1, length_resizeVec]
  · show ((List.range nrep).foldl (fun lt i => lt.set i (psi.InitLookup (r.1.getD i [])))
      (resizeVec s.lt_ nrep default)).length = nrep
    rw [hl2, length_resizeVec]
  · intro i hi
    have := hrsize i hi
    rw [← hsize] at this
    exact_mod_cast this
  · intro i hi
    show ((List.range nrep).foldl (fun lt i => lt.set i (psi.InitLookup (r.1.getD i [])))
      (resizeVec s.lt_ nrep default))[i]? = _
    have hlen : i < ((List.range nrep).foldl
        (fun lt i => lt.set i (psi.InitLookup (r.1.getD i [])))
        (resizeVec s.lt_ nrep default)).length := by
      rw [hl2, length_resizeVec]; exact hi
    have hgi := hg2 i
    rw [if_pos hi, List.getD_eq_getElem _ _ hlen] at hgi
    rw [List.getElem?_eq_getElem hlen, hgi]

/-- C4: for `R ≥ 1` (and a Hilbert space of non-negative size) the construction of the
tempering sampler returns a sampler with `R` replicas whose `beta_` has exactly `R`
entries `β(i) = 1 - i/R`; so `β(0) = 1`, `β(i+1) < β(i)` and `0 < β(i) ≤ 1`. -/
theorem MetropolisLocalPt.Init_beta {D C LT G : Type} [LinearOrderedField D]
    [Inhabited LT] (E : Engine G D) (psi : WfType D C LT) (hilbert : CustomHilbert D)
    (totalnodes mynode : Nat) (rd : Nat → Nat) (R : Nat) (hR : 1 ≤ R)
    (hsize : 0 ≤ hilbert.size_) :
    ∃ s, MetropolisLocalPt.Init E psi hilbert totalnodes mynode rd R = some s ∧
      s.nrep_ = R ∧ s.beta_.length = R ∧
      (∀ i, i < R → s.beta_.getD i 0 = 1 - (i : D) / (R : D)) ∧
      s.beta_.getD 0 0 = 1 ∧
      (∀ i, i + 1 < R → s.beta_.getD (i + 1) 0 < s.beta_.getD i 0) ∧
      (∀ i, i < R → 0 < s.beta_.getD i 0 ∧ s.beta_.getD i 0 ≤ 1) := by
  obtain ⟨s, hs, hnrep, hbeta, -⟩ := MetropolisLocalPt.SetNreplicas_some E psi hilbert rd
    { nv_ := hilbert.Size.toNat
      rgen_ := E.seed 0
      v_ := []
      accept_ := []
      moves_ := []
      mynode_ := mynode
      totalnodes_ := totalnodes
      lt_ := []
      nrep_ := R
      beta_ := []
      nstates_ := hilbert.LocalSize
      localstates_ := hilbert.LocalStates } R
    (by simpa [CustomHilbert.Size] using hsize)
  have hRpos : (0 : D) < (R : D) := by exact_mod_cast hR
  have hget : ∀ i, i < R → s.beta_.getD i 0 = 1 - (i : D) / (R : D) := by
    intro i hi
    rw [hbeta]
    simp [List.getD_eq_getElem?_getD, List.getElem?_range, hi]
  refine ⟨s, hs, hnrep, by rw [hbeta]; simp, hget, ?_, ?_, ?_⟩
  · rw [hget 0 (by omega)]
    simp
  · intro i hi
    rw [hget (i + 1) hi, hget i (by omega)]
    have : (i : D) / R < ((i + 1 : Nat) : D) / R := by
      apply div_lt_div_of_pos_right _ hRpos
      exact_mod_cast Nat.lt_succ_self i
    linarith
  · intro i hi
    rw [hget i hi]
    have h1 : (i : D) / R < 1 := by
      rw [div_lt_one hRpos]
      exact_mod_cast hi
    have h2 : (0 : D) ≤ (i : D) / R := by positivity
    constructor <;> linarith

theorem MetropolisLocalPt.Init_beta_witness :
    ∃ s, MetropolisLocalPt.Init demoEngine demoPsi demoHilbert 1 0 (fun _ => 0) 3 = some s ∧
      s.nrep_ = 3 ∧ s.beta_.length = 3 ∧
      (∀ i, i < 3 → s.beta_.getD i 0 = 1 - (i : ℚ) / ((3 : Nat) : ℚ)) ∧
      s.beta_.getD 0 0 = 1 ∧
      (∀ i, i + 1 < 3 → s.beta_.getD (i + 1) 0 < s.beta_.getD i 0) ∧
      (∀ i, i < 3 → 0 < s.beta_.getD i 0 ∧ s.beta_.getD i 0 ≤ 1) :=
  MetropolisLocalPt.Init_beta demoEngine demoPsi demoHilbert 1 0 (fun _ => 0) 3 (by decide)
    (by decide)

/-! ### Acceptance rates -/

/-- C10: right after construction the exchange sampler reports `0/0` as its acceptance
rate, and so does the tempering sampler in every entry; with one replica the entry of the
exchange counter is still `0/0` after a sweep (here the sweep accepts 4 of 4 local moves,
so the entries are `1` and `0/0`). -/
theorem Acceptance_zero_moves :
    (MetropolisExchange.Init demoEngine demoPsi demoHilbert 1 0 (fun _ => 0) ring4 1
        = some demoExchangeState ∧
      MetropolisExchange.Acceptance demoExchangeState = [Rate.nan]) ∧
    (MetropolisLocalPt.Init demoEngine demoPsi demoHilbert 1 0 (fun _ => 0) 1
        = some demoPtState1 ∧
      MetropolisLocalPt.Acceptance demoPtState1 = [Rate.nan, Rate.nan] ∧
      ∃ t, MetropolisLocalPt.Sweep demoNumerics demoEngine demoPsi demoHilbert 0 demoPtState1
          = some t ∧
        t.moves_ = [4, 0] ∧ MetropolisLocalPt.Acceptance t = [Rate.val 1, Rate.nan]) := by
  refine ⟨⟨by with_unfolding_all rfl, by decide⟩, by with_unfolding_all rfl, by decide,
    { demoPtState1 with
      v_ := [[1, -1, 1, -1]], rgen_ := 16, accept_ := [4, 0], moves_ := [4, 0] },
    by with_unfolding_all rfl, rfl, by with_unfolding_all decide⟩

/-! ### Replica exchange -/

/-- C11: over the reals, if the log-amplitudes `LogVal(v_[r1],lt_[r1])` and
`LogVal(v_[r2],lt_[r2])` have equal real parts (in particular if they are equal), then
`ExchangeProb(r1,r2) = 1` for all `β`, so the test `ExchangeProb > u` holds for every
`u < 1`; the exchange attempt of `Sweep` on `(r,r-1)` then always exchanges. -/
theorem MetropolisLocalPt.ExchangeProb_equal_amplitudes {LT G : Type}
    (psi : WfType ℝ ℂ LT) (E : Engine G ℝ) (s : MetropolisLocalPt ℝ LT G) (r1 r2 : Nat)
    (lt1 lt2 : LT) (h1 : s.lt_[r1]? = some lt1) (h2 : s.lt_[r2]? = some lt2)
    (heq : (psi.LogValLt (s.v_.getD r1 []) lt1).re = (psi.LogValLt (s.v_.getD r2 []) lt2).re) :
    let M : Numerics ℝ ℂ :=
      Numerics.mk Complex.exp Complex.normSq (fun b z => (b : ℂ) * z) Complex.re Real.exp
        (fun x y => x - y) (fun z => Complex.abs (Complex.exp z - 1))
    MetropolisLocalPt.ExchangeProb M psi s r1 r2 = some 1 ∧
    (∀ u : ℝ, u < 1 → ∀ p, MetropolisLocalPt.ExchangeProb M psi s r1 r2 = some p → p > u) ∧
    (r2 = r1 - 1 → (E.uniformReal s.rgen_).1 < 1 →
      MetropolisLocalPt.ExchangeAttempt M E psi r1 s = some
        { MetropolisLocalPt.Exchange s r1 (r1 - 1) with
          rgen_ := (E.uniformReal s.rgen_).2
          accept_ := incr (incr s.accept_ (s.nrep_ + r1)) (s.nrep_ + r1 - 1)
          moves_ := incr (incr s.moves_ (s.nrep_ + r1)) (s.nrep_ + r1 - 1) }) := by
  intro M
  have hp : MetropolisLocalPt.ExchangeProb M psi s r1 r2 = some 1 := by
    simp only [MetropolisLocalPt.ExchangeProb, h1, h2, M, heq, sub_self, mul_zero,
      Real.exp_zero]
  refine ⟨hp, ?_, ?_⟩
  · intro u hu p hpu
    rw [hp] at hpu
    simp only [Option.some.injEq] at hpu
    rw [← hpu]
    exact hu
  · intro hr hu
    subst hr
    simp only [MetropolisLocalPt.ExchangeAttempt, hp, Option.some_bind, gt_iff_lt, hu, if_true]

theorem MetropolisLocalPt.ExchangeProb_equal_amplitudes_witness :
    MetropolisLocalPt.ExchangeProb
      (Numerics.mk Complex.exp Complex.normSq (fun b z => (b : ℂ) * z) Complex.re Real.exp
        (fun x y => x - y) (fun z => Complex.abs (Complex.exp z - 1)))
      (WfType.mk (fun _ => 0) (fun _ _ => 0) (fun _ _ _ _ => 0) (fun _ => ())
        (fun _ _ _ _ => ()) : WfType ℝ ℂ Unit)
      (MetropolisLocalPt.mk 1 0 [[1], [-1]] [0, 0, 0, 0] [0, 0, 0, 0] 0 1 [(), ()] 2
        [1, 1 / 2] 2 [-1, 1] : MetropolisLocalPt ℝ Unit Nat)
      1 0 = some 1 :=
  (MetropolisLocalPt.ExchangeProb_equal_amplitudes
    (WfType.mk (fun _ => 0) (fun _ _ => 0) (fun _ _ _ _ => 0) (fun _ => ())
      (fun _ _ _ _ => ()))
    (Engine.mk (fun _ => 0) (fun a _ g => (a, g)) (fun g => (1 / 2, g)))
    (MetropolisLocalPt.mk 1 0 [[1], [-1]] [0, 0, 0, 0] [0, 0, 0, 0] 0 1 [(), ()] 2
      [1, 1 / 2] 2 [-1, 1])
    1 0 () () rfl rfl rfl).1

/-- C12: `ExchangeProb(r1,r2)` is `exp((β(r1)-β(r2))·(2·Re logψ(v_r2) - 2·Re logψ(v_r1)))`
and equals `ExchangeProb(r2,r1)`; hence for one uniform variate `u` the tests
`ExchangeProb(r1,r2) > u` and `ExchangeProb(r2,r1) > u` have the same outcome. -/
theorem MetropolisLocalPt.ExchangeProb_symm {D C LT G : Type} [LinearOrderedField D]
    (M : Numerics D C) (psi : WfType D C LT) (s : MetropolisLocalPt D LT G) (r1 r2 : Nat)
    (lt1 lt2 : LT) (h1 : s.lt_[r1]? = some lt1) (h2 : s.lt_[r2]? = some lt2) :
    MetropolisLocalPt.ExchangeProb M psi s r1 r2
      = some (M.exp ((s.beta_.getD r1 0 - s.beta_.getD r2 0) *
          (2 * M.real (psi.LogValLt (s.v_.getD r2 []) lt2)
            - 2 * M.real (psi.LogValLt (s.v_.getD r1 []) lt1)))) ∧
    MetropolisLocalPt.ExchangeProb M psi s r2 r1 = MetropolisLocalPt.ExchangeProb M psi s r1 r2 ∧
    (∀ u p q, MetropolisLocalPt.ExchangeProb M psi s r1 r2 = some p →
      MetropolisLocalPt.ExchangeProb M psi s r2 r1 = some q → (p > u ↔ q > u)) := by
  have hsymm : MetropolisLocalPt.ExchangeProb M psi s r2 r1
      = MetropolisLocalPt.ExchangeProb M psi s r1 r2 := by
    simp only [MetropolisLocalPt.ExchangeProb, h1, h2]
    congr 2
    ring
  refine ⟨by simp only [MetropolisLocalPt.ExchangeProb, h1, h2], hsymm, ?_⟩
  intro u p q hp hq
  rw [hsymm, hp] at hq
  simp only [Option.some.injEq] at hq
  rw [hq]

theorem MetropolisLocalPt.ExchangeProb_symm_witness :
    MetropolisLocalPt.ExchangeProb demoNumerics demoPsi demoPtState 0 1
      = MetropolisLocalPt.ExchangeProb demoNumerics demoPsi demoPtState 1 0 :=
  (MetropolisLocalPt.ExchangeProb_symm demoNumerics demoPsi demoPtState 1 0 () ()
    (by rfl) (by rfl)).2.1

/-! ### No-op skip of the exchange sampler -/

/-- C13: one pass of the loop body of `MetropolisExchange::Sweep` that draws a cluster
`{si,sj}` with `|v(si)-v(sj)| ≤ epsilon`: the result is the old state with only the
generator advanced by the integer draw and `moves_[0]` increased by 1; configuration,
table and `accept_` are unchanged, no real variate is drawn, and the result is the same
for every wave function and numeric library (the oracle is not consulted). -/
theorem MetropolisExchange.SweepStep_equal_values {D C LT G : Type} [LinearOrderedField D]
    (M : Numerics D C) (E : Engine G D) (psi : WfType D C LT) (hilbert : CustomHilbert D)
    (s : MetropolisExchange D LT G) (rcl : Int) (g1 : G) (si sj : Nat)
    (hmov : s.moves_.length = 1)
    (hdraw : E.uniformInt 0 ((s.clusters_.length : Int) - 1) s.rgen_ = (rcl, g1))
    (hrcl : 0 ≤ rcl ∧ rcl < (s.clusters_.length : Int))
    (hcl : s.clusters_.getD rcl.toNat [] = [si, sj])
    (hsi : si < s.nv_) (hsj : sj < s.nv_)
    (hsame : |s.v_.getD si 0 - s.v_.getD sj 0| ≤ epsilon) :
    MetropolisExchange.SweepStep M E psi hilbert s
      = some { s with rgen_ := g1, moves_ := incr s.moves_ 0 } ∧
    (incr s.moves_ 0).getD 0 0 = s.moves_.getD 0 0 + 1 ∧
    (∀ (M' : Numerics D C) (psi' : WfType D C LT) (real' : G → D × G),
      MetropolisExchange.SweepStep M' (Engine.mk E.seed E.uniformInt real') psi' hilbert s
        = MetropolisExchange.SweepStep M E psi hilbert s) := by
  have hstep : ∀ (M' : Numerics D C) (psi' : WfType D C LT) (real' : G → D × G),
      MetropolisExchange.SweepStep M' (Engine.mk E.seed E.uniformInt real') psi' hilbert s
        = some { s with rgen_ := g1, moves_ := incr s.moves_ 0 } := by
    intro M' psi' real'
    simp only [MetropolisExchange.SweepStep, hdraw, hrcl, hcl, List.getD_cons_zero,
      List.getD_cons_succ, hsi, hsj, and_self, if_true, gt_iff_lt, not_lt.2 hsame, if_false]
  have h0 := hstep M psi E.uniformReal
  refine ⟨h0, getD_incr_self _ _ (by omega), fun M' psi' real' => ?_⟩
  rw [hstep M' psi' real']
  exact h0.symm

theorem MetropolisExchange.SweepStep_equal_values_witness :
    MetropolisExchange.SweepStep demoNumerics demoEngine demoPsi demoHilbert
        { demoExchangeState with v_ := [1, 1, 1, 1] }
      = some { demoExchangeState with v_ := [1, 1, 1, 1], rgen_ := 5, moves_ := [1] } :=
  (MetropolisExchange.SweepStep_equal_values demoNumerics demoEngine demoPsi demoHilbert
    { demoExchangeState with v_ := [1, 1, 1, 1] } 4 5 2 1 (by decide) (by decide)
    (by decide) (by decide) (by decide) (by decide)
    (by norm_num [epsilon, demoExchangeState])).1

/-! ### Reset -/

theorem list_ext_getD {α : Type} (d : α) (l1 l2 : List α) (hlen : l1.length = l2.length)
    (h : ∀ j, l1.getD j d = l2.getD j d) : l1 = l2 := by
  apply List.ext_getElem hlen
  intro j h1 h2
  have := h j
  rwa [List.getD_eq_getElem _ _ h1, List.getD_eq_getElem _ _ h2] at this

theorem getElem?_of_getD {α : Type} (d : α) (l : List α) (i : Nat) (a : α)
    (hi : i < l.length) (h : l.getD i d = a) : l[i]? = some a := by
  rw [List.getD_eq_getElem _ _ hi] at h
  rw [List.getElem?_eq_getElem hi, h]

theorem getD_of_getElem? {α : Type} (d : α) (l : List α) (i : Nat) (a : α)
    (h : l[i]? = some a) : l.getD i d = a := by
  simp [List.getD_eq_getElem?_getD, h]

/-- The table loop of `MetropolisLocalPt::Reset`: `lt_[i]` becomes the table of `v_[i]` for
`i<nrep_`, the other entries are kept. -/
theorem MetropolisLocalPt.Reset_tables {D C LT : Type} (psi : WfType D C LT) (nrep : Nat)
    (v : List (List D)) (lt : List LT) (hlt : nrep ≤ lt.length) :
    ((List.range nrep).foldl (fun l i => l.set i (psi.InitLookup (v.getD i []))) lt).length
        = lt.length ∧
    (∀ i, i < nrep →
      ((List.range nrep).foldl (fun l i => l.set i (psi.InitLookup (v.getD i []))) lt)[i]?
        = some (psi.InitLookup (v.getD i []))) ∧
    (∀ i, nrep ≤ i →
      ((List.range nrep).foldl (fun l i => l.set i (psi.InitLookup (v.getD i []))) lt)[i]?
        = lt[i]?) := by
  obtain ⟨hl, hg⟩ := foldl_set_range (fun i _ => psi.InitLookup (v.getD i []))
    (psi.InitLookup []) lt nrep hlt
  refine ⟨hl, fun i hi => ?_, fun i hi => ?_⟩
  · apply getElem?_of_getD (psi.InitLookup []) _ _ _ (by rw [hl]; omega)
    rw [hg i, if_pos hi]
  · rcases Nat.lt_or_ge i lt.length with h | h
    · rw [getElem?_of_getD (psi.InitLookup []) _ i (lt.getD i (psi.InitLookup []))
        (by rw [hl]; exact h) (by rw [hg i, if_neg (by omega)])]
      exact (getElem?_of_getD _ lt i _ h rfl).symm
    · rw [List.getElem?_eq_none (by rw [hl]; exact h), List.getElem?_eq_none h]

theorem MetropolisLocalPt.Reset_tables_of_consistent {D C LT : Type} (psi : WfType D C LT)
    (nrep : Nat) (v : List (List D)) (lt : List LT) (hlt : nrep ≤ lt.length)
    (hc : ∀ i, i < nrep → lt[i]? = some (psi.InitLookup (v.getD i []))) :
    (List.range nrep).foldl (fun l i => l.set i (psi.InitLookup (v.getD i []))) lt = lt := by
  obtain ⟨hl, hg⟩ := foldl_set_range (fun i _ => psi.InitLookup (v.getD i []))
    (psi.InitLookup []) lt nrep hlt
  apply list_ext_getD (psi.InitLookup []) _ _ hl
  intro j
  rw [hg j]
  split_ifs with hj
  · exact (getD_of_getElem? _ lt j _ (hc j hj)).symm
  · rfl

/-- C14 (amended): `Reset(false)` of either sampler sets every counter to 0, leaves every
configuration and the generator unchanged and sets each table to `InitLookup` of its
configuration, so each table is consistent afterwards and a table that was consistent
before is unchanged; a second `Reset(false)` changes nothing. -/
theorem Reset_false_spec {D C LT G : Type} [LinearOrderedField D]
    (E : Engine G D) (psi : WfType D C LT) (hilbert : CustomHilbert D) :
    (∀ s : MetropolisExchange D LT G, ∃ t,
      MetropolisExchange.Reset E psi hilbert s false = some t ∧
      t.accept_ = [0] ∧ t.moves_ = [0] ∧ t.v_ = s.v_ ∧ t.rgen_ = s.rgen_ ∧
      t.clusters_ = s.clusters_ ∧ t.lt_ = psi.InitLookup t.v_ ∧
      (s.lt_ = psi.InitLookup s.v_ → t.lt_ = s.lt_) ∧
      MetropolisExchange.Reset E psi hilbert t false = some t) ∧
    (∀ s : MetropolisLocalPt D LT G, s.nrep_ ≤ s.lt_.length → ∃ t,
      MetropolisLocalPt.Reset E psi hilbert s false = some t ∧
      t.accept_ = List.replicate (2 * s.nrep_) 0 ∧
      t.moves_ = List.replicate (2 * s.nrep_) 0 ∧
      t.v_ = s.v_ ∧ t.rgen_ = s.rgen_ ∧ t.beta_ = s.beta_ ∧ t.nrep_ = s.nrep_ ∧
      (∀ i, i < s.nrep_ → t.lt_[i]? = some (psi.InitLookup (t.v_.getD i []))) ∧
      ((∀ i, i < s.nrep_ → s.lt_[i]? = some (psi.InitLookup (s.v_.getD i []))) →
        t.lt_ = s.lt_) ∧
      MetropolisLocalPt.Reset E psi hilbert t false = some t) := by
  constructor
  · intro s
    refine ⟨{ s with lt_ := psi.InitLookup s.v_, accept_ := [0], moves_ := [0] },
      rfl, rfl, rfl, rfl, rfl, rfl, rfl, fun h => h.symm, rfl⟩
  · intro s hlt
    obtain ⟨hl, hget, -⟩ := MetropolisLocalPt.Reset_tables psi s.nrep_ s.v_ s.lt_ hlt
    refine ⟨{ s with
      lt_ := (List.range s.nrep_).foldl
        (fun lt i => lt.set i (psi.InitLookup (s.v_.getD i []))) s.lt_
      accept_ := List.replicate (2 * s.nrep_) 0
      moves_ := List.replicate (2 * s.nrep_) 0 },
      rfl, rfl, rfl, rfl, rfl, rfl, rfl, hget, ?_, ?_⟩
    · intro hc
      exact MetropolisLocalPt.Reset_tables_of_consistent psi s.nrep_ s.v_ s.lt_ hlt hc
    · simp only [MetropolisLocalPt.Reset, Bool.false_eq_true, if_false, Option.some_bind]
      rw [MetropolisLocalPt.Reset_tables_of_consistent psi s.nrep_ s.v_ _
        (by rw [hl]; exact hlt) hget]

theorem Reset_false_spec_witness :
    ∃ t, MetropolisLocalPt.Reset demoEngine demoPsi demoHilbert demoPtState false = some t ∧
      t.v_ = demoPtState.v_ ∧ t.lt_ = demoPtState.lt_ ∧
      MetropolisLocalPt.Reset demoEngine demoPsi demoHilbert t false = some t := by
  obtain ⟨t, ht, -, -, hv, -, -, -, -, hlt, hidem⟩ :=
    (Reset_false_spec demoEngine demoPsi demoHilbert).2 demoPtState (by decide)
  exact ⟨t, ht, hv, hlt (by decide), hidem⟩

/-- C14 (as stated) fails: after `SetVisible` the table of the exchange sampler is the one
of the previous configuration, and `Reset(false)` replaces it. -/
theorem Reset_false_changes_stale_table :
    ∃ s t, MetropolisExchange.Reachable demoNumerics demoEngine demoPsiCache demoHilbert s ∧
      MetropolisExchange.Reset demoEngine demoPsiCache demoHilbert s false = some t ∧
      s.lt_ = [-1, 1, -1, 1] ∧ t.lt_ = [1, 1, -1, -1] ∧ t.lt_ ≠ s.lt_ := by
  refine ⟨MetropolisExchange.SetVisible
      { demoExchangeState with lt_ := [-1, 1, -1, 1] } [1, 1, -1, -1], _,
    MetropolisExchange.Reachable.setVisible _ _
      (MetropolisExchange.Reachable.init 1 0 (fun _ => 0) ring4 1 _
        (by with_unfolding_all rfl)),
    rfl, rfl, rfl, by decide⟩

/-! ### Cache consistency and SetVisible -/

/-- C15: `SetVisible` stores the new configuration and keeps the old table. On a sampler
constructed for a wave function whose table is a copy of the configuration, the table
after `SetVisible` is the one of the previous configuration and differs from
`InitLookup` of the current one, in the exchange sampler and in replica 0 of the
tempering sampler. -/
theorem SetVisible_leaves_stale_table :
    (∃ s : MetropolisExchange ℚ (List ℚ) Nat, MetropolisExchange.Init demoEngine demoPsiCache demoHilbert 1 0 (fun _ => 0) ring4 1
        = some s ∧
      s.lt_ = demoPsiCache.InitLookup s.v_ ∧
      (MetropolisExchange.SetVisible s [1, 1, -1, -1]).v_ = [1, 1, -1, -1] ∧
      (MetropolisExchange.SetVisible s [1, 1, -1, -1]).lt_ = [-1, 1, -1, 1] ∧
      (MetropolisExchange.SetVisible s [1, 1, -1, -1]).lt_
        ≠ demoPsiCache.InitLookup (MetropolisExchange.SetVisible s [1, 1, -1, -1]).v_) ∧
    (∃ s : MetropolisLocalPt ℚ (List ℚ) Nat, MetropolisLocalPt.Init demoEngine demoPsiCache demoHilbert 1 0 (fun _ => 0) 2
        = some s ∧
      s.lt_[0]? = some (demoPsiCache.InitLookup (s.v_.getD 0 [])) ∧
      (MetropolisLocalPt.SetVisible s [1, 1, -1, -1]).v_.getD 0 [] = [1, 1, -1, -1] ∧
      (MetropolisLocalPt.SetVisible s [1, 1, -1, -1]).lt_[0]? = some ([-1, 1, -1, 1] : List ℚ) ∧
      (MetropolisLocalPt.SetVisible s [1, 1, -1, -1]).lt_[0]?
        ≠ some (demoPsiCache.InitLookup
            ((MetropolisLocalPt.SetVisible s [1, 1, -1, -1]).v_.getD 0 []))) := by
  refine ⟨⟨{ demoExchangeState with lt_ := [-1, 1, -1, 1] }, by with_unfolding_all rfl,
      rfl, rfl, rfl, by decide⟩,
    ⟨{ demoPtState with
        v_ := [[-1, 1, -1, 1], [-1, 1, -1, 1]]
        rgen_ := 8
        accept_ := [0, 0, 0, 0]
        moves_ := [0, 0, 0, 0]
        lt_ := [[-1, 1, -1, 1], [-1, 1, -1, 1]]
        nrep_ := 2
        beta_ := [1, 1 / 2] }, by with_unfolding_all rfl, by decide, by decide, by decide,
      by decide⟩⟩

/-! ### Seeding -/

theorem Seed_eq {G D : Type} (E : Engine G D) (rd : Nat → Nat) (totalnodes mynode : Nat)
    (baseseed : Int) (h : mynode < totalnodes) :
    Seed E rd totalnodes mynode baseseed = E.seed (toInt32 ((rd mynode : Int) + baseseed)) := by
  unfold Seed
  congr 1
  simp [List.getD_eq_getElem?_getD, h]

theorem toInt32_add_injective (a b : Nat) (baseseed : Int) (ha : a < 4294967296)
    (hb : b < 4294967296)
    (h : toInt32 ((a : Int) + baseseed) = toInt32 ((b : Int) + baseseed)) : a = b := by
  unfold toInt32 at h
  omega

/-- C16 (amended): the seed that the generator of worker `mynode` receives from
`Seed(baseseed)` is `seeds[mynode] = (int)(rd_mynode + baseseed)`, where `rd_mynode` is the
value that the `std::random_device` of node 0 returned for that worker: it is fixed by
`baseseed`, the worker index and that one entropy value, and two different 32-bit entropy
values give two different seeds. Two samplers constructed (`Seed()`, base seed 0) on the
same inputs with the same worker count, for which that entropy value is the same, are
equal, whatever the entropy values of the other workers are, and after any number of
sweeps their states, hence their configurations, are equal. -/
theorem Seed_reproducible {D C LT G : Type} [LinearOrderedField D] [Inhabited LT]
    (E : Engine G D) (psi : WfType D C LT) (hilbert : CustomHilbert D)
    (rd rd' : Nat → Nat) (totalnodes mynode : Nat) (hnode : mynode < totalnodes)
    (h : rd mynode = rd' mynode) :
    (∀ baseseed, Seed E rd totalnodes mynode baseseed
      = E.seed (toInt32 ((rd mynode : Int) + baseseed))) ∧
    (∀ baseseed, Seed E rd totalnodes mynode baseseed
      = Seed E rd' totalnodes mynode baseseed) ∧
    (∀ (a b : Nat) (baseseed : Int), a < 4294967296 → b < 4294967296 →
      toInt32 ((a : Int) + baseseed) = toInt32 ((b : Int) + baseseed) → a = b) ∧
    (∀ dist dmax, MetropolisExchange.Init E psi hilbert totalnodes mynode rd dist dmax
      = MetropolisExchange.Init E psi hilbert totalnodes mynode rd' dist dmax) ∧
    (∀ nrep, MetropolisLocalPt.Init E psi hilbert totalnodes mynode rd nrep
      = MetropolisLocalPt.Init E psi hilbert totalnodes mynode rd' nrep) ∧
    (∀ (M : Numerics D C) (n : Nat) dist dmax,
      (MetropolisExchange.Init E psi hilbert totalnodes mynode rd dist dmax).bind
          (iterateM n (MetropolisExchange.Sweep M E psi hilbert))
        = (MetropolisExchange.Init E psi hilbert totalnodes mynode rd' dist dmax).bind
          (iterateM n (MetropolisExchange.Sweep M E psi hilbert))) ∧
    (∀ (M : Numerics D C) (fuel n nrep : Nat),
      (MetropolisLocalPt.Init E psi hilbert totalnodes mynode rd nrep).bind
          (iterateM n (MetropolisLocalPt.Sweep M E psi hilbert fuel))
        = (MetropolisLocalPt.Init E psi hilbert totalnodes mynode rd' nrep).bind
          (iterateM n (MetropolisLocalPt.Sweep M E psi hilbert fuel))) := by
  have hs : ∀ baseseed, Seed E rd totalnodes mynode baseseed
      = Seed E rd' totalnodes mynode baseseed := by
    intro b
    rw [Seed_eq E rd totalnodes mynode b hnode, Seed_eq E rd' totalnodes mynode b hnode, h]
  have he : ∀ dist dmax, MetropolisExchange.Init E psi hilbert totalnodes mynode rd dist dmax
      = MetropolisExchange.Init E psi hilbert totalnodes mynode rd' dist dmax := by
    intro dist dmax
    unfold MetropolisExchange.Init
    rw [hs 0]
  have hp : ∀ nrep, MetropolisLocalPt.Init E psi hilbert totalnodes mynode rd nrep
      = MetropolisLocalPt.Init E psi hilbert totalnodes mynode rd' nrep := by
    intro nrep
    unfold MetropolisLocalPt.Init MetropolisLocalPt.SetNreplicas
    simp only
    rw [hs 0]
  refine ⟨fun b => Seed_eq E rd totalnodes mynode b hnode, hs,
    fun a b c ha hb hab => toInt32_add_injective a b c ha hb hab, he, hp, ?_, ?_⟩
  · intro M n dist dmax
    rw [he dist dmax]
  · intro M fuel n nrep
    rw [hp nrep]

theorem Seed_reproducible_witness :
    Seed demoEngine (fun i => if i = 1 then 3 else 5) 2 1 0 = 3 ∧
    MetropolisExchange.Init demoEngine demoPsi demoHilbert 2 1
        (fun i => if i = 1 then 3 else 5) ring4 1
      = MetropolisExchange.Init demoEngine demoPsi demoHilbert 2 1
        (fun i => if i = 1 then 3 else 9) ring4 1 ∧
    MetropolisExchange.Init demoEngine demoPsi demoHilbert 2 1
        (fun i => if i = 1 then 3 else 9) ring4 1
      = some { demoExchangeState with
          v_ := [1, -1, 1, -1], rgen_ := 7, mynode_ := 1, totalnodes_ := 2 } ∧
    (MetropolisExchange.Init demoEngine demoPsi demoHilbert 2 1
        (fun i => if i = 1 then 3 else 5) ring4 1).bind
        (iterateM 1 (MetropolisExchange.Sweep demoNumerics demoEngine demoPsi demoHilbert))
      = some { demoExchangeState with
          v_ := [-1, -1, 1, 1], rgen_ := 14, mynode_ := 1, totalnodes_ := 2
          accept_ := [3], moves_ := [4] } := by
  have h := Seed_reproducible demoEngine demoPsi demoHilbert (fun i => if i = 1 then 3 else 5)
    (fun i => if i = 1 then 3 else 9) 2 1 (by decide) rfl
  have hA : MetropolisExchange.Init demoEngine demoPsi demoHilbert 2 1
        (fun i => if i = 1 then 3 else 9) ring4 1
      = some { demoExchangeState with
          v_ := [1, -1, 1, -1], rgen_ := 7, mynode_ := 1, totalnodes_ := 2 } := by
    with_unfolding_all rfl
  have hB : MetropolisExchange.Sweep demoNumerics demoEngine demoPsi demoHilbert
        ({ demoExchangeState with
            v_ := [1, -1, 1, -1], rgen_ := 7, mynode_ := 1, totalnodes_ := 2 } :
          MetropolisExchange ℚ Unit Nat)
      = some { demoExchangeState with
          v_ := [-1, -1, 1, 1], rgen_ := 14, mynode_ := 1, totalnodes_ := 2
          accept_ := [3], moves_ := [4] } := by
    with_unfolding_all rfl
  refine ⟨(h.1 0).trans (by with_unfolding_all rfl), h.2.2.2.1 ring4 1, hA, ?_⟩
  rw [h.2.2.2.2.2.1 demoNumerics 1 ring4 1, hA]
  simp only [Option.some_bind, iterateM, hB]

/-- C16 (as stated) fails: two exchange samplers constructed with the same base seed
(`Seed()` is called with `baseseed = 0`), one worker and the same inputs start from
different configurations when the `std::random_device` returns 0 and 1. -/
theorem Seed_depends_on_entropy :
    ∃ s s', MetropolisExchange.Init demoEngine demoPsi demoHilbert 1 0 (fun _ => 0) ring4 1
        = some s ∧
      MetropolisExchange.Init demoEngine demoPsi demoHilbert 1 0 (fun _ => 1) ring4 1
        = some s' ∧
      s.v_ = [-1, 1, -1, 1] ∧ s'.v_ = [1, -1, 1, -1] ∧ s.v_ ≠ s'.v_ ∧
      Seed demoEngine (fun _ => 0) 1 0 0 ≠ Seed demoEngine (fun _ => 1) 1 0 0 := by
  refine ⟨demoExchangeState, { demoExchangeState with v_ := [1, -1, 1, -1], rgen_ := 5 },
    by with_unfolding_all rfl, by with_unfolding_all rfl, rfl, rfl, by decide,
    by with_unfolding_all decide⟩

theorem swapAt_spec {α : Type} (l : List α) (i j : Nat) (hi : i < l.length)
    (hj : j < l.length) :
    (swapAt l i j).length = l.length ∧ (swapAt l i j)[i]? = l[j]? ∧
      (swapAt l i j)[j]? = l[i]? ∧ ∀ k, k ≠ i → k ≠ j → (swapAt l i j)[k]? = l[k]? := by
  unfold swapAt
  rw [List.getElem?_eq_getElem hi, List.getElem?_eq_getElem hj]
  simp only [List.length_set, true_and]
  refine ⟨?_, ?_, ?_⟩
  · by_cases hij : j = i
    · subst hij
      simp [List.getElem?_set, hi]
    · simp [List.getElem?_set, hij, hi]
  · simp [List.getElem?_set, hj]
  · intro k hki hkj
    simp [List.getElem?_set, Ne.symm hki, Ne.symm hkj]

theorem getD_incr_incr (c : List Nat) (a b : Nat) (hab : a ≠ b) (ha : a < c.length)
    (hb : b < c.length) :
    (incr (incr c a) b).length = c.length ∧
    (incr (incr c a) b).getD a 0 = c.getD a 0 + 1 ∧
    (incr (incr c a) b).getD b 0 = c.getD b 0 + 1 ∧
    ∀ k, k ≠ a → k ≠ b → (incr (incr c a) b).getD k 0 = c.getD k 0 := by
  refine ⟨by rw [length_incr, length_incr], ?_, ?_, ?_⟩
  · rw [getD_incr_of_ne _ _ _ (Ne.symm hab), getD_incr_self _ _ ha]
  · rw [getD_incr_self _ _ (by rw [length_incr]; exact hb), getD_incr_of_ne _ _ _ hab]
  · intro k hka hkb
    rw [getD_incr_of_ne _ _ _ (Ne.symm hkb), getD_incr_of_ne _ _ _ (Ne.symm hka)]

/-- C17: one exchange attempt of `Sweep` on the pair `(r,r-1)`, `1 ≤ r < R`, with
probability `p = ExchangeProb(r,r-1)` and uniform variate `u`. If `p > u`, the
configurations of `r` and `r-1` are swapped and their tables with them, every other
replica is unchanged, `beta_` is unchanged, and `accept_(R+r)`, `accept_(R+r-1)` grow by 1;
otherwise no configuration, table or accept counter changes. In both cases `moves_(R+r)`
and `moves_(R+r-1)` grow by 1 and no other counter changes, in particular none of the
local-move counters `0..R-1`. -/
theorem MetropolisLocalPt.ExchangeAttempt_spec {D C LT G : Type} [LinearOrderedField D]
    (M : Numerics D C) (E : Engine G D) (psi : WfType D C LT) (r : Nat)
    (s : MetropolisLocalPt D LT G) (p u : D) (g : G)
    (hr : 1 ≤ r) (hrR : r < s.nrep_) (hv : s.v_.length = s.nrep_)
    (hlt : s.lt_.length = s.nrep_) (hacc : s.accept_.length = 2 * s.nrep_)
    (hmov : s.moves_.length = 2 * s.nrep_)
    (hp : MetropolisLocalPt.ExchangeProb M psi s r (r - 1) = some p)
    (hreal : E.uniformReal s.rgen_ = (u, g)) :
    (p > u → ∃ t, MetropolisLocalPt.ExchangeAttempt M E psi r s = some t ∧
      t.v_[r]? = s.v_[r - 1]? ∧ t.v_[r - 1]? = s.v_[r]? ∧
      t.lt_[r]? = s.lt_[r - 1]? ∧ t.lt_[r - 1]? = s.lt_[r]? ∧
      (∀ k, k ≠ r → k ≠ r - 1 → t.v_[k]? = s.v_[k]? ∧ t.lt_[k]? = s.lt_[k]?) ∧
      t.v_.length = s.v_.length ∧ t.lt_.length = s.lt_.length ∧
      t.beta_ = s.beta_ ∧ t.nrep_ = s.nrep_ ∧ t.rgen_ = g ∧
      t.accept_.getD (s.nrep_ + r) 0 = s.accept_.getD (s.nrep_ + r) 0 + 1 ∧
      t.accept_.getD (s.nrep_ + r - 1) 0 = s.accept_.getD (s.nrep_ + r - 1) 0 + 1 ∧
      t.moves_.getD (s.nrep_ + r) 0 = s.moves_.getD (s.nrep_ + r) 0 + 1 ∧
      t.moves_.getD (s.nrep_ + r - 1) 0 = s.moves_.getD (s.nrep_ + r - 1) 0 + 1 ∧
      (∀ k, k ≠ s.nrep_ + r → k ≠ s.nrep_ + r - 1 →
        t.accept_.getD k 0 = s.accept_.getD k 0 ∧ t.moves_.getD k 0 = s.moves_.getD k 0) ∧
      (∀ k, k < s.nrep_ →
        t.accept_.getD k 0 = s.accept_.getD k 0 ∧ t.moves_.getD k 0 = s.moves_.getD k 0)) ∧
    (¬ p > u → ∃ t, MetropolisLocalPt.ExchangeAttempt M E psi r s = some t ∧
      t.v_ = s.v_ ∧ t.lt_ = s.lt_ ∧ t.accept_ = s.accept_ ∧
      t.beta_ = s.beta_ ∧ t.nrep_ = s.nrep_ ∧ t.rgen_ = g ∧
      t.moves_.getD (s.nrep_ + r) 0 = s.moves_.getD (s.nrep_ + r) 0 + 1 ∧
      t.moves_.getD (s.nrep_ + r - 1) 0 = s.moves_.getD (s.nrep_ + r - 1) 0 + 1 ∧
      (∀ k, k ≠ s.nrep_ + r → k ≠ s.nrep_ + r - 1 →
        t.moves_.getD k 0 = s.moves_.getD k 0) ∧
      (∀ k, k < s.nrep_ → t.moves_.getD k 0 = s.moves_.getD k 0)) := by
  obtain ⟨hvl, hv1, hv2, hv3⟩ := swapAt_spec s.v_ r (r - 1) (by omega) (by omega)
  obtain ⟨hll, hl1, hl2, hl3⟩ := swapAt_spec s.lt_ r (r - 1) (by omega) (by omega)
  obtain ⟨-, ha1, ha2, ha3⟩ := getD_incr_incr s.accept_ (s.nrep_ + r) (s.nrep_ + r - 1)
    (by omega) (by omega) (by omega)
  obtain ⟨-, hm1, hm2, hm3⟩ := getD_incr_incr s.moves_ (s.nrep_ + r) (s.nrep_ + r - 1)
    (by omega) (by omega) (by omega)
  constructor
  · intro hpu
    refine ⟨{ MetropolisLocalPt.Exchange s r (r - 1) with
        rgen_ := g
        accept_ := incr (incr s.accept_ (s.nrep_ + r)) (s.nrep_ + r - 1)
        moves_ := incr (incr s.moves_ (s.nrep_ + r)) (s.nrep_ + r - 1) },
      ?_, hv1, hv2, hl1, hl2, fun k h1 h2 => ⟨hv3 k h1 h2, hl3 k h1 h2⟩, hvl, hll, rfl, rfl,
      rfl, ha1, ha2, hm1, hm2, fun k h1 h2 => ⟨ha3 k h1 h2, hm3 k h1 h2⟩,
      fun k hk => ⟨ha3 k (by omega) (by omega), hm3 k (by omega) (by omega)⟩⟩
    simp only [MetropolisLocalPt.ExchangeAttempt, hp, Option.some_bind, hreal, hpu, if_true]
  · intro hpu
    refine ⟨{ s with
        rgen_ := g
        moves_ := incr (incr s.moves_ (s.nrep_ + r)) (s.nrep_ + r - 1) },
      ?_, rfl, rfl, rfl, rfl, rfl, rfl, hm1, hm2, hm3,
      fun k hk => hm3 k (by omega) (by omega)⟩
    simp only [MetropolisLocalPt.ExchangeAttempt, hp, Option.some_bind, hreal, hpu, if_false]

theorem MetropolisLocalPt.ExchangeAttempt_spec_witness :
    ∃ t, MetropolisLocalPt.ExchangeAttempt demoNumerics demoEngine demoPsi 1 demoPtState
        = some t ∧
      t.accept_.getD 4 0 = 1 ∧ t.accept_.getD 3 0 = 1 ∧ t.moves_.getD 4 0 = 1 ∧
      t.moves_.getD 3 0 = 1 ∧ t.beta_ = [1, 2 / 3, 1 / 3] := by
  obtain ⟨t, ht, -, -, -, -, -, -, -, hb, -, -, ha1, ha2, hm1, hm2, -⟩ :=
    (MetropolisLocalPt.ExchangeAttempt_spec demoNumerics demoEngine demoPsi 1 demoPtState
      1 (1 / 2) 13 (by decide) (by decide) (by decide) (by decide) (by decide) (by decide)
      (by with_unfolding_all rfl) (by rfl)).1 (by norm_num)
  exact ⟨t, ht, ha1, ha2, hm1, hm2, hb⟩

/-! ### Legal values -/

theorem getD_mem_of_lt {α : Type} (l : List α) (i : Nat) (d : α) (h : i < l.length) :
    l.getD i d ∈ l := by
  rw [List.getD_eq_getElem _ _ h]
  exact List.getElem_mem h

theorem mem_swapAt {α : Type} (l : List α) (i j : Nat) (x : α) (h : x ∈ swapAt l i j) :
    x ∈ l := by
  unfold swapAt at h
  split at h
  · rename_i a b ha hb
    rcases List.mem_or_eq_of_mem_set h with h1 | rfl
    · rcases List.mem_or_eq_of_mem_set h1 with h2 | rfl
      · exact h2
      · exact List.getElem?_mem hb
    · exact List.getElem?_mem ha
  · exact h

theorem MetropolisLocalPt.redraw_mem {D G : Type} [LinearOrderedField D] (E : Engine G D)
    (hE : E.WellFormed) (localstates : List D) (nstates : Int) (cur : D)
    (h1 : 1 ≤ nstates) (hlen : nstates = (localstates.length : Int)) :
    ∀ (fuel : Nat) (newconf0 : D) (g : G) (x : D) (g' : G), newconf0 ∈ localstates →
      MetropolisLocalPt.redraw E localstates nstates cur fuel newconf0 g = some (x, g') →
      x ∈ localstates ∧ ¬ |x - cur| < epsilon := by
  intro fuel
  induction fuel with
  | zero =>
    intro newconf0 g x g' hmem h
    unfold MetropolisLocalPt.redraw at h
    split_ifs at h with hc
    simp only [Option.some.injEq, Prod.mk.injEq] at h
    obtain ⟨rfl, -⟩ := h
    exact ⟨hmem, hc⟩
  | succ fuel ih =>
    intro newconf0 g x g' hmem h
    unfold MetropolisLocalPt.redraw at h
    split_ifs at h with hc
    · refine ih _ _ x g' ?_ h
      apply getD_mem_of_lt
      have := hE.1 0 (nstates - 1) g (by omega)
      omega
    · simp only [Option.some.injEq, Prod.mk.injEq] at h
      obtain ⟨rfl, -⟩ := h
      exact ⟨hmem, hc⟩

theorem MetropolisLocalPt.LocalMove_legal {D C LT G : Type} [LinearOrderedField D]
    (M : Numerics D C) (E : Engine G D) (hE : E.WellFormed) (psi : WfType D C LT)
    (hilbert : CustomHilbert D) (fuel rep : Nat) (s t : MetropolisLocalPt D LT G)
    (h1 : 1 ≤ s.nstates_) (hlen : s.nstates_ = (s.localstates_.length : Int))
    (hs : s.Legal) (h : MetropolisLocalPt.LocalMove M E psi hilbert fuel rep s = some t) :
    t.Legal ∧ t.localstates_ = s.localstates_ ∧ t.nstates_ = s.nstates_ := by
  unfold MetropolisLocalPt.LocalMove at h
  simp only at h
  split_ifs at h
  simp only [Option.bind_eq_some] at h
  obtain ⟨xg, hxg, h⟩ := h
  obtain ⟨hx, -⟩ := MetropolisLocalPt.redraw_mem E hE s.localstates_ s.nstates_ _ h1 hlen
    fuel _ _ xg.1 xg.2 (by
      apply getD_mem_of_lt
      have := hE.1 0 (s.nstates_ - 1) (E.uniformInt 0 ((s.nv_ : Int) - 1) s.rgen_).2
        (by omega)
      omega) hxg
  split at h
  · exact absurd h (by simp)
  · split_ifs at h
    · simp only [Option.bind_eq_some] at h
      obtain ⟨v, hv, h⟩ := h
      split_ifs at h
      simp only [Option.some.injEq] at h
      subst h
      refine ⟨?_, rfl, rfl⟩
      intro c hc y hy
      rcases List.mem_or_eq_of_mem_set hc with hc' | rfl
      · exact hs c hc' y hy
      · unfold CustomHilbert.UpdateConf at hv
        split_ifs at hv
        simp only [Option.some.injEq, UpdateConfLoop, List.getD_cons_zero] at hv
        subst hv
        rcases List.mem_or_eq_of_mem_set hy with hy' | rfl
        · rcases Nat.lt_or_ge rep s.v_.length with hr | hr
          · exact hs _ (getD_mem_of_lt s.v_ rep [] hr) y hy'
          · rw [List.getD_eq_default _ _ hr] at hy'
            exact absurd hy' (List.not_mem_nil _)
        · exact hx
    · simp only [Option.some.injEq] at h
      subst h
      exact ⟨hs, rfl, rfl⟩

theorem MetropolisLocalPt.ExchangeAttempt_legal {D C LT G : Type} [LinearOrderedField D]
    (M : Numerics D C) (E : Engine G D) (psi : WfType D C LT) (r : Nat)
    (s t : MetropolisLocalPt D LT G) (hs : s.Legal)
    (h : MetropolisLocalPt.ExchangeAttempt M E psi r s = some t) :
    t.Legal ∧ t.localstates_ = s.localstates_ ∧ t.nstates_ = s.nstates_ := by
  unfold MetropolisLocalPt.ExchangeAttempt at h
  simp only [Option.bind_eq_some] at h
  obtain ⟨p, -, h⟩ := h
  split_ifs at h
  · simp only [Option.some.injEq] at h
    subst h
    exact ⟨fun c hc y hy => hs c (mem_swapAt _ _ _ _ hc) y hy, rfl, rfl⟩
  · simp only [Option.some.injEq] at h
    subst h
    exact ⟨hs, rfl, rfl⟩

theorem MetropolisLocalPt.Sweep_legal {D C LT G : Type} [LinearOrderedField D]
    (M : Numerics D C) (E : Engine G D) (hE : E.WellFormed) (psi : WfType D C LT)
    (hilbert : CustomHilbert D) (fuel : Nat) (s t : MetropolisLocalPt D LT G)
    (h1 : 1 ≤ s.nstates_) (hlen : s.nstates_ = (s.localstates_.length : Int))
    (hs : s.Legal) (h : MetropolisLocalPt.Sweep M E psi hilbert fuel s = some t) :
    t.Legal ∧ t.localstates_ = s.localstates_ ∧ t.nstates_ = s.nstates_ := by
  unfold MetropolisLocalPt.Sweep at h
  simp only [Option.bind_eq_some] at h
  obtain ⟨s1, hs1, s2, hs2, hs3⟩ := h
  have hex : ∀ (rs : List Nat) (a b : MetropolisLocalPt D LT G),
      (a.Legal ∧ a.localstates_ = s.localstates_ ∧ a.nstates_ = s.nstates_) →
      MetropolisLocalPt.forEachM rs (MetropolisLocalPt.ExchangeAttempt M E psi) a = some b →
      (b.Legal ∧ b.localstates_ = s.localstates_ ∧ b.nstates_ = s.nstates_) :=
    fun rs a b ha hab =>
      forEachM_invariant
        (fun x => x.Legal ∧ x.localstates_ = s.localstates_ ∧ x.nstates_ = s.nstates_) _ rs a b
        (fun r _ x y hx hxy => by
          obtain ⟨hl, hls, hns⟩ :=
            MetropolisLocalPt.ExchangeAttempt_legal M E psi r x y hx.1 hxy
          exact ⟨hl, hls.trans hx.2.1, hns.trans hx.2.2⟩)
        ha hab
  refine hex _ s2 t (hex _ s1 s2 ?_ hs2) hs3
  refine forEachM_invariant
    (fun x => x.Legal ∧ x.localstates_ = s.localstates_ ∧ x.nstates_ = s.nstates_) _ _ s s1
    ?_ ⟨hs, rfl, rfl⟩ hs1
  intro r _ x y hx hxy
  refine iterateM_invariant
    (fun x => x.Legal ∧ x.localstates_ = s.localstates_ ∧ x.nstates_ = s.nstates_) _ ?_
    _ x y hx hxy
  intro a b ha hab
  obtain ⟨hl, hls, hns⟩ := MetropolisLocalPt.LocalMove_legal M E hE psi hilbert fuel r a b
    (by rw [ha.2.2]; exact h1) (by rw [ha.2.2, ha.2.1]; exact hlen) ha.1 hab
  exact ⟨hl, hls.trans ha.2.1, hns.trans ha.2.2⟩

theorem demoEngine_wellFormed : demoEngine.WellFormed := by
  refine ⟨fun a b g hab => ?_, fun g => ?_⟩
  · show a ≤ a + (g : Int) % (b - a + 1) ∧ a + (g : Int) % (b - a + 1) ≤ b
    have h1 := Int.emod_nonneg (g : Int) (show b - a + 1 ≠ 0 by omega)
    have h2 := Int.emod_lt_of_pos (g : Int) (show 0 < b - a + 1 by omega)
    omega
  · show (0 : ℚ) ≤ 1 / 2 ∧ (1 / 2 : ℚ) < 1
    norm_num

/-! ### Exchange moves conserve the site values -/

theorem swap_perm {α : Type} [DecidableEq α] (l : List α) (i j : Nat) (d : α)
    (hi : i < l.length) (hj : j < l.length) :
    ((l.set i (l.getD j d)).set j (l.getD i d)).Perm l := by
  rw [List.getD_eq_getElem _ _ hi, List.getD_eq_getElem _ _ hj]
  by_cases hij : i = j
  · subst hij
    have hself : l.set i l[i] = l := by
      apply List.ext_getElem (by simp)
      intro n h1 h2
      by_cases h : i = n
      · subst h
        simp
      · simp [List.getElem_set_ne h]
    simp [hself]
  · rw [List.perm_iff_count]
    intro b
    rw [List.count_set _ _ _ _ (by simpa using hj), List.count_set _ _ _ _ hi,
      List.getElem_set_ne hij]
    have p1 : (if (l[i] == b) = true then 1 else 0) ≤ l.count b := by
      split_ifs with h
      · exact List.count_pos_iff.2 (by rw [← eq_of_beq h]; exact List.getElem_mem hi)
      · exact Nat.zero_le _
    have p2 : (if (l[j] == b) = true then 1 else 0) ≤ l.count b := by
      split_ifs with h
      · exact List.count_pos_iff.2 (by rw [← eq_of_beq h]; exact List.getElem_mem hj)
      · exact Nat.zero_le _
    split_ifs at p1 p2 ⊢ <;> omega

theorem ExchangePath.perm {D : Type} [LinearOrderedField D] (clusters : List (List Nat))
    (v w : List D) (h : ExchangePath clusters v w) : w.Perm v := by
  induction h with
  | refl => exact List.Perm.refl _
  | step w si sj _ _ hsi hsj ih => exact (swap_perm w si sj 0 hsi hsj).trans ih

theorem MetropolisExchange.SweepStep_exchange {D C LT G : Type} [LinearOrderedField D]
    (M : Numerics D C) (E : Engine G D) (psi : WfType D C LT) (hilbert : CustomHilbert D)
    (s t : MetropolisExchange D LT G) (hnv : (s.nv_ : Int) = hilbert.size_)
    (hcl : ∀ c ∈ s.clusters_, c.length = 2)
    (h : MetropolisExchange.SweepStep M E psi hilbert s = some t) :
    t.nv_ = s.nv_ ∧ t.clusters_ = s.clusters_ ∧
      (t.v_ = s.v_ ∨ ∃ si sj, [si, sj] ∈ s.clusters_ ∧ si < s.v_.length ∧ sj < s.v_.length ∧
        t.v_ = (s.v_.set si (s.v_.getD sj 0)).set sj (s.v_.getD si 0)) := by
  unfold MetropolisExchange.SweepStep at h
  simp only at h
  split_ifs at h with hrcl hsite hdiff hacc
  · simp only [Option.bind_eq_some, Option.some.injEq] at h
    obtain ⟨v, hv, rfl⟩ := h
    refine ⟨rfl, rfl, Or.inr ?_⟩
    have hidx : (E.uniformInt 0 ((s.clusters_.length : Int) - 1) s.rgen_).1.toNat
        < s.clusters_.length := by omega
    have hmem := getD_mem_of_lt s.clusters_ _ [] hidx
    have hlen := hcl _ hmem
    obtain ⟨si, sj, hc⟩ : ∃ si sj, s.clusters_.getD
        (E.uniformInt 0 ((s.clusters_.length : Int) - 1) s.rgen_).1.toNat [] = [si, sj] := by
      match hl : s.clusters_.getD
        (E.uniformInt 0 ((s.clusters_.length : Int) - 1) s.rgen_).1.toNat [] with
      | [] => rw [hl] at hlen; simp at hlen
      | [_] => rw [hl] at hlen; simp at hlen
      | [a, b] => exact ⟨a, b, rfl⟩
      | _ :: _ :: _ :: _ => rw [hl] at hlen; simp at hlen
    rw [hc] at hmem hsite hv
    simp only [List.getD_cons_zero, List.getD_cons_succ] at hsite
    unfold CustomHilbert.UpdateConf at hv
    split_ifs at hv with hsz
    simp only [Option.some.injEq, UpdateConfLoop, List.getD_cons_zero, List.getD_cons_succ,
      hc] at hv
    refine ⟨si, sj, hmem, by omega, by omega, ?_⟩
    rw [← hv]
  · simp only [Option.some.injEq] at h
    subst h
    exact ⟨rfl, rfl, Or.inl rfl⟩
  · simp only [Option.some.injEq] at h
    subst h
    exact ⟨rfl, rfl, Or.inl rfl⟩

theorem MetropolisExchange.Sweep_exchange {D C LT G : Type} [LinearOrderedField D]
    (M : Numerics D C) (E : Engine G D) (psi : WfType D C LT) (hilbert : CustomHilbert D)
    (s t : MetropolisExchange D LT G) (hnv : (s.nv_ : Int) = hilbert.size_)
    (hcl : ∀ c ∈ s.clusters_, c.length = 2)
    (h : MetropolisExchange.Sweep M E psi hilbert s = some t) :
    t.nv_ = s.nv_ ∧ t.clusters_ = s.clusters_ ∧ ExchangePath s.clusters_ s.v_ t.v_ := by
  refine iterateM_invariant
    (fun x => x.nv_ = s.nv_ ∧ x.clusters_ = s.clusters_ ∧ ExchangePath s.clusters_ s.v_ x.v_)
    (MetropolisExchange.SweepStep M E psi hilbert) ?_ s.nv_ s t
    ⟨rfl, rfl, ExchangePath.refl _⟩ h
  intro x y ⟨hx1, hx2, hx3⟩ hxy
  obtain ⟨h1, h2, h3⟩ := MetropolisExchange.SweepStep_exchange M E psi hilbert x y
    (by rw [hx1]; exact hnv) (by rw [hx2]; exact hcl) hxy
  refine ⟨h1.trans hx1, h2.trans hx2, ?_⟩
  rcases h3 with h3 | ⟨si, sj, hc, hsi, hsj, h3⟩
  · rw [h3]; exact hx3
  · rw [h3]
    exact ExchangePath.step _ _ si sj hx3 (hx2 ▸ hc) hsi hsj

/-- C21: `MetropolisExchange::Sweep` conserves the multiset of site values: the
configuration after the sweep arises from the one before by exchanging the values of
candidate pairs one after the other; it is a permutation of it and has the same sum. -/
theorem MetropolisExchange.Sweep_conserves_values {D C LT G : Type} [LinearOrderedField D]
    (M : Numerics D C) (E : Engine G D) (psi : WfType D C LT) (hilbert : CustomHilbert D)
    (s t : MetropolisExchange D LT G) (hnv : (s.nv_ : Int) = hilbert.size_)
    (hcl : ∀ c ∈ s.clusters_, c.length = 2)
    (h : MetropolisExchange.Sweep M E psi hilbert s = some t) :
    t.v_.Perm s.v_ ∧ t.v_.sum = s.v_.sum ∧ t.v_.length = s.v_.length ∧
      ExchangePath s.clusters_ s.v_ t.v_ := by
  obtain ⟨-, -, hp⟩ := MetropolisExchange.Sweep_exchange M E psi hilbert s t hnv hcl h
  have hperm := ExchangePath.perm _ _ _ hp
  exact ⟨hperm, hperm.sum_eq, hperm.length_eq, hp⟩

theorem MetropolisExchange.Sweep_conserves_values_witness :
    ∃ t, MetropolisExchange.Sweep demoNumerics demoEngine demoPsi demoHilbert
        demoExchangeState = some t ∧
      t.v_ = [1, -1, 1, -1] ∧ t.v_.Perm [-1, 1, -1, 1] ∧ t.v_.sum = 0 := by
  have h : MetropolisExchange.Sweep demoNumerics demoEngine demoPsi demoHilbert
      demoExchangeState = some { demoExchangeState with
        v_ := [1, -1, 1, -1], rgen_ := 12, accept_ := [4], moves_ := [4] } := by
    with_unfolding_all rfl
  obtain ⟨hp, hs, -⟩ := MetropolisExchange.Sweep_conserves_values demoNumerics demoEngine
    demoPsi demoHilbert demoExchangeState _ (by decide) (by decide) h
  exact ⟨_, h, rfl, hp, by rw [hs]; norm_num [demoExchangeState]⟩

/-- C18: with a generator that respects the ranges of its distributions and a non-empty
list of local states (`nstates_` its length): the value `LocalSweep` proposes after the
redraw loop is one of `LocalStates` and differs from the current value of the site; a
sweep of the tempering sampler keeps every site of every replica in `LocalStates`; a
sweep of the exchange sampler, which only writes the current values of the two sites of
a cluster, keeps every site in any set the sites were in before. -/
theorem legal_values {D C LT G : Type} [LinearOrderedField D]
    (M : Numerics D C) (E : Engine G D) (psi : WfType D C LT) (hilbert : CustomHilbert D)
    (hE : E.WellFormed) :
    (∀ (s : MetropolisLocalPt D LT G) (cur : D) (fuel : Nat) (g : G) (x : D) (g' : G),
      1 ≤ s.nstates_ → s.nstates_ = (s.localstates_.length : Int) →
      MetropolisLocalPt.redraw E s.localstates_ s.nstates_ cur fuel
        (s.localstates_.getD (E.uniformInt 0 (s.nstates_ - 1) g).1.toNat 0)
        (E.uniformInt 0 (s.nstates_ - 1) g).2 = some (x, g') →
      x ∈ s.localstates_ ∧ x ≠ cur) ∧
    (∀ (fuel : Nat) (s t : MetropolisLocalPt D LT G),
      1 ≤ s.nstates_ → s.nstates_ = (s.localstates_.length : Int) → s.Legal →
      MetropolisLocalPt.Sweep M E psi hilbert fuel s = some t →
      t.Legal ∧ t.localstates_ = s.localstates_) ∧
    (∀ (s t : MetropolisExchange D LT G) (legal : D → Prop),
      (s.nv_ : Int) = hilbert.size_ → (∀ c ∈ s.clusters_, c.length = 2) →
      (∀ x ∈ s.v_, legal x) →
      MetropolisExchange.Sweep M E psi hilbert s = some t → ∀ x ∈ t.v_, legal x) := by
  refine ⟨?_, ?_, ?_⟩
  · intro s cur fuel g x g' h1 hlen h
    obtain ⟨hx, hne⟩ := MetropolisLocalPt.redraw_mem E hE s.localstates_ s.nstates_ cur h1
      hlen fuel _ _ x g' (by
        apply getD_mem_of_lt
        have := hE.1 0 (s.nstates_ - 1) g (by omega)
        omega) h
    refine ⟨hx, ?_⟩
    rintro rfl
    apply hne
    rw [sub_self, abs_zero]
    unfold epsilon
    positivity
  · intro fuel s t h1 hlen hs h
    obtain ⟨hl, hls, -⟩ := MetropolisLocalPt.Sweep_legal M E hE psi hilbert fuel s t h1 hlen
      hs h
    exact ⟨hl, hls⟩
  · intro s t legal hnv hcl hs h x hx
    obtain ⟨-, -, hp⟩ := MetropolisExchange.Sweep_exchange M E psi hilbert s t hnv hcl h
    exact hs x ((ExchangePath.perm _ _ _ hp).mem_iff.1 hx)

theorem legal_values_witness :
    MetropolisLocalPt.Legal
      ({ demoPtState1 with
        v_ := [[1, -1, 1, -1]], rgen_ := 16, accept_ := [4, 0], moves_ := [4, 0] } :
        MetropolisLocalPt ℚ Unit Nat) :=
  ((legal_values demoNumerics demoEngine demoPsi demoHilbert demoEngine_wellFormed).2.1 0
    demoPtState1 _ (by decide) (by decide)
    (by simp [MetropolisLocalPt.Legal, demoPtState1]) (by with_unfolding_all rfl)).1

/-! ### Construction of `CustomHilbert` -/

/-- C19: the constructor of `CustomHilbert` aborts on a non-positive `"Size"`, but with
`"QuantumNumbers"` absent, or with `"Size"` absent, it writes a line to `cerr` and goes on:
it returns a space without local states, respectively one whose size is whatever the
unassigned `size_` holds. -/
theorem CustomHilbert.fromJson_absent_fields (garbage : Int) :
    CustomHilbert.fromJson (HilbertPars.mk (some [-1, 1]) (some 0) : HilbertPars ℚ) garbage
      = ⟨["Hilbert Size parameter must be positive"], none⟩ ∧
    CustomHilbert.fromJson (HilbertPars.mk none (some 4) : HilbertPars ℚ) garbage
      = ⟨["QuantumNumbers are not defined"], some ⟨[], 0, 4⟩⟩ ∧
    CustomHilbert.fromJson (HilbertPars.mk (some [-1, 1]) none : HilbertPars ℚ) garbage
      = ⟨["Hilbert space extent is not defined"], some ⟨[-1, 1], 2, garbage⟩⟩ ∧
    CustomHilbert.fromJson (HilbertPars.mk (some [-1, 1]) (some 4) : HilbertPars ℚ) garbage
      = ⟨[], some ⟨[-1, 1], 2, 4⟩⟩ :=
  ⟨rfl, rfl, rfl, rfl⟩

/-! ### SetNreplicas on an initialised sampler -/

/-- C22: `SetNreplicas(2)` on the sampler constructed with 3 replicas appends the two new
inverse temperatures to the three old ones: `beta_` has 5 entries and `beta_[1]` is `2/3`,
not `1 - 1/2`, while `v_`, `lt_` have 2 entries and the counters 4. -/
theorem MetropolisLocalPt.SetNreplicas_again :
    MetropolisLocalPt.Init demoEngine demoPsi demoHilbert 1 0 (fun _ => 0) 3
      = some demoPtState ∧
    ∃ t, MetropolisLocalPt.SetNreplicas demoEngine demoPsi demoHilbert (fun _ => 0)
        demoPtState 2 = some t ∧
      t.nrep_ = 2 ∧ t.beta_ = [1, 2 / 3, 1 / 3, 1, 1 / 2] ∧ t.beta_.length = 5 ∧
      t.beta_.getD 1 0 = 2 / 3 ∧ t.beta_.getD 1 0 ≠ 1 - 1 / 2 ∧
      t.v_.length = 2 ∧ t.lt_.length = 2 ∧
      t.accept_ = [0, 0, 0, 0] ∧ t.moves_ = [0, 0, 0, 0] := by
  refine ⟨by with_unfolding_all rfl,
    { demoPtState with
      nrep_ := 2
      v_ := [[-1, 1, -1, 1], [-1, 1, -1, 1]]
      rgen_ := 8
      beta_ := [1, 2 / 3, 1 / 3, 1, 1 / 2]
      lt_ := [(), ()]
      accept_ := [0, 0, 0, 0]
      moves_ := [0, 0, 0, 0] },
    by with_unfolding_all rfl, rfl, rfl, rfl, by with_unfolding_all decide,
    by with_unfolding_all decide, rfl, rfl, rfl, rfl⟩

/-! ### Matrices from json -/

/-- C23: `from_json` accepts the rows `[[1,2],[]]`: the length of a row is compared with
that of the first row only inside the loop over its entries, so an empty later row is
never checked and row 1 of the 2×2 result keeps its unassigned entries; a later row of 1
or 3 entries is rejected, and rectangular rows are loaded. -/
theorem from_json_empty_row (uninit : ℚ) :
    from_json [[1, 2], []] uninit = some ⟨2, 2, [[1, 2], [uninit, uninit]]⟩ ∧
    from_json [[1, 2], [3]] uninit = none ∧
    from_json [[1, 2], [3, 4, 5]] uninit = none ∧
    from_json [[1, 2], [3, 4]] uninit = some ⟨2, 2, [[1, 2], [3, 4]]⟩ ∧
    from_json (to_json ⟨2, 2, [[1, 2], [3, 4]]⟩ uninit) uninit = some ⟨2, 2, [[1, 2], [3, 4]]⟩ :=
  ⟨rfl, rfl, rfl, rfl, rfl⟩

/-! ### Connected states of the Ising model -/

theorem set_getD_self {α : Type} (l : List α) (i : Nat) (d : α) :
    l.set i (l.getD i d) = l := by
  rcases Nat.lt_or_ge i l.length with h | h
  · apply list_ext_getD d _ _ (by simp)
    intro j
    by_cases hj : i = j
    · subst hj
      rw [getD_set_self _ _ _ _ h]
    · rw [getD_set_of_ne _ _ _ _ _ hj]
  · exact List.set_eq_of_length_le h

theorem Ising.GenerateBonds_row (i : Nat) (l : List Nat) (bonds : List (List Nat)) :
    l.foldl (fun b s => if s > i then b.set i (b.getD i [] ++ [s]) else b) bonds
      = bonds.set i (bonds.getD i [] ++ l.filter (fun s => decide (s > i))) := by
  induction l generalizing bonds with
  | nil =>
    rw [List.foldl_nil, List.filter_nil, List.append_nil, set_getD_self]
  | cons s l ih =>
    rw [List.foldl_cons, ih]
    by_cases hs : s > i
    · rw [if_pos hs, List.filter_cons_of_pos (by simpa using hs)]
      rcases Nat.lt_or_ge i bonds.length with h | h
      · rw [getD_set_self _ _ _ _ h, List.set_set, List.append_assoc]
        rfl
      · rw [List.set_eq_of_length_le h, List.set_eq_of_length_le h,
          List.set_eq_of_length_le h]
    · rw [if_neg hs, List.filter_cons_of_neg (by simpa using hs)]

theorem Ising.getD_GenerateBonds (nspins : Nat) (adj : List (List Nat)) (i : Nat)
    (hi : i < nspins) :
    (Ising.GenerateBonds nspins adj).getD i []
      = (adj.getD i []).filter (fun s => decide (s > i)) := by
  unfold Ising.GenerateBonds
  simp only [Ising.GenerateBonds_row]
  obtain ⟨-, hg⟩ := foldl_set_range
    (fun i x => x ++ (adj.getD i []).filter (fun s => decide (s > i))) []
    (List.replicate nspins []) nspins (by simp)
  rw [hg i, if_pos hi]
  simp [List.getD_eq_getElem?_getD, hi]

theorem Ising.FindConn_bonds {D : Type} [LinearOrderedField D] (J vi : D) (v : List D)
    (bs : List Nat) (c : Conn D) (h0 : 0 < c.mel.length) :
    (bs.foldl (fun c bond =>
        { c with mel := c.mel.set 0 (c.mel.getD 0 0 - J * vi * v.getD bond 0) }) c).connectors
      = c.connectors ∧
    (bs.foldl (fun c bond =>
        { c with mel := c.mel.set 0 (c.mel.getD 0 0 - J * vi * v.getD bond 0) }) c).newconfs
      = c.newconfs ∧
    (bs.foldl (fun c bond =>
        { c with mel := c.mel.set 0 (c.mel.getD 0 0 - J * vi * v.getD bond 0) }) c).mel.length
      = c.mel.length ∧
    (bs.foldl (fun c bond =>
        { c with mel := c.mel.set 0 (c.mel.getD 0 0 - J * vi * v.getD bond 0) }) c).mel.getD 0 0
      = c.mel.getD 0 0 - J * (bs.map (fun b => vi * v.getD b 0)).sum ∧
    ∀ k, k ≠ 0 →
      (bs.foldl (fun c bond =>
        { c with mel := c.mel.set 0 (c.mel.getD 0 0 - J * vi * v.getD bond 0) }) c).mel.getD k 0
        = c.mel.getD k 0 := by
  induction bs generalizing c with
  | nil => simp
  | cons b bs ih =>
    simp only [List.foldl_cons, List.map_cons, List.sum_cons]
    obtain ⟨h1, h2, h3, h4, h5⟩ := ih
      { c with mel := c.mel.set 0 (c.mel.getD 0 0 - J * vi * v.getD b 0) } (by simpa using h0)
    refine ⟨h1, h2, by simpa using h3, ?_, ?_⟩
    · rw [h4]
      show (c.mel.set 0 _).getD 0 0 - _ = _
      rw [getD_set_self _ _ _ _ h0]
      ring
    · intro k hk
      rw [h5 k hk]
      exact getD_set_of_ne _ _ _ _ _ (Ne.symm hk)

theorem Ising.FindConn_loop {D : Type} [LinearOrderedField D] (H : Ising D) (v : List D)
    (c0 : Conn D) (n : Nat) (hm : c0.mel.length = n + 1)
    (hc : c0.connectors = List.replicate (n + 1) [])
    (hn : c0.newconfs = List.replicate (n + 1) []) (h0 : c0.mel.getD 0 0 = 0) :
    ∀ k, k ≤ n →
      ((List.range k).foldl (Ising.FindConnStep H v) c0).mel.length = n + 1 ∧
      ((List.range k).foldl (Ising.FindConnStep H v) c0).connectors.length = n + 1 ∧
      ((List.range k).foldl (Ising.FindConnStep H v) c0).newconfs.length = n + 1 ∧
      ((List.range k).foldl (Ising.FindConnStep H v) c0).mel.getD 0 0
        = -(H.J_ * ((List.range k).flatMap (fun i =>
            (H.bonds_.getD i []).map (fun b => v.getD i 0 * v.getD b 0))).sum) ∧
      (∀ j, ((List.range k).foldl (Ising.FindConnStep H v) c0).connectors.getD j []
        = if 1 ≤ j ∧ j ≤ k then [j - 1] else []) ∧
      (∀ j, ((List.range k).foldl (Ising.FindConnStep H v) c0).newconfs.getD j []
        = if 1 ≤ j ∧ j ≤ k then [-(v.getD (j - 1) 0)] else []) ∧
      (∀ j, 1 ≤ j → j ≤ k →
        ((List.range k).foldl (Ising.FindConnStep H v) c0).mel.getD j 0 = -H.h_) := by
  intro k
  induction k with
  | zero =>
    intro _
    refine ⟨hm, by simp [hc], by simp [hn], by simpa using h0, ?_, ?_, ?_⟩
    · intro j
      rw [if_neg (by omega)]
      simp only [List.range_zero, List.foldl_nil, hc, List.getD_eq_getElem?_getD,
        List.getElem?_replicate]
      split_ifs <;> rfl
    · intro j
      rw [if_neg (by omega)]
      simp only [List.range_zero, List.foldl_nil, hn, List.getD_eq_getElem?_getD,
        List.getElem?_replicate]
      split_ifs <;> rfl
    · intro j h1 h2
      omega
  | succ k ih =>
    intro hk
    obtain ⟨i1, i2, i3, i4, i5, i6, i7⟩ := ih (by omega)
    rw [List.range_succ, List.foldl_append, List.flatMap_append, List.sum_append]
    simp only [List.foldl_cons, List.foldl_nil, List.flatMap_cons, List.flatMap_nil,
      List.append_nil]
    generalize (List.range k).foldl (Ising.FindConnStep H v) c0 = c at i1 i2 i3 i4 i5 i6 i7
    obtain ⟨b1, b2, b3, b4, b5⟩ := Ising.FindConn_bonds H.J_ (v.getD k 0) v
      (H.bonds_.getD k [])
      { mel := c.mel.set (k + 1) (-H.h_)
        connectors := c.connectors.set (k + 1) (c.connectors.getD (k + 1) [] ++ [k])
        newconfs := c.newconfs.set (k + 1) (c.newconfs.getD (k + 1) [] ++ [-(v.getD k 0)]) }
      (by simp; omega)
    unfold Ising.FindConnStep
    refine ⟨?_, ?_, ?_, ?_, ?_, ?_, ?_⟩
    · rw [b3]; simpa using i1
    · rw [b1]; simpa using i2
    · rw [b2]; simpa using i3
    · rw [b4]
      show (c.mel.set (k + 1) (-H.h_)).getD 0 0 - _ = _
      rw [getD_set_of_ne _ _ _ _ _ (by omega), i4]
      ring
    · intro j
      rw [b1]
      show (c.connectors.set (k + 1) _).getD j [] = _
      by_cases hj : j = k + 1
      · subst hj
        rw [getD_set_self _ _ _ _ (by omega), i5, if_neg (by omega), if_pos (by omega)]
        simp
      · rw [getD_set_of_ne _ _ _ _ _ (Ne.symm hj), i5]
        by_cases hjk : 1 ≤ j ∧ j ≤ k
        · rw [if_pos hjk, if_pos (by omega)]
        · rw [if_neg hjk, if_neg (by omega)]
    · intro j
      rw [b2]
      show (c.newconfs.set (k + 1) _).getD j [] = _
      by_cases hj : j = k + 1
      · subst hj
        rw [getD_set_self _ _ _ _ (by omega), i6, if_neg (by omega), if_pos (by omega)]
        simp
      · rw [getD_set_of_ne _ _ _ _ _ (Ne.symm hj), i6]
        by_cases hjk : 1 ≤ j ∧ j ≤ k
        · rw [if_pos hjk, if_pos (by omega)]
        · rw [if_neg hjk, if_neg (by omega)]
    · intro j h1 h2
      rw [b5 j (by omega)]
      show (c.mel.set (k + 1) (-H.h_)).getD j 0 = _
      by_cases hj : j = k + 1
      · subst hj
        exact getD_set_self _ _ _ _ (by omega)
      · rw [getD_set_of_ne _ _ _ _ _ (Ne.symm hj)]
        exact i7 j h1 (by omega)

theorem Ising.mem_bondPairs {D : Type} (nspins : Nat) (adj : List (List Nat)) (h J : D)
    (i j : Nat) :
    (i, j) ∈ (Ising.Init nspins adj h J).bondPairs ↔ i < nspins ∧ i < j ∧ j ∈ adj.getD i [] := by
  unfold Ising.bondPairs Ising.Init
  simp only [List.mem_flatMap, List.mem_range, List.mem_map, Prod.mk.injEq]
  constructor
  · rintro ⟨a, ha, s, hs, rfl, rfl⟩
    rw [Ising.getD_GenerateBonds nspins adj a ha, List.mem_filter] at hs
    exact ⟨ha, by simpa using hs.2, hs.1⟩
  · rintro ⟨hi, hij, hj⟩
    refine ⟨i, hi, j, ?_, rfl, rfl⟩
    rw [Ising.getD_GenerateBonds nspins adj i hi, List.mem_filter]
    exact ⟨hj, by simpa using hij⟩

theorem Ising.nodup_bondPairs {D : Type} (nspins : Nat) (adj : List (List Nat)) (h J : D)
    (hnd : ∀ i, i < nspins → (adj.getD i []).Nodup) :
    (Ising.Init nspins adj h J).bondPairs.Nodup := by
  unfold Ising.bondPairs Ising.Init List.Nodup
  rw [List.pairwise_flatMap]
  constructor
  · intro a ha
    rw [List.mem_range] at ha
    rw [List.pairwise_map, Ising.getD_GenerateBonds nspins adj a ha]
    apply List.Pairwise.filter
    exact (hnd a ha).imp (fun hne heq => hne (Prod.mk.inj heq).2)
  · apply (List.nodup_range nspins).imp
    intro a b hab x hx y hy heq
    rw [List.mem_map] at hx hy
    obtain ⟨s, -, rfl⟩ := hx
    obtain ⟨s', -, hy'⟩ := hy
    rw [← hy'] at heq
    exact hab (Prod.mk.inj heq).1

/-- C20 (amended): for a graph with `N` sites, a symmetric adjacency list `adj` in which
no row names a neighbour twice, and a configuration `v` of length `N`, `FindConn` returns
`N+1` entries:
entry 0 has empty `connectors` and `newconfs` and `mel = -J·Σ v(i)·v(j)` over the bonds,
which list every undirected edge `{i,j}` exactly once (as `(min,max)`); entry `i+1` has
`connectors = [i]`, `newconfs = [-v(i)]`, `mel = -h`, and its connected state is `v` with
spin `i` flipped. -/
theorem Ising.FindConn_spec {D : Type} [LinearOrderedField D] (N : Nat)
    (adj : List (List Nat)) (h J : D) (v mel : List D) (hv : v.length = N)
    (hsym : ∀ i j, i < N → j < N → (j ∈ adj.getD i [] ↔ i ∈ adj.getD j []))
    (hnd : ∀ i, i < N → (adj.getD i []).Nodup) :
    ((Ising.Init N adj h J).FindConn v mel).mel.length = N + 1 ∧
    ((Ising.Init N adj h J).FindConn v mel).connectors.length = N + 1 ∧
    ((Ising.Init N adj h J).FindConn v mel).newconfs.length = N + 1 ∧
    ((Ising.Init N adj h J).FindConn v mel).connectors.getD 0 [] = [] ∧
    ((Ising.Init N adj h J).FindConn v mel).newconfs.getD 0 [] = [] ∧
    ((Ising.Init N adj h J).FindConn v mel).state v 0 = v ∧
    ((Ising.Init N adj h J).FindConn v mel).mel.getD 0 0
      = -(J * ((Ising.Init N adj h J).bondPairs.map
          (fun p => v.getD p.1 0 * v.getD p.2 0)).sum) ∧
    (∀ i j, i < N → j < N → i ≠ j → j ∈ adj.getD i [] →
      (Ising.Init N adj h J).bondPairs.count (min i j, max i j) = 1 ∧
      (max i j, min i j) ∉ (Ising.Init N adj h J).bondPairs) ∧
    (∀ p ∈ (Ising.Init N adj h J).bondPairs, p.1 < p.2 ∧ p.1 < N ∧ p.2 ∈ adj.getD p.1 []) ∧
    (∀ i, i < N →
      ((Ising.Init N adj h J).FindConn v mel).mel.getD (i + 1) 0 = -h ∧
      ((Ising.Init N adj h J).FindConn v mel).connectors.getD (i + 1) [] = [i] ∧
      ((Ising.Init N adj h J).FindConn v mel).newconfs.getD (i + 1) [] = [-(v.getD i 0)] ∧
      ((Ising.Init N adj h J).FindConn v mel).state v (i + 1) = v.set i (-(v.getD i 0)) ∧
      (∀ k, (((Ising.Init N adj h J).FindConn v mel).state v (i + 1)).getD k 0
        = if k = i then -(v.getD i 0) else v.getD k 0)) := by
  obtain ⟨l1, l2, l3, l4, l5, l6, l7⟩ := Ising.FindConn_loop (Ising.Init N adj h J) v
    { mel := (resizeVec mel (N + 1) 0).set 0 0
      connectors := List.replicate (N + 1) []
      newconfs := List.replicate (N + 1) [] } N
    (by simp [length_resizeVec]) rfl rfl
    (getD_set_self _ _ _ _ (by rw [length_resizeVec]; omega)) N le_rfl
  have hF : (Ising.Init N adj h J).FindConn v mel
      = (List.range N).foldl (Ising.FindConnStep (Ising.Init N adj h J) v)
        { mel := (resizeVec mel (N + 1) 0).set 0 0
          connectors := List.replicate (N + 1) []
          newconfs := List.replicate (N + 1) [] } := rfl
  rw [hF]
  have hmem := Ising.mem_bondPairs N adj h J
  have hnodup := Ising.nodup_bondPairs N adj h J hnd
  refine ⟨l1, l2, l3, ?_, ?_, ?_, ?_, ?_, ?_, ?_⟩
  · rw [l5 0, if_neg (by omega)]
  · rw [l6 0, if_neg (by omega)]
  · unfold Conn.state
    rw [l5 0, if_neg (by omega)]
    rfl
  · rw [l4]
    unfold Ising.bondPairs
    rw [List.map_flatMap]
    simp only [List.map_map, Function.comp_def]
    rfl
  · intro i j hi hj hne hadj
    rcases Nat.lt_or_gt_of_ne hne with hlt | hgt
    · rw [min_eq_left hlt.le, max_eq_right hlt.le]
      refine ⟨count_eq_one_of_nodup _ _ hnodup ((hmem i j).2 ⟨hi, hlt, hadj⟩), ?_⟩
      rw [hmem]
      omega
    · rw [min_eq_right hgt.le, max_eq_left hgt.le]
      refine ⟨count_eq_one_of_nodup _ _ hnodup
        ((hmem j i).2 ⟨hj, hgt, (hsym i j hi hj).1 hadj⟩), ?_⟩
      rw [hmem]
      omega
  · rintro ⟨a, b⟩ hp
    obtain ⟨h1, h2, h3⟩ := (hmem a b).1 hp
    exact ⟨h2, h1, h3⟩
  · intro i hi
    have hst : Conn.state ((List.range N).foldl (Ising.FindConnStep (Ising.Init N adj h J) v)
        { mel := (resizeVec mel (N + 1) 0).set 0 0
          connectors := List.replicate (N + 1) []
          newconfs := List.replicate (N + 1) [] }) v (i + 1) = v.set i (-(v.getD i 0)) := by
      unfold Conn.state
      rw [l5 (i + 1), l6 (i + 1), if_pos (by omega), if_pos (by omega)]
      rfl
    refine ⟨l7 (i + 1) (by omega) (by omega), ?_, ?_, hst, ?_⟩
    · rw [l5 (i + 1), if_pos (by omega)]
      rfl
    · rw [l6 (i + 1), if_pos (by omega)]
      rfl
    · intro k
      rw [hst]
      by_cases hk : k = i
      · subst hk
        rw [if_pos rfl]
        exact getD_set_self _ _ _ _ (by omega)
      · rw [if_neg hk]
        exact getD_set_of_ne _ _ _ _ _ (Ne.symm hk)

theorem Ising.FindConn_spec_witness :
    ((Ising.Init 4 [[1, 3], [0, 2], [1, 3], [2, 0]] (3 : ℚ) 2).FindConn [1, -1, 1, 1]
        [7, 7]).mel.getD 0 0
      = -(2 * ((Ising.Init 4 [[1, 3], [0, 2], [1, 3], [2, 0]] (3 : ℚ) 2).bondPairs.map
          (fun p => ([1, -1, 1, 1] : List ℚ).getD p.1 0
            * ([1, -1, 1, 1] : List ℚ).getD p.2 0)).sum) :=
  (Ising.FindConn_spec 4 [[1, 3], [0, 2], [1, 3], [2, 0]] (3 : ℚ) 2 [1, -1, 1, 1] [7, 7]
    (by decide) (by intro i j hi hj; interval_cases i <;> interval_cases j <;> decide)
    (by decide)).2.2.2.2.2.2.1

/-- C20 (as stated) fails: the adjacency list `[[1,1],[0,0]]` of a two-site graph is
symmetric and has no self-loop, but names the neighbour twice. `GenerateBonds` keeps both
entries, so the bond `(0,1)` is listed twice, and for `J = 1`, `v = (1,1)` `FindConn`
returns `mel[0] = -2`, whereas the sum over the only undirected edge `{0,1}`, taken once,
gives `-1`. -/
theorem Ising.FindConn_repeated_neighbour :
    (∀ i j, i < 2 → j < 2 →
      (j ∈ ([[1, 1], [0, 0]] : List (List Nat)).getD i []
        ↔ i ∈ ([[1, 1], [0, 0]] : List (List Nat)).getD j [])) ∧
    (∀ i, i < 2 → i ∉ ([[1, 1], [0, 0]] : List (List Nat)).getD i []) ∧
    (Ising.Init 2 [[1, 1], [0, 0]] (3 : ℚ) 1).bondPairs = [(0, 1), (0, 1)] ∧
    (Ising.Init 2 [[1, 1], [0, 0]] (3 : ℚ) 1).bondPairs.count (min 0 1, max 0 1) = 2 ∧
    ((Ising.Init 2 [[1, 1], [0, 0]] (3 : ℚ) 1).FindConn [1, 1] []).mel = [-2, -3, -3] ∧
    ((Ising.Init 2 [[1, 1], [0, 0]] (3 : ℚ) 1).FindConn [1, 1] []).mel.getD 0 0
      ≠ -(1 * (([1, 1] : List ℚ).getD 0 0 * ([1, 1] : List ℚ).getD 1 0)) := by
  refine ⟨?_, ?_, ?_, ?_, ?_, ?_⟩
  · intro i j hi hj
    interval_cases i <;> interval_cases j <;> decide
  · intro i hi
    interval_cases i <;> decide
  · decide
  · decide
  · with_unfolding_all rfl
  · have h : ((Ising.Init 2 [[1, 1], [0, 0]] (3 : ℚ) 1).FindConn [1, 1] []).mel
        = [-2, -3, -3] := by with_unfolding_all rfl
    rw [h]
    norm_num

/-! ### Exchange schedule within a sweep -/

theorem MetropolisLocalPt.LocalMove_nrep {D C LT G : Type} [LinearOrderedField D]
    (M : Numerics D C) (E : Engine G D) (psi : WfType D C LT) (hilbert : CustomHilbert D)
    (fuel rep : Nat) (s t : MetropolisLocalPt D LT G)
    (h : MetropolisLocalPt.LocalMove M E psi hilbert fuel rep s = some t) :
    t.nrep_ = s.nrep_ := by
  unfold MetropolisLocalPt.LocalMove at h
  simp only at h
  split_ifs at h
  simp only [Option.bind_eq_some] at h
  obtain ⟨xg, -, h⟩ := h
  split at h
  · exact absurd h (by simp)
  · split_ifs at h
    · simp only [Option.bind_eq_some] at h
      obtain ⟨v, -, h⟩ := h
      split_ifs at h
      simp only [Option.some.injEq] at h
      subst h
      rfl
    · simp only [Option.some.injEq] at h
      subst h
      rfl

theorem MetropolisLocalPt.ExchangeAttempt_nrep {D C LT G : Type} [LinearOrderedField D]
    (M : Numerics D C) (E : Engine G D) (psi : WfType D C LT) (r : Nat)
    (s t : MetropolisLocalPt D LT G)
    (h : MetropolisLocalPt.ExchangeAttempt M E psi r s = some t) : t.nrep_ = s.nrep_ := by
  unfold MetropolisLocalPt.ExchangeAttempt at h
  simp only [Option.bind_eq_some] at h
  obtain ⟨p, -, h⟩ := h
  split_ifs at h <;>
  · simp only [Option.some.injEq] at h
    subst h
    rfl

theorem length_swapAt {α : Type} (l : List α) (i j : Nat) :
    (swapAt l i j).length = l.length := by
  unfold swapAt
  split <;> simp

theorem MetropolisLocalPt.LocalMove_shape {D C LT G : Type} [LinearOrderedField D]
    (M : Numerics D C) (E : Engine G D) (psi : WfType D C LT) (hilbert : CustomHilbert D)
    (fuel rep : Nat) (s t : MetropolisLocalPt D LT G)
    (h : MetropolisLocalPt.LocalMove M E psi hilbert fuel rep s = some t) :
    t.lt_.length = s.lt_.length ∧ t.moves_.length = s.moves_.length := by
  unfold MetropolisLocalPt.LocalMove at h
  simp only at h
  split_ifs at h
  simp only [Option.bind_eq_some] at h
  obtain ⟨xg, -, h⟩ := h
  split at h
  · exact absurd h (by simp)
  · split_ifs at h
    · simp only [Option.bind_eq_some] at h
      obtain ⟨v, -, h⟩ := h
      split_ifs at h
      simp only [Option.some.injEq] at h
      subst h
      exact ⟨by simp, length_incr _ _⟩
    · simp only [Option.some.injEq] at h
      subst h
      exact ⟨rfl, length_incr _ _⟩

theorem MetropolisLocalPt.ExchangeAttempt_moves {D C LT G : Type} [LinearOrderedField D]
    (M : Numerics D C) (E : Engine G D) (psi : WfType D C LT) (r : Nat)
    (s : MetropolisLocalPt D LT G) (hr : 1 ≤ r) (hrR : r < s.nrep_)
    (hlt : s.lt_.length = s.nrep_) :
    ∃ t, MetropolisLocalPt.ExchangeAttempt M E psi r s = some t ∧ t.nrep_ = s.nrep_ ∧
      t.lt_.length = s.lt_.length ∧
      t.moves_ = incr (incr s.moves_ (s.nrep_ + r)) (s.nrep_ + r - 1) := by
  have h1 : s.lt_[r]? = some (s.lt_[r]) := List.getElem?_eq_getElem (by omega)
  have h2 : s.lt_[r - 1]? = some (s.lt_[r - 1]) := List.getElem?_eq_getElem (by omega)
  unfold MetropolisLocalPt.ExchangeAttempt MetropolisLocalPt.ExchangeProb
  rw [h1, h2]
  simp only [Option.some_bind]
  split_ifs
  · exact ⟨_, rfl, rfl, length_swapAt _ _ _, rfl⟩
  · exact ⟨_, rfl, rfl, rfl, rfl⟩

theorem MetropolisLocalPt.forEachM_cons {α : Type} (r : Nat) (rs : List Nat)
    (f : Nat → α → Option α) (a : α) :
    MetropolisLocalPt.forEachM (r :: rs) f a
      = (f r a).bind (MetropolisLocalPt.forEachM rs f) := by
  unfold MetropolisLocalPt.forEachM
  rw [List.foldlM_cons]
  rfl

theorem MetropolisLocalPt.forEachM_nil {α : Type} (f : Nat → α → Option α) (a : α) :
    MetropolisLocalPt.forEachM [] f a = some a := rfl

theorem MetropolisLocalPt.exchange_pass {D C LT G : Type} [LinearOrderedField D]
    (M : Numerics D C) (E : Engine G D) (psi : WfType D C LT) (R : Nat) :
    ∀ (rs : List Nat) (s : MetropolisLocalPt D LT G), (∀ r ∈ rs, 1 ≤ r ∧ r < R) →
      s.nrep_ = R → s.lt_.length = R → s.moves_.length = 2 * R →
      ∃ t, MetropolisLocalPt.forEachM rs (MetropolisLocalPt.ExchangeAttempt M E psi) s
          = some t ∧
        t.nrep_ = R ∧ t.lt_.length = R ∧ t.moves_.length = 2 * R ∧
        (∀ k, k < R → t.moves_.getD k 0 = s.moves_.getD k 0) ∧
        (∀ k, k < R →
          t.moves_.getD (R + k) 0 = s.moves_.getD (R + k) 0 + rs.count k + rs.count (k + 1)) := by
  intro rs
  induction rs with
  | nil =>
    intro s _ h1 h2 h3
    exact ⟨s, rfl, h1, h2, h3, fun _ _ => rfl, fun _ _ => by simp⟩
  | cons r rs ih =>
    intro s hrs h1 h2 h3
    obtain ⟨hr1, hr2⟩ := hrs r (List.mem_cons_self _ _)
    obtain ⟨s', e1, e2, e3, e4⟩ := MetropolisLocalPt.ExchangeAttempt_moves M E psi r s hr1
      (by omega) (by omega)
    rw [h1] at e4
    obtain ⟨m0, m1, m2, m3⟩ := getD_incr_incr s.moves_ (R + r) (R + r - 1) (by omega)
      (by omega) (by omega)
    obtain ⟨t, f1, f2, f3, f4, f5, f6⟩ := ih s'
      (fun q hq => hrs q (List.mem_cons_of_mem _ hq)) (by omega) (by omega)
      (by rw [e4, m0]; exact h3)
    refine ⟨t, ?_, f2, f3, f4, ?_, ?_⟩
    · rw [MetropolisLocalPt.forEachM_cons, e1]
      exact f1
    · intro k hk
      rw [f5 k hk, e4, m3 k (by omega) (by omega)]
    · intro k hk
      rw [f6 k hk, e4, List.count_cons, List.count_cons]
      by_cases ha : r = k
      · subst ha
        rw [m1]
        simp
        omega
      · by_cases hb : r = k + 1
        · subst hb
          have e : R + k = R + (k + 1) - 1 := by omega
          rw [e, m2]
          simp
          omega
        · rw [m3 (R + k) (by omega) (by omega)]
          simp [ha, hb]

theorem count_passIndices (nrep start k : Nat) :
    (passIndices nrep start).count k
      = if start ≤ k ∧ k < nrep ∧ (k - start) % 2 = 0 then 1 else 0 := by
  by_cases h : k ∈ passIndices nrep start
  · rw [count_eq_one_of_nodup k _
      ((passIndices_sorted nrep start).imp (fun h => Nat.ne_of_lt h)) h,
      if_pos ((mem_passIndices nrep start k).1 h)]
  · rw [List.count_eq_zero_of_not_mem h, if_neg (fun hc => h ((mem_passIndices nrep start k).2 hc))]

theorem MetropolisLocalPt.LocalSweeps_shape {D C LT G : Type} [LinearOrderedField D]
    (M : Numerics D C) (E : Engine G D) (psi : WfType D C LT) (hilbert : CustomHilbert D)
    (fuel : Nat) (rs : List Nat) (s s1 : MetropolisLocalPt D LT G)
    (h : MetropolisLocalPt.forEachM rs (MetropolisLocalPt.LocalSweep M E psi hilbert fuel) s
      = some s1) :
    s1.nrep_ = s.nrep_ ∧ s1.lt_.length = s.lt_.length ∧ s1.moves_.length = s.moves_.length := by
  refine forEachM_invariant
    (fun x => x.nrep_ = s.nrep_ ∧ x.lt_.length = s.lt_.length ∧
      x.moves_.length = s.moves_.length) _ rs s s1 ?_ ⟨rfl, rfl, rfl⟩ h
  intro r _ x y hx hxy
  refine iterateM_invariant
    (fun x => x.nrep_ = s.nrep_ ∧ x.lt_.length = s.lt_.length ∧
      x.moves_.length = s.moves_.length) _ ?_ _ x y hx hxy
  intro a b ha hab
  have h1 := MetropolisLocalPt.LocalMove_nrep M E psi hilbert fuel r a b hab
  have h2 := MetropolisLocalPt.LocalMove_shape M E psi hilbert fuel r a b hab
  exact ⟨h1.trans ha.1, h2.1.trans ha.2.1, h2.2.trans ha.2.2⟩

theorem MetropolisLocalPt.Sweep_eq {D C LT G : Type} [LinearOrderedField D]
    (M : Numerics D C) (E : Engine G D) (psi : WfType D C LT) (hilbert : CustomHilbert D)
    (fuel : Nat) (s : MetropolisLocalPt D LT G) :
    MetropolisLocalPt.Sweep M E psi hilbert fuel s
      = (MetropolisLocalPt.forEachM (List.range s.nrep_)
          (MetropolisLocalPt.LocalSweep M E psi hilbert fuel) s).bind (fun s1 =>
        (MetropolisLocalPt.forEachM (passIndices s.nrep_ 1)
          (MetropolisLocalPt.ExchangeAttempt M E psi) s1).bind
          (MetropolisLocalPt.forEachM (passIndices s.nrep_ 2)
            (MetropolisLocalPt.ExchangeAttempt M E psi))) := by
  unfold MetropolisLocalPt.Sweep
  cases h1 : MetropolisLocalPt.forEachM (List.range s.nrep_)
      (MetropolisLocalPt.LocalSweep M E psi hilbert fuel) s with
  | none => rfl
  | some s1 =>
    have e1 := (MetropolisLocalPt.LocalSweeps_shape M E psi hilbert fuel _ s s1 h1).1
    simp only [Option.some_bind, e1]
    cases h2 : MetropolisLocalPt.forEachM (passIndices s.nrep_ 1)
        (MetropolisLocalPt.ExchangeAttempt M E psi) s1 with
    | none => rfl
    | some s2 =>
      have e2 : s2.nrep_ = s.nrep_ :=
        forEachM_invariant (fun x => x.nrep_ = s.nrep_) _ _ s1 s2
          (fun r _ x y hx hxy =>
            (MetropolisLocalPt.ExchangeAttempt_nrep M E psi r x y hxy).trans hx) e1 h2
      simp only [Option.some_bind, e2]

/-- C5: a sweep of a sampler with `R` replicas is the local sweeps followed by the
exchange attempts `ExchangeAttempt r` on the pairs `(r,r-1)` for the `r` of
`passIndices R 1` and then of `passIndices R 2`, which are `r=1,3,5,..<R` and
`r=2,4,..<R` in ascending order. Once the local sweeps have returned, both passes and
the sweep return, and the attempts show in the exchange move counters: in pass 1 the
counter `moves_(R+k)` of replica `k` grows by 1 if `k` belongs to a pair of pass 1 and by
0 if not, likewise in pass 2, and over the sweep it grows by the number of adjacent pairs
that contain `k`, while no local move counter changes. Every `r` with `1≤r<R` is visited
exactly once in the sweep, and two different pairs `(r,r-1)`, `(q,q-1)` of one pass share
no replica. -/
theorem MetropolisLocalPt.exchange_schedule {D C LT G : Type} [LinearOrderedField D]
    (M : Numerics D C) (E : Engine G D) (psi : WfType D C LT) (hilbert : CustomHilbert D)
    (fuel : Nat) (R : Nat) :
    (∀ s : MetropolisLocalPt D LT G, s.nrep_ = R →
      MetropolisLocalPt.Sweep M E psi hilbert fuel s
        = (MetropolisLocalPt.forEachM (List.range R)
            (MetropolisLocalPt.LocalSweep M E psi hilbert fuel) s).bind (fun s1 =>
          (MetropolisLocalPt.forEachM (passIndices R 1)
            (MetropolisLocalPt.ExchangeAttempt M E psi) s1).bind
            (MetropolisLocalPt.forEachM (passIndices R 2)
              (MetropolisLocalPt.ExchangeAttempt M E psi)))) ∧
    (∀ s s1 : MetropolisLocalPt D LT G, s.nrep_ = R → s.lt_.length = R →
      s.moves_.length = 2 * R →
      MetropolisLocalPt.forEachM (List.range R)
        (MetropolisLocalPt.LocalSweep M E psi hilbert fuel) s = some s1 →
      ∃ s2 t,
        MetropolisLocalPt.forEachM (passIndices R 1)
          (MetropolisLocalPt.ExchangeAttempt M E psi) s1 = some s2 ∧
        MetropolisLocalPt.forEachM (passIndices R 2)
          (MetropolisLocalPt.ExchangeAttempt M E psi) s2 = some t ∧
        MetropolisLocalPt.Sweep M E psi hilbert fuel s = some t ∧
        (∀ k, k < R → s2.moves_.getD (R + k) 0 = s1.moves_.getD (R + k) 0
          + (if k % 2 = 1 ∨ (k % 2 = 0 ∧ k + 1 < R) then 1 else 0)) ∧
        (∀ k, k < R → t.moves_.getD (R + k) 0 = s2.moves_.getD (R + k) 0
          + (if (k % 2 = 0 ∧ 2 ≤ k) ∨ (k % 2 = 1 ∧ k + 1 < R) then 1 else 0)) ∧
        (∀ k, k < R → t.moves_.getD (R + k) 0 = s1.moves_.getD (R + k) 0
          + (if 1 ≤ k then 1 else 0) + (if k + 1 < R then 1 else 0)) ∧
        (∀ k, k < R → t.moves_.getD k 0 = s1.moves_.getD k 0)) ∧
    (∀ r, r ∈ passIndices R 1 ↔ r < R ∧ r % 2 = 1) ∧
    (∀ r, r ∈ passIndices R 2 ↔ 2 ≤ r ∧ r < R ∧ r % 2 = 0) ∧
    (passIndices R 1).Pairwise (fun a b => a < b) ∧
    (passIndices R 2).Pairwise (fun a b => a < b) ∧
    (∀ r, 1 ≤ r → r < R → (passIndices R 1 ++ passIndices R 2).count r = 1) ∧
    (∀ r, r ∈ passIndices R 1 ++ passIndices R 2 → 1 ≤ r ∧ r < R) ∧
    (∀ start, start = 1 ∨ start = 2 → ∀ r ∈ passIndices R start, ∀ q ∈ passIndices R start,
      r ≠ q → r ≠ q - 1 ∧ r - 1 ≠ q ∧ r - 1 ≠ q - 1) := by
  have h1 : ∀ r, r ∈ passIndices R 1 ↔ r < R ∧ r % 2 = 1 := by
    intro r
    rw [mem_passIndices R 1 r]
    omega
  have h2 : ∀ r, r ∈ passIndices R 2 ↔ 2 ≤ r ∧ r < R ∧ r % 2 = 0 := by
    intro r
    rw [mem_passIndices R 2 r]
    omega
  have s1 := passIndices_sorted R 1
  have s2 := passIndices_sorted R 2
  have hnd : (passIndices R 1 ++ passIndices R 2).Nodup := by
    rw [List.nodup_append]
    refine ⟨s1.imp (fun h => Nat.ne_of_lt h), s2.imp (fun h => Nat.ne_of_lt h), ?_⟩
    intro a ha hb
    rw [h1] at ha
    rw [h2] at hb
    omega
  refine ⟨?_, ?_, h1, h2, s1, s2, ?_, ?_, ?_⟩
  · intro s hR
    rw [MetropolisLocalPt.Sweep_eq, hR]
  · intro s x hR hlt hmov hx
    obtain ⟨x1, x2, x3⟩ := MetropolisLocalPt.LocalSweeps_shape M E psi hilbert fuel _ s x hx
    obtain ⟨y, y0, y1, y2, y3, y4, y5⟩ := MetropolisLocalPt.exchange_pass M E psi R
      (passIndices R 1) x (fun r hr => by rw [h1] at hr; omega) (by omega) (by omega)
      (by omega)
    obtain ⟨t, t0, -, -, -, t4, t5⟩ := MetropolisLocalPt.exchange_pass M E psi R
      (passIndices R 2) y (fun r hr => by rw [h2] at hr; omega) y1 y2 y3
    have c1 : ∀ k, k < R → (passIndices R 1).count k + (passIndices R 1).count (k + 1)
        = if k % 2 = 1 ∨ (k % 2 = 0 ∧ k + 1 < R) then 1 else 0 := by
      intro k hk
      rw [count_passIndices, count_passIndices]
      split_ifs <;> omega
    have c2 : ∀ k, k < R → (passIndices R 2).count k + (passIndices R 2).count (k + 1)
        = if (k % 2 = 0 ∧ 2 ≤ k) ∨ (k % 2 = 1 ∧ k + 1 < R) then 1 else 0 := by
      intro k hk
      rw [count_passIndices, count_passIndices]
      split_ifs <;> omega
    have p1 : ∀ k, k < R → y.moves_.getD (R + k) 0 = x.moves_.getD (R + k) 0
        + (if k % 2 = 1 ∨ (k % 2 = 0 ∧ k + 1 < R) then 1 else 0) := by
      intro k hk
      rw [y5 k hk, ← c1 k hk, Nat.add_assoc]
    have p2 : ∀ k, k < R → t.moves_.getD (R + k) 0 = y.moves_.getD (R + k) 0
        + (if (k % 2 = 0 ∧ 2 ≤ k) ∨ (k % 2 = 1 ∧ k + 1 < R) then 1 else 0) := by
      intro k hk
      rw [t5 k hk, ← c2 k hk, Nat.add_assoc]
    refine ⟨y, t, y0, t0, ?_, p1, p2, ?_, ?_⟩
    · rw [MetropolisLocalPt.Sweep_eq, hR, hx, Option.some_bind, y0, Option.some_bind, t0]
    · intro k hk
      rw [p2 k hk, p1 k hk]
      split_ifs <;> omega
    · intro k hk
      rw [t4 k hk, y4 k hk]
  · intro r hr1 hrR
    apply count_eq_one_of_nodup _ _ hnd
    rw [List.mem_append, h1, h2]
    omega
  · intro r hr
    rw [List.mem_append, h1, h2] at hr
    omega
  · intro start hstart r hr q hq hne
    rcases hstart with rfl | rfl
    · rw [h1] at hr hq
      omega
    · rw [h2] at hr hq
      omega

theorem demoPtLocal5_step0 :
    MetropolisLocalPt.LocalSweep demoNumerics demoEngine demoPsi demoHilbert 0 0
      demoPtState5 = some (demoPtLocal5 1) := by
  with_unfolding_all rfl

theorem demoPtLocal5_step1 :
    MetropolisLocalPt.LocalSweep demoNumerics demoEngine demoPsi demoHilbert 0 1
      (demoPtLocal5 1) = some (demoPtLocal5 2) := by
  with_unfolding_all rfl

theorem demoPtLocal5_step2 :
    MetropolisLocalPt.LocalSweep demoNumerics demoEngine demoPsi demoHilbert 0 2
      (demoPtLocal5 2) = some (demoPtLocal5 3) := by
  with_unfolding_all rfl

theorem demoPtLocal5_step3 :
    MetropolisLocalPt.LocalSweep demoNumerics demoEngine demoPsi demoHilbert 0 3
      (demoPtLocal5 3) = some (demoPtLocal5 4) := by
  with_unfolding_all rfl

theorem demoPtLocal5_step4 :
    MetropolisLocalPt.LocalSweep demoNumerics demoEngine demoPsi demoHilbert 0 4
      (demoPtLocal5 4) = some (demoPtLocal5 5) := by
  with_unfolding_all rfl

theorem demoPtLocal5_sweeps :
    MetropolisLocalPt.forEachM (List.range 5)
      (MetropolisLocalPt.LocalSweep demoNumerics demoEngine demoPsi demoHilbert 0) demoPtState5
      = some (demoPtLocal5 5) := by
  rw [show List.range 5 = [0, 1, 2, 3, 4] from rfl]
  simp only [MetropolisLocalPt.forEachM_cons, MetropolisLocalPt.forEachM_nil,
    demoPtLocal5_step0, demoPtLocal5_step1, demoPtLocal5_step2, demoPtLocal5_step3,
    demoPtLocal5_step4, Option.some_bind]

theorem MetropolisLocalPt.exchange_schedule_witness :
    MetropolisLocalPt.Init demoEngine demoPsi demoHilbert 1 0 (fun _ => 0) 5
      = some demoPtState5 ∧
    passIndices 5 1 = [1, 3] ∧ passIndices 5 2 = [2, 4] ∧
    ∃ s2 t,
      MetropolisLocalPt.forEachM (List.range 5)
        (MetropolisLocalPt.LocalSweep demoNumerics demoEngine demoPsi demoHilbert 0) demoPtState5
        = some (demoPtLocal5 5) ∧
      (demoPtLocal5 5).moves_ = [4, 4, 4, 4, 4, 0, 0, 0, 0, 0] ∧
      MetropolisLocalPt.forEachM (passIndices 5 1)
        (MetropolisLocalPt.ExchangeAttempt demoNumerics demoEngine demoPsi) (demoPtLocal5 5) = some s2 ∧
      MetropolisLocalPt.forEachM (passIndices 5 2)
        (MetropolisLocalPt.ExchangeAttempt demoNumerics demoEngine demoPsi) s2 = some t ∧
      MetropolisLocalPt.Sweep demoNumerics demoEngine demoPsi demoHilbert 0 demoPtState5
        = some t ∧
      (List.range 5).map (fun k => s2.moves_.getD (5 + k) 0) = [1, 1, 1, 1, 0] ∧
      (List.range 5).map (fun k => t.moves_.getD (5 + k) 0) = [1, 2, 2, 2, 1] ∧
      (List.range 5).map (fun k => t.moves_.getD k 0) = [4, 4, 4, 4, 4] := by
  obtain ⟨s2, t, a1, a2, a3, p1, -, p3, p4⟩ :=
    (MetropolisLocalPt.exchange_schedule demoNumerics demoEngine demoPsi demoHilbert 0 5).2.1
      demoPtState5 (demoPtLocal5 5) rfl rfl rfl demoPtLocal5_sweeps
  refine ⟨by with_unfolding_all rfl, by decide, by decide, s2, t, demoPtLocal5_sweeps,
    by decide, a1, a2, a3, ?_, ?_, ?_⟩
  · have q0 := p1 0 (by decide)
    have q1 := p1 1 (by decide)
    have q2 := p1 2 (by decide)
    have q3 := p1 3 (by decide)
    have q4 := p1 4 (by decide)
    simp only [List.range, List.range.loop, List.map_cons, List.map_nil, q0, q1, q2, q3, q4]
    decide
  · have q0 := p3 0 (by decide)
    have q1 := p3 1 (by decide)
    have q2 := p3 2 (by decide)
    have q3 := p3 3 (by decide)
    have q4 := p3 4 (by decide)
    simp only [List.range, List.range.loop, List.map_cons, List.map_nil, q0, q1, q2, q3, q4]
    decide
  · have q0 := p4 0 (by decide)
    have q1 := p4 1 (by decide)
    have q2 := p4 2 (by decide)
    have q3 := p4 3 (by decide)
    have q4 := p4 4 (by decide)
    simp only [List.range, List.range.loop, List.map_cons, List.map_nil, q0, q1, q2, q3, q4]
    decide

end netket
